import Mathlib

/-!
Verification of `genpw.cpp` (Sc00bz/generate-password)

A shallow embedding of `genPassword_getBitStrength`, `genPassword_getBaseLength`,
`genPassword` and `genPasswordLength`, followed by theorems about them.

Modelling conventions

* A `char` is a natural number (its ASCII code); the password buffer and the two pools are
  `List Nat`. Every array read and write is checked: an access outside the list makes the
  run end in `Fault.outOfBounds` (undefined behaviour in C++).
* `uint32_t` values are natural numbers; the only place where the source wraps
  (`maxLetter--` / `maxDigit--` after the last draw) is reduced modulo `2 ^ 32`.
* The random source of `csprng.h` is not part of the repository. It is a parameter
  `Csprng σ`: a pair of state-passing functions over an arbitrary state type `σ`.
* The `do ... while` rejection loop need not terminate, so `genPasswordLength` takes a
  `fuel` argument bounding the number of shuffle passes; running out of it is
  `Fault.outOfFuel`.
* `secureClearMemory` only overwrites the local pools, which are dead afterwards; it has no
  effect on the result and is not modelled.
-/

namespace GenPw

/-! ## Faults and checked memory access -/

/-- Ways in which a run of the model ends without returning. -/
inductive Fault where
  | outOfBounds
  | outOfFuel
  deriving DecidableEq, Repr

/-- Checked read `xs[i]`. -/
def readAt (xs : List Nat) (i : Nat) : Except Fault Nat :=
  match xs[i]? with
  | some c => .ok c
  | none => .error .outOfBounds

/-- Checked write `xs[i] = c`. -/
def writeAt (xs : List Nat) (i : Nat) (c : Nat) : Except Fault (List Nat) :=
  if i < xs.length then .ok (xs.set i c) else .error .outOfBounds

/-! ## The random source (`csprng.h`, external) -/

/-- The external random source: `randomUint8 max` and `randomUint32 max`, each mapping the
requested inclusive bound and the current state to an answer and the next state. -/
structure Csprng (σ : Type) where
  randomUint8 : Nat → σ → Nat × σ
  randomUint32 : Nat → σ → Nat × σ

/-- Every answer of the random source lies within the requested inclusive range. -/
def Csprng.InRange {σ : Type} (rng : Csprng σ) : Prop :=
  (∀ m s, (rng.randomUint8 m s).1 ≤ m) ∧ (∀ m s, (rng.randomUint32 m s).1 ≤ m)

/-! ## Constants of `genpw.h` and `genpw.cpp` -/

def GEN_PASSWORD_FLAG_NEED_UPPERCASE : Int := 1
def GEN_PASSWORD_FLAG_NEED_SYMBOL : Int := 2

/-- The table `EXTRA_LETTER[]` (new values). -/
def EXTRA_LETTER : List Nat :=
  [441, 10, 171, 1482, 10, 935, 256, 41, 9035, 1274, 9212, 1659, 61952, 55913, 205139, 5937,
   44859, 160227, 5770, 2072021, 592009, 4292123, 1330205, 342987, 696864, 38567075, 20980492,
   5431341]

/-- The table `EXTRA_CHAR_MAX[]` (new values). -/
def EXTRA_CHAR_MAX : List Nat :=
  [840, 20, 394, 2608, 18, 1921, 570, 74, 17746, 2698, 16346, 3148, 126526, 123722, 375666,
   11704, 96130, 280399, 10908, 4292075, 1369029, 7630450, 2630852, 781248, 1097560, 69420746,
   47206114, 19552830]

/-- The pool `letters[]`: the characters a to z. -/
def LETTERS : List Nat :=
  [97, 98, 99, 100, 101, 102, 103, 104, 105, 106, 107, 108, 109, 110, 111, 112, 113, 114, 115,
   116, 117, 118, 119, 120, 121, 122]

/-- The pool `digits[]`: the characters 0 to 9. -/
def DIGITS : List Nat := [48, 49, 50, 51, 52, 53, 54, 55, 56, 57]

/-! ## `genPasswordLength` -/

/-- The digit/letter split (source lines 155 to 233): returns `(numLetters, numDigits)` and
the state of the random source after the tie-break draw. -/
def splitCounts {σ : Type} (rng : Csprng σ) (baseLength : Nat) (s : σ) :
    Except Fault (Nat × Nat × σ) :=
  let numDigits := (10 * baseLength + baseLength / 8) / 36
  let numLetters := baseLength - numDigits - 1
  if baseLength = 36 then
    .ok (numLetters + 1, numDigits, s)
  else do
    let charMax ← readAt EXTRA_CHAR_MAX (baseLength - 8)
    let r := rng.randomUint32 charMax s
    let letter ← readAt EXTRA_LETTER (baseLength - 8)
    if r.1 < letter then
      .ok (numLetters + 1, numDigits, r.2)
    else
      .ok (numLetters, numDigits + 1, r.2)

/-- The two drawing loops (source lines 240 to 246 and 248 to 254), which differ only in the
pool and in the offset added to the buffer index: `count` more iterations, the loop counter
at `i`, the last live pool index at `maxIdx`. Returns the buffer and the pool. -/
def drawChars {σ : Type} (rng : Csprng σ) (offset : Nat) :
    Nat → Nat → List Nat → Nat → List Nat → σ → Except Fault (List Nat × List Nat × σ)
  | 0, _, pool, _, password, s => .ok (password, pool, s)
  | count + 1, i, pool, maxIdx, password, s => do
    let r := rng.randomUint8 (maxIdx % 256) s
    let c ← readAt pool r.1
    let password ← writeAt password (i + offset) c
    let last ← readAt pool maxIdx
    let pool ← writeAt pool r.1 last
    drawChars rng offset count (i + 1) pool ((maxIdx + 2 ^ 32 - 1) % 2 ^ 32) password r.2

/-- The statement `password[a] ^= password[b]`. -/
def xorAssign (password : List Nat) (a b : Nat) : Except Fault (List Nat) := do
  let x ← readAt password a
  let y ← readAt password b
  writeAt password a (x ^^^ y)

/-- One pass of the shuffle loop (source lines 263 to 273): `count` more iterations, the
loop counter at `i`. -/
def shufflePass {σ : Type} (rng : Csprng σ) (baseLength : Nat) :
    Nat → Nat → List Nat → σ → Except Fault (List Nat × σ)
  | 0, _, password, s => .ok (password, s)
  | count + 1, i, password, s =>
    let r := rng.randomUint8 ((baseLength - 1) % 256) s
    if i ≠ r.1 then do
      let password ← xorAssign password i r.1
      let password ← xorAssign password r.1 i
      let password ← xorAssign password i r.1
      shufflePass rng baseLength count (i + 1) password r.2
    else
      shufflePass rng baseLength count (i + 1) password r.2

/-- The scanning loop of the contiguity check (source lines 281 to 291): `count` more
iterations, the loop counter at `i`. -/
def scanDigits : Nat → Nat → Nat → List Nat → Except Fault Nat
  | 0, _, digitsInARow, _ => .ok digitsInARow
  | count + 1, i, digitsInARow, password => do
    let c ← readAt password i
    if c ≤ 57 then do
      let p ← readAt password (i - 1)
      let digitsInARow := if p > 57 then 0 else digitsInARow
      scanDigits count (i + 1) (digitsInARow + 1) password
    else
      scanDigits count (i + 1) digitsInARow password

/-- The contiguity check (source lines 276 to 291): the final value of `digitsInARow`. -/
def countDigitsInARow (baseLength : Nat) (password : List Nat) : Except Fault Nat := do
  let c ← readAt password 0
  let digitsInARow := if c ≤ 57 then 1 else 0
  scanDigits (baseLength - 1) 1 digitsInARow password

/-- The `do ... while (digitsInARow == numDigits)` loop (source lines 260 to 292), run for
at most `fuel` passes. -/
def shuffleUntil {σ : Type} (rng : Csprng σ) (baseLength numDigits : Nat) :
    Nat → List Nat → σ → Except Fault (List Nat × σ)
  | 0, _, _ => .error .outOfFuel
  | fuel + 1, password, s => do
    let r ← shufflePass rng baseLength baseLength 0 password s
    let digitsInARow ← countDigitsInARow baseLength r.1
    if digitsInARow = numDigits then
      shuffleUntil rng baseLength numDigits fuel r.1 r.2
    else
      .ok r

/-- The uppercase loop (source lines 297 to 304): `count` more iterations, the loop counter
at `i`. -/
def upcaseFirst : Nat → Nat → List Nat → Except Fault (List Nat)
  | 0, _, password => .ok password
  | count + 1, i, password => do
    let c ← readAt password i
    if c ≥ 97 then
      writeAt password i (c - 32)
    else
      upcaseFirst count (i + 1) password

/-- The flag handling (source lines 295 to 310). -/
def applyFlags (baseLength : Nat) (flags : Int) (password : List Nat) :
    Except Fault (List Nat) := do
  let password ←
    (if Int.land flags GEN_PASSWORD_FLAG_NEED_UPPERCASE ≠ 0 then
      upcaseFirst baseLength 0 password
    else
      .ok password)
  if Int.land flags GEN_PASSWORD_FLAG_NEED_SYMBOL ≠ 0 then do
    let password ← writeAt password baseLength 33
    writeAt password (baseLength + 1) 0
  else
    .ok password

/-- The function `genPasswordLength`: returns the status, the buffer and the state of the
random source. -/
def genPasswordLength {σ : Type} (rng : Csprng σ) (fuel : Nat) (password : List Nat)
    (baseLength : Nat) (flags : Int) (s : σ) : Except Fault (Nat × List Nat × σ) :=
  if baseLength < 8 ∨ baseLength > 36 then
    .ok (1, password, s)
  else do
    let (numLetters, numDigits, s) ← splitCounts rng baseLength s
    let (password, _, s) ← drawChars rng 0 numLetters 0 LETTERS 25 password s
    let (password, _, s) ← drawChars rng numLetters numDigits 0 DIGITS 9 password s
    let password ← writeAt password baseLength 0
    let (password, s) ← shuffleUntil rng baseLength numDigits fuel password s
    let password ← applyFlags baseLength flags password
    .ok (0, password, s)

/-! ## `genPassword_getBitStrength` -/

/-- The integer part of the binary logarithm of `n`, for `0 < n < 2 ^ steps`. -/
def log2Floor : Nat → Nat → Nat
  | 0, _ => 0
  | steps + 1, n => if n < 2 then 0 else log2Floor steps (n / 2) + 1

/-- The IEEE 754 binary64 value (round to nearest, ties to even) of the decimal literal
`num / 10 ^ frac`, for a literal that is at least 1, as an exact multiple of `2 ^ (-52)`:
the result `x` stands for the number `x / 2 ^ 52`. -/
def binary64 (num frac : Nat) : Nat :=
  let den := 10 ^ frac
  let e := log2Floor 64 (num / den)
  let unit := den * 2 ^ e
  let q := num * 2 ^ 52 / unit
  let r := num * 2 ^ 52 % unit
  let m := if 2 * r < unit then q else if 2 * r > unit then q + 1
    else if q % 2 = 0 then q else q + 1
  m * 2 ^ e

/-- The number that a `double` of the model stands for. -/
def doubleValue (x : Nat) : ℚ := (x : ℚ) / 2 ^ 52

/-- The table `BIT_STRENGTHS[]` of `genPassword_getBitStrength`: 29 `double` values. -/
def genPassword_getBitStrength.BIT_STRENGTHS : List Nat :=
  [binary64 391200670699161 13, binary64 439960948472761 13, binary64 487440594403916 13,
   binary64 534676318261445 13, binary64 581764480484353 13, binary64 627665238278741 13,
   binary64 672404445074635 13, binary64 717042336853753 13, binary64 761312709240191 13,
   binary64 804365604507374 13, binary64 846200519662894 13, binary64 888587015762423 13,
   binary64 929647168662745 13, binary64 969323853082289 13, binary64 100856654071890 12,
   binary64 104721219076432 12, binary64 108426520544345 12, binary64 111970933247131 12,
   binary64 115534965175914 12, binary64 118907050614862 12, binary64 122065883975916 12,
   binary64 125129460745934 12, binary64 128052654673660 12, binary64 130687036809517 12,
   binary64 132984838512222 12, binary64 135221877995274 12, binary64 136987412956791 12,
   binary64 138094328330543 12, binary64 138094328478112 12]

/-- The function `genPassword_getBitStrength`; the `double` it returns is given as a
multiple of `2 ^ (-52)` (see `binary64` and `doubleValue`). -/
def genPassword_getBitStrength (baseLength : Nat) : Except Fault Nat :=
  if baseLength < 8 ∨ baseLength > 36 then
    .ok 0
  else
    readAt genPassword_getBitStrength.BIT_STRENGTHS (baseLength - 8)

/-! ## `genPassword_getBaseLength` (default mode) -/

/-- The table `BIT_STRENGTHS[]` of `genPassword_getBaseLength`. -/
def genPassword_getBaseLength.BIT_STRENGTHS : List Nat := [48, 58, 67, 76, 80, 96, 100, 128]

/-- The table `LENGTHS[]` of `genPassword_getBaseLength`. -/
def genPassword_getBaseLength.LENGTHS : List Nat := [10, 12, 14, 16, 17, 21, 22, 30]

/-- The constant `COUNT` of `genPassword_getBaseLength`. -/
def genPassword_getBaseLength.COUNT : Nat := genPassword_getBaseLength.BIT_STRENGTHS.length

/-- The loop of the standard algorithm `std::lower_bound` (binary search): `first` is the
start of the remaining range and `len` its length; `steps` bounds the iterations and is
never exhausted when it starts at `len`. -/
def lowerBoundLoop (xs : List Nat) (value : Nat) : Nat → Nat → Nat → Except Fault Nat
  | 0, first, len => if len > 0 then .error .outOfFuel else .ok first
  | steps + 1, first, len =>
    if len > 0 then do
      let half := len / 2
      let middle := first + half
      let x ← readAt xs middle
      if x < value then
        lowerBoundLoop xs value steps (middle + 1) (len - half - 1)
      else
        lowerBoundLoop xs value steps first half
    else
      .ok first

/-- The standard algorithm `std::lower_bound(xs + first, xs + last, value) - xs`. -/
def lowerBound (xs : List Nat) (first last value : Nat) : Except Fault Nat :=
  lowerBoundLoop xs value (last - first) first (last - first)

/-- The function `genPassword_getBaseLength` (without
`GEN_PASSWORD_FULL_RANGE_BIT_STRENGTH`). -/
def genPassword_getBaseLength (bitStrength : Nat) : Except Fault Nat := do
  let top ← readAt genPassword_getBaseLength.BIT_STRENGTHS (genPassword_getBaseLength.COUNT - 1)
  if bitStrength > top then
    .ok 0
  else do
    let length ← lowerBound genPassword_getBaseLength.BIT_STRENGTHS 0
      (genPassword_getBaseLength.COUNT - 1) bitStrength
    readAt genPassword_getBaseLength.LENGTHS length

/-! ## `genPassword` -/

/-- Addition of two `uint32_t` values. -/
def add32 (a b : Nat) : Nat := (a + b) % 2 ^ 32

/-- Subtraction of two `uint32_t` values. -/
def sub32 (a b : Nat) : Nat := (a % 2 ^ 32 + 2 ^ 32 - b % 2 ^ 32) % 2 ^ 32

/-- Multiplication of two `uint32_t` values. -/
def mul32 (a b : Nat) : Nat := a * b % 2 ^ 32

/-- The loop `for (...; i <= baseLength; i++) tmp *= i` on the `uint64_t` variable `tmp`
(source lines 190 to 194): `count` more iterations, the loop counter at `i`. -/
def productLoop64 : Nat → Nat → Nat → Nat
  | 0, _, tmp => tmp
  | count + 1, i, tmp => productLoop64 count (add32 i 1) (tmp * i % 2 ^ 64)

/-- The loop `for (...; i <= numDigits; i++) tmp2 *= i` on the `uint32_t` variable `tmp2`
(source lines 198 to 202): `count` more iterations, the loop counter at `i`. -/
def productLoop32 : Nat → Nat → Nat → Nat
  | 0, _, tmp2 => tmp2
  | count + 1, i, tmp2 => productLoop32 count (add32 i 1) (mul32 tmp2 i)

/-- The values `x` and `y` of source lines 188 to 210, in the code's unsigned 32-bit and
64-bit arithmetic. A loop `for (i = a; i <= b; i++)` makes `b + 1 - a` iterations. The two
divisors are `tmp2`, at least 2 unless the product wrapped, and `numDigits + 1`. -/
def calculateProbability (baseLength numDigits numLetters : Nat) : Nat × Nat :=
  let tmp := productLoop64 (baseLength + 1 - add32 (sub32 baseLength numDigits) 2)
    (add32 (sub32 baseLength numDigits) 2) (add32 (sub32 baseLength numDigits) 1)
  let tmp2 := productLoop32 (numDigits + 1 - 3) 3 2
  let tmp2 := tmp / tmp2 % 2 ^ 32
  let x := mul32 (sub32 26 numLetters) (sub32 (sub32 tmp2 numLetters) 2)
  let y := mul32 (sub32 10 numDigits)
    (sub32 (sub32 (mul32 tmp2 (sub32 baseLength numDigits) / add32 numDigits 1) numLetters) 1)
  (x, y)

/-- The digit/letter split (source lines 155 to 233) when
`GEN_PASSWORD_CALCULATE_PROBABILITY` is defined. -/
def splitCountsCalculated {σ : Type} (rng : Csprng σ) (baseLength : Nat) (s : σ) :
    Except Fault (Nat × Nat × σ) :=
  let numDigits := (10 * baseLength + baseLength / 8) / 36
  let numLetters := baseLength - numDigits - 1
  if baseLength = 36 then
    .ok (numLetters + 1, numDigits, s)
  else
    let xy := calculateProbability baseLength numDigits numLetters
    let r := rng.randomUint32 (sub32 (add32 xy.1 xy.2) 1) s
    if r.1 < xy.1 then
      .ok (numLetters + 1, numDigits, r.2)
    else
      .ok (numLetters, numDigits + 1, r.2)

/-! ## `genPassword_getBaseLength` with `GEN_PASSWORD_FULL_RANGE_BIT_STRENGTH` -/

/-- The table `BIT_STRENGTHS[]` of `genPassword_getBaseLength` in full-range mode. -/
def genPassword_getBaseLength_fullRange.BIT_STRENGTHS : List Nat :=
  [39, 43, 48, 53, 58, 62, 67, 71, 76, 80, 84, 88, 92, 96, 100, 104, 108, 111, 115, 118, 122,
   125, 128, 130, 132, 135, 136, 138]

/-- The constant `COUNT` of `genPassword_getBaseLength` in full-range mode. -/
def genPassword_getBaseLength_fullRange.COUNT : Nat :=
  genPassword_getBaseLength_fullRange.BIT_STRENGTHS.length

/-- The function `genPassword_getBaseLength` when `GEN_PASSWORD_FULL_RANGE_BIT_STRENGTH` is
defined. -/
def genPassword_getBaseLength_fullRange (bitStrength : Nat) : Except Fault Nat := do
  let top ← readAt genPassword_getBaseLength_fullRange.BIT_STRENGTHS
    (genPassword_getBaseLength_fullRange.COUNT - 1)
  if bitStrength > top then
    .ok 0
  else do
    let length ← lowerBound genPassword_getBaseLength_fullRange.BIT_STRENGTHS 0
      (genPassword_getBaseLength_fullRange.COUNT - 1) bitStrength
    .ok (add32 length 8)

/-! ## Notions used to state the properties -/

/-- Some character above the digit range sits between two characters of the digit range:
the characters that the contiguity check counts do not form one block. -/
def SplitDigits (P : List Nat) : Prop :=
  ∃ a b c x y z : Nat, a < b ∧ b < c ∧ P[a]? = some x ∧ P[b]? = some y ∧ P[c]? = some z ∧
    x ≤ 57 ∧ 57 < y ∧ z ≤ 57

/-- The character is one of `0` to `9`. -/
def isDigit (c : Nat) : Bool := decide (48 ≤ c ∧ c ≤ 57)

/-- The character is one of `a` to `z`. -/
def isLower (c : Nat) : Bool := decide (97 ≤ c ∧ c ≤ 122)

/-- The character is one of `A` to `Z`. -/
def isUpper (c : Nat) : Bool := decide (65 ≤ c ∧ c ≤ 90)

/-- The list `P` is an arrangement of `l` distinct letters of the letter pool and `d` distinct
digits of the digit pool in which the digits do not form one block. -/
def Arrangement (l d : Nat) (P : List Nat) : Prop :=
  ∃ L D : List Nat, L.length = l ∧ D.length = d ∧ L.Nodup ∧ D.Nodup ∧
    (∀ c ∈ L, c ∈ LETTERS) ∧ (∀ c ∈ D, c ∈ DIGITS) ∧ List.Perm P (L ++ D) ∧ SplitDigits P

/-- A random source that always answers 0. -/
def rngZero : Csprng Unit := ⟨fun _ s => (0, s), fun _ s => (0, s)⟩

/-- A random source that always answers the requested bound. -/
def rngMax : Csprng Unit := ⟨fun m s => (m, s), fun m s => (m, s)⟩

/-- A caller's buffer of 38 characters. -/
def buffer38 : List Nat := List.replicate 38 255

/-- The character is a letter of either case. -/
def isLetter (c : Nat) : Bool := isLower c || isUpper c

/-- The lowercase form of a character. -/
def toLower (c : Nat) : Nat := if isUpper c = true then c + 32 else c

/-- The length of the C string held by a buffer: the number of characters before the first
terminator. -/
def cStringLength (buf : List Nat) : Nat := (buf.takeWhile (fun c => c != 0)).length

/-- The length that the specification pairs with the smallest of the eight targets that is
at least `b`; zero when there is none. -/
def specBaseLength (b : Nat) : Nat :=
  match [(48, 10), (58, 12), (67, 14), (76, 16), (80, 17), (96, 21), (100, 22), (128, 30)].find?
    (fun p => decide (b ≤ p.1)) with
  | some p => p.2
  | none => 0

/-- The documented targets with the length each selects and its documented strength. -/
def documentedTargets : List (Nat × Nat × ℚ) :=
  [(48, 10, 48.7441), (56, 12, 58.1764), (64, 14, 67.2404), (72, 16, 76.1313),
   (80, 17, 80.4366), (96, 21, 96.9324), (100, 22, 100.8567), (128, 30, 128.0527)]

/-- The buffer after `genPasswordLength` at base length 36 with both flags under `rngMax`:
the string `0Zyxwvutsrqponmlkjihgfedcba987654321!`. -/
def sample36 : List Nat :=
  [48, 90, 121, 120, 119, 118, 117, 116, 115, 114, 113, 112, 111, 110, 109, 108, 107, 106, 105,
   104, 103, 102, 101, 100, 99, 98, 97, 57, 56, 55, 54, 53, 52, 51, 50, 49, 33, 0]

/-- The number `P(n, k)` of arrangements of `k` out of `n` things (`n P k` in the key-space
comment of `genPasswordLength`). -/
def permCount (n k : Nat) : Nat := n.factorial / (n - k).factorial

/-- The number `C(n, k)` of choices of `k` out of `n` things (`n C k` in the key-space
comment of `genPasswordLength`). -/
def chooseCount (n k : Nat) : Nat := n.factorial / (k.factorial * (n - k).factorial)

/-- The first summand `a` of the key space for base length `n` and `d` digits, with
`l = n - d - 1`: one extra letter. -/
def keySpaceLetter (n d : Nat) : Nat :=
  permCount 26 (n - d - 1 + 1) * permCount 10 d * (chooseCount n d - (n - d - 1 + 2))

/-- The second summand `b` of the key space for base length `n` and `d` digits, with
`l = n - d - 1`: one extra digit. -/
def keySpaceDigit (n d : Nat) : Nat :=
  permCount 26 (n - d - 1) * permCount 10 (d + 1) * (chooseCount n (d + 1) - (n - d - 1 + 1))

/-- The key space of the comment in `genPasswordLength` for base length `n`, with
`d = (10 * n + n / 8) / 36`; base length 36 has the single summand with 26 letters and 10
digits. -/
def keySpace (n : Nat) : Nat :=
  if n = 36 then
    permCount 26 26 * permCount 10 10 * (chooseCount 36 10 - 27)
  else
    keySpaceLetter n ((10 * n + n / 8) / 36) + keySpaceDigit n ((10 * n + n / 8) / 36)

/-- The bit strengths listed in the documentation of `genPasswordLength` for the base
lengths 8 to 36, in units of one ten-thousandth. -/
def documentedStrengths : List Nat :=
  [391201, 439961, 487441, 534676, 581764, 627665, 672404, 717042, 761313, 804366, 846201,
   888587, 929647, 969324, 1008567, 1047212, 1084265, 1119709, 1155350, 1189071, 1220659,
   1251295, 1280527, 1306870, 1329848, 1352219, 1369874, 1380943, 1380943]

/-- The values `x = (26 - l) * (C(n, d) - l - 2)` and
`y = (10 - d) * (C(n, d) * (n - d) / (d + 1) - l - 1)` in unbounded arithmetic, for base
length `n` with `d = (10 * n + n / 8) / 36` and `l = n - d - 1`. -/
def exactProbability (n : Nat) : Nat × Nat :=
  let d := (10 * n + n / 8) / 36
  let l := n - d - 1
  ((26 - l) * (chooseCount n d - l - 2),
    (10 - d) * (chooseCount n d * (n - d) / (d + 1) - l - 1))

/-- A random source that replays a list of answers: each call takes the next answer of the
list, capped at the requested bound (0 once the list is used up). -/
def rngScript : Csprng (List Nat) :=
  ⟨fun m s => (min (s.headD 0) m, s.tail), fun m s => (min (s.headD 0) m, s.tail)⟩

/-- A random source together with a record of the bounds passed to `randomUint8`, in the
order of the calls. -/
def logged {σ : Type} (rng : Csprng σ) : Csprng (σ × List Nat) :=
  ⟨fun m s => ((rng.randomUint8 m s.1).1, ((rng.randomUint8 m s.1).2, s.2 ++ [m])),
   fun m s => ((rng.randomUint32 m s.1).1, ((rng.randomUint32 m s.1).2, s.2))⟩

/-- The list with the entries at positions `i` and `j` exchanged: the net effect of one
iteration of the shuffle loop with swap partner `j`. -/
def swapAt (pw : List Nat) (i j : Nat) : List Nat :=
  (pw.set i (pw.getD j 0)).set j (pw.getD i 0)

/-- The net effect of the iterations `i`, `i + 1`, ... of the shuffle loop with the swap
partners `js`. -/
def applySwaps : List Nat → Nat → List Nat → List Nat
  | [], _, pw => pw
  | j :: js, i, pw => applySwaps js (i + 1) (swapAt pw i j)

/-- The arrangement of the positions `0 .. n - 1` after one shuffle pass over them in which
the random source answers the swap partners `js` in turn (empty if the pass faults). -/
def passResult (n : Nat) (js : List Nat) : List Nat :=
  match shufflePass rngScript n n 0 (List.range n) js with
  | .ok r => r.1
  | .error _ => []

/-- All strings of length `n` without a repeated character that take exactly `k` characters
from `sD` and the others from `sL`: the first character is removed from its set and the rest
of the string is chosen from what remains. -/
def mixedStrings : Nat → Finset Nat → Finset Nat → Nat → Finset (List Nat)
  | 0, _, _, 0 => {[]}
  | 0, _, _, _ + 1 => ∅
  | n + 1, sL, sD, 0 =>
    sL.biUnion fun x => (mixedStrings n (sL.erase x) sD 0).image fun l => x :: l
  | n + 1, sL, sD, k + 1 =>
    (sL.biUnion fun x => (mixedStrings n (sL.erase x) sD (k + 1)).image fun l => x :: l) ∪
      (sD.biUnion fun x => (mixedStrings n sL (sD.erase x) k).image fun l => x :: l)

/-- All strings of length `n` without a repeated character whose `k` characters from `sD`
form one contiguous block: a block of `k` distinct characters of `sD` inserted at a position
`a` into a string of `n - k` distinct characters of `sL`. -/
def blockStrings (n k : Nat) (sL sD : Finset Nat) : Finset (List Nat) :=
  (Finset.range (n - k + 1) ×ˢ (mixedStrings (n - k) sL ∅ 0 ×ˢ mixedStrings k ∅ sD k)).image
    fun x => x.2.1.take x.1 ++ x.2.2 ++ x.2.1.drop x.1

/-- The strings of length `n` over `a`..`z` and `0`..`9` without a repeated character, with
exactly `k` digits, whose digits do not form one contiguous block. -/
def admissibleStrings (n k : Nat) : Finset (List Nat) :=
  mixedStrings n LETTERS.toFinset DIGITS.toFinset k \
    blockStrings n k LETTERS.toFinset DIGITS.toFinset

/-- An admissible password of base length `n`: a string of length `n` over `a`..`z` and
`0`..`9` without a repeated character, whose digit count is `d = (10 n + n / 8) / 36` or,
below 36, `d + 1`, and in which some non-digit stands between two digits. -/
def Admissible (n : Nat) (t : List Nat) : Prop :=
  t.length = n ∧ (∀ c ∈ t, isLower c = true ∨ isDigit c = true) ∧ t.Nodup ∧
    (t.countP isDigit = (10 * n + n / 8) / 36 ∨
      (n < 36 ∧ t.countP isDigit = (10 * n + n / 8) / 36 + 1)) ∧
    ∃ a b c x y z : Nat, a < b ∧ b < c ∧ t[a]? = some x ∧ t[b]? = some y ∧ t[c]? = some z ∧
      isDigit x = true ∧ isDigit y = false ∧ isDigit z = true

theorem readAt_eq_ok {xs : List Nat} {i c : Nat} : readAt xs i = .ok c ↔ xs[i]? = some c := by
  unfold readAt
  cases h : xs[i]? <;> simp

theorem writeAt_eq_ok {xs ys : List Nat} {i c : Nat} :
    writeAt xs i c = .ok ys ↔ i < xs.length ∧ ys = xs.set i c := by
  unfold writeAt
  split <;> simp_all [eq_comm]

/-- A sequenced computation returns exactly when both of its parts do. -/
theorem bind_eq_ok {ε α β : Type} (m : Except ε α) (k : α → Except ε β) (r : β) :
    (m >>= k) = Except.ok r ↔ ∃ v, m = Except.ok v ∧ k v = Except.ok r := by
  cases m with
  | error e => simp [bind, Except.bind]
  | ok v => simp [bind, Except.bind]

theorem splitCounts_spec {σ : Type} (rng : Csprng σ) (n : Nat) (s s' : σ) (l d : Nat)
    (hn : 8 ≤ n ∧ n ≤ 36) (h : splitCounts rng n s = .ok (l, d, s')) :
    l + d = n ∧ 1 ≤ l ∧ l ≤ 26 ∧ 2 ≤ d ∧ d ≤ 10 ∧
      (d = (10 * n + n / 8) / 36 ∨ (n < 36 ∧ d = (10 * n + n / 8) / 36 + 1)) := by
  unfold splitCounts at h
  simp only [] at h
  split at h
  · simp only [Except.ok.injEq, Prod.mk.injEq] at h
    omega
  · simp only [bind_eq_ok] at h
    obtain ⟨cm, -, lt, -, h⟩ := h
    split at h <;> simp only [Except.ok.injEq, Prod.mk.injEq] at h <;> omega

theorem take_nodup_index {pool : List Nat} {m : Nat} (hm : m < pool.length)
    (hnd : (pool.take (m + 1)).Nodup) :
    ∀ a b, a < b → b ≤ m → pool[a]? ≠ pool[b]? := by
  intro a b hab hb
  rw [List.nodup_iff_getElem?_ne_getElem?] at hnd
  have := hnd a b hab (by simp; omega)
  rwa [List.getElem?_take_of_lt (by omega), List.getElem?_take_of_lt (by omega)] at this

theorem pool_step {pool : List Nat} {m j c last : Nat} (hm : m < pool.length) (hj : j ≤ m)
    (hc : pool[j]? = some c) (hl : pool[m]? = some last) (hnd : (pool.take (m + 1)).Nodup) :
    ((pool.set j last).take m).Nodup ∧
      ∀ x ∈ (pool.set j last).take m, x ∈ pool.take (m + 1) ∧ x ≠ c := by
  have hinj := take_nodup_index hm hnd
  have key : ∀ a, a < m → ((pool.set j last).take m)[a]? =
      if j = a then some last else pool[a]? := by
    intro a ha
    rw [List.getElem?_take_of_lt ha, List.getElem?_set]
    split
    · rw [if_pos (by omega)]
    · rfl
  constructor
  · rw [List.nodup_iff_getElem?_ne_getElem?]
    intro a b hab hb
    have hb' : b < m := by simp at hb; omega
    rw [key a (by omega), key b hb']
    by_cases h1 : j = a
    · subst h1
      rw [if_pos rfl, if_neg (by omega), ← hl]
      exact (hinj b m hb' le_rfl).symm
    · by_cases h2 : j = b
      · subst h2
        rw [if_neg h1, if_pos rfl, ← hl]
        exact hinj a m (by omega) le_rfl
      · rw [if_neg h1, if_neg h2]
        exact hinj a b hab (by omega)
  · intro x hx
    obtain ⟨a, ha⟩ := List.mem_iff_getElem?.1 hx
    have ham : a < m := by
      by_contra hcon
      rw [List.getElem?_take_eq_none (by omega)] at ha
      cases ha
    rw [key a ham] at ha
    by_cases h1 : j = a
    · subst h1
      rw [if_pos rfl] at ha
      constructor
      · apply List.mem_iff_getElem?.2
        exact ⟨m, by rw [List.getElem?_take_of_lt (by omega), hl, ha]⟩
      · intro hxc
        apply hinj j m ham le_rfl
        rw [hc, hl, ← hxc]
        exact ha.symm
    · rw [if_neg h1] at ha
      constructor
      · apply List.mem_iff_getElem?.2
        exact ⟨a, by rw [List.getElem?_take_of_lt (by omega), ha]⟩
      · intro hxc
        rcases Nat.lt_or_gt_of_ne h1 with h | h
        · exact hinj j a h (by omega) (by rw [hc, ha, hxc])
        · exact hinj a j h (by omega) (by rw [hc, ha, hxc])

theorem set_eq_take_cons_drop {xs : List Nat} {a c : Nat} (h : a < xs.length) :
    xs.set a c = xs.take a ++ c :: xs.drop (a + 1) := by
  apply List.ext_getElem?
  intro k
  rw [List.getElem?_set]
  by_cases h1 : k < a
  · rw [if_neg (by omega), List.getElem?_append_left (by simp; omega),
      List.getElem?_take_of_lt h1]
  · rw [List.getElem?_append_right (by simp; omega)]
    simp only [List.length_take, Nat.min_eq_left (Nat.le_of_lt h)]
    by_cases h2 : k = a
    · subst h2
      simp [h]
    · rw [if_neg (by omega)]
      obtain ⟨t, rfl⟩ : ∃ t, k = a + 1 + t := ⟨k - a - 1, by omega⟩
      have : a + 1 + t - a = t + 1 := by omega
      rw [this, List.getElem?_cons_succ, List.getElem?_drop]

theorem shape_step (A B ys : List Nat) (c k : Nat) :
    List.take (A.length + 1) (A ++ c :: B) ++ ys ++ List.drop (A.length + (k + 1)) (A ++ c :: B)
      = A ++ (c :: ys) ++ List.drop k B := by
  have h1 : List.take (A.length + 1) (A ++ c :: B) = A ++ [c] := by
    rw [List.take_append_eq_append_take]
    simp
  have h2 : List.drop (A.length + (k + 1)) (A ++ c :: B) = List.drop k B := by
    rw [List.drop_append_eq_append_drop]
    simp
  rw [h1, h2]
  simp

theorem drawChars_spec {σ : Type} (rng : Csprng σ) (hr : rng.InRange) (offset : Nat) :
    ∀ (count i : Nat) (pool : List Nat) (maxIdx : Nat) (password : List Nat) (s : σ)
      (password' pool' : List Nat) (s' : σ),
      drawChars rng offset count i pool maxIdx password s = .ok (password', pool', s') →
      count ≤ maxIdx + 1 → maxIdx < pool.length → maxIdx < 256 →
      (pool.take (maxIdx + 1)).Nodup →
      ∃ ys, ys.length = count ∧ ys.Nodup ∧ (∀ c ∈ ys, c ∈ pool.take (maxIdx + 1)) ∧
        (count = 0 ∨ i + offset + count ≤ password.length) ∧
        password' = password.take (i + offset) ++ ys ++ password.drop (i + offset + count) := by
  intro count
  induction count with
  | zero =>
    intro i pool maxIdx password s password' pool' s' h _ _ _ _
    simp only [drawChars, Except.ok.injEq, Prod.mk.injEq] at h
    refine ⟨[], rfl, List.nodup_nil, by simp, Or.inl rfl, ?_⟩
    simp [← h.1]
  | succ count ih =>
    intro i pool maxIdx password s password' pool' s' h hc hm h256 hnd
    simp only [drawChars, bind_eq_ok, readAt_eq_ok, writeAt_eq_ok] at h
    obtain ⟨c, hcj, pw1, ⟨hlt, rfl⟩, last, hlast, pool1, ⟨hjlt, rfl⟩, h⟩ := h
    have hj : (rng.randomUint8 (maxIdx % 256) s).1 ≤ maxIdx := by
      exact Nat.le_trans (hr.1 (maxIdx % 256) s) (Nat.mod_le _ _)
    generalize rng.randomUint8 (maxIdx % 256) s = r at h hj hcj hjlt
    obtain ⟨hnd1, hmem1⟩ := pool_step hm hj hcj hlast hnd
    rcases Nat.eq_zero_or_pos count with h0 | hpos
    · subst h0
      simp only [drawChars, Except.ok.injEq, Prod.mk.injEq] at h
      refine ⟨[c], rfl, List.nodup_singleton c, ?_, Or.inr (by omega), ?_⟩
      · intro x hx
        rw [List.mem_singleton] at hx
        subst hx
        exact List.mem_iff_getElem?.2
          ⟨r.1, by rw [List.getElem?_take_of_lt (by omega), hcj]⟩
      · rw [← h.1, set_eq_take_cons_drop hlt]
        simp
    · have hm1 : (maxIdx + 2 ^ 32 - 1) % 2 ^ 32 = maxIdx - 1 := by omega
      rw [hm1] at h
      have hm2 : maxIdx - 1 + 1 = maxIdx := by omega
      obtain ⟨ys, hlen, hnd2, hmem2, hle, heq⟩ :=
        ih (i + 1) _ (maxIdx - 1) _ _ password' pool' s' h (by omega)
          (by simp; omega) (by omega) (by rw [hm2]; exact hnd1)
      rw [hm2] at hmem2
      simp only [List.length_set] at hle
      refine ⟨c :: ys, by simp [hlen], ?_, ?_, Or.inr (by omega), ?_⟩
      · exact List.nodup_cons.2 ⟨fun hin => (hmem1 c (hmem2 c hin)).2 rfl, hnd2⟩
      · intro x hx
        rcases List.mem_cons.1 hx with rfl | hx
        · exact List.mem_iff_getElem?.2
            ⟨r.1, by rw [List.getElem?_take_of_lt (by omega), hcj]⟩
        · exact (hmem1 x (hmem2 x hx)).1
      · rw [heq, set_eq_take_cons_drop hlt]
        have e1 : i + 1 + offset = i + offset + 1 := by omega
        have e2 : i + offset + 1 + count = i + offset + (count + 1) := by omega
        rw [e1, e2]
        have hA : (password.take (i + offset)).length = i + offset := by
          rw [List.length_take]; omega
        have := shape_step (password.take (i + offset)) (password.drop (i + offset + 1)) ys c
          count
        rw [hA] at this
        rw [this, List.drop_drop]
        congr 2

theorem xor_swap_left (x y : Nat) : y ^^^ (x ^^^ y) = x := by
  rw [Nat.xor_comm x y, ← Nat.xor_assoc, Nat.xor_self, Nat.zero_xor]

theorem xor_swap_right (x y : Nat) : (x ^^^ y) ^^^ x = y := by
  rw [Nat.xor_comm x y, Nat.xor_assoc, Nat.xor_self, Nat.xor_zero]

/-- The three exclusive-or assignments of the shuffle exchange two distinct positions. -/
theorem xorAssign_swap {pw p1 p2 pw3 : List Nat} {i j : Nat} (hij : i ≠ j)
    (h1 : xorAssign pw i j = .ok p1) (h2 : xorAssign p1 j i = .ok p2)
    (h3 : xorAssign p2 i j = .ok pw3) :
    ∃ a b, pw[i]? = some a ∧ pw[j]? = some b ∧ pw3 = (pw.set i b).set j a := by
  simp only [xorAssign, bind_eq_ok, readAt_eq_ok, writeAt_eq_ok] at h1 h2 h3
  obtain ⟨x1, hx1, y1, hy1, hi, rfl⟩ := h1
  obtain ⟨x2, hx2, y2, hy2, hj, rfl⟩ := h2
  obtain ⟨x3, hx3, y3, hy3, -, rfl⟩ := h3
  have hj' : j < pw.length := by simpa using hj
  rw [List.getElem?_set_ne hij, hy1] at hx2
  rw [List.getElem?_set_self hi] at hy2
  cases hx2
  cases hy2
  rw [List.getElem?_set_ne (Ne.symm hij), List.getElem?_set_self hi] at hx3
  rw [List.getElem?_set_self (by simpa using hj')] at hy3
  cases hx3
  cases hy3
  refine ⟨x1, y1, hx1, hy1, ?_⟩
  rw [xor_swap_left, xor_swap_right]
  apply List.ext_getElem?
  intro k
  simp only [List.getElem?_set, List.length_set]
  by_cases h1 : i = k <;> by_cases h2 : j = k <;> simp [h1, h2, hi, hj']; omega

theorem swap_perm {P : List Nat} {i j a b : Nat} (ha : P[i]? = some a) (hb : P[j]? = some b) :
    List.Perm ((P.set i b).set j a) P := by
  obtain ⟨hi, hai⟩ := List.getElem?_eq_some.1 ha
  obtain ⟨hj, hbj⟩ := List.getElem?_eq_some.1 hb
  rw [List.perm_iff_count]
  intro c
  by_cases hij : i = j
  · subst hij
    rw [List.set_set]
    have : a = b := by rw [← hai, ← hbj]
    subst this
    subst hai
    apply congrArg
    apply List.ext_getElem?
    intro k
    rw [List.getElem?_set]
    split
    · rename_i h
      subst h
      simp [hi]
    · rfl
  · rw [List.count_set _ _ _ _ (by simpa using hj), List.count_set _ _ _ _ hi,
      List.getElem_set_ne hij, hai, hbj]
    have h1 : a = c → 0 < List.count c P := by
      intro h
      rw [List.count_pos_iff, ← h, ← hai]
      exact List.getElem_mem _
    by_cases hac : a = c <;> by_cases hbc : b = c <;> simp [hac, hbc] <;> omega

/-- One pass of the shuffle permutes the first `n` characters and leaves the rest alone. -/
theorem shufflePass_spec {σ : Type} (rng : Csprng σ) (hr : rng.InRange) (n : Nat)
    (hn : 1 ≤ n ∧ n ≤ 256) (tail : List Nat) :
    ∀ (count i : Nat) (P : List Nat) (s : σ) (pw' : List Nat) (s' : σ),
      P.length = n → i + count ≤ n →
      shufflePass rng n count i (P ++ tail) s = .ok (pw', s') →
      ∃ P', List.Perm P' P ∧ pw' = P' ++ tail := by
  intro count
  induction count with
  | zero =>
    intro i P s pw' s' _ _ h
    simp only [shufflePass, Except.ok.injEq, Prod.mk.injEq] at h
    exact ⟨P, List.Perm.refl P, h.1.symm⟩
  | succ count ih =>
    intro i P s pw' s' hP hi h
    simp only [shufflePass] at h
    have hj : (rng.randomUint8 ((n - 1) % 256) s).1 < n := by
      have := Nat.le_trans (hr.1 ((n - 1) % 256) s) (Nat.mod_le _ _)
      omega
    generalize rng.randomUint8 ((n - 1) % 256) s = r at h hj
    split at h
    · rename_i hne
      simp only [bind_eq_ok] at h
      obtain ⟨p1, h1, p2, h2, p3, h3, h⟩ := h
      obtain ⟨a, b, ha, hb, rfl⟩ := xorAssign_swap hne h1 h2 h3
      rw [List.getElem?_append_left (by omega)] at ha hb
      rw [List.set_append_left _ _ (by omega),
        List.set_append_left _ _ (by rw [List.length_set]; omega)] at h
      obtain ⟨P', hperm, rfl⟩ := ih (i + 1) _ r.2 pw' s'
        (by rw [List.length_set, List.length_set]; exact hP) (by omega) h
      exact ⟨P', hperm.trans (swap_perm ha hb), rfl⟩
    · exact ih (i + 1) P r.2 pw' s' hP (by omega) h

theorem countP_take_succ (P : List Nat) (i c : Nat) (p : Nat → Bool) (h : P[i]? = some c) :
    (P.take (i + 1)).countP p = (P.take i).countP p + if p c then 1 else 0 := by
  rw [List.take_succ, h, List.countP_append]
  simp [List.countP_cons]

theorem scanDigits_spec (P tail : List Nat) (hno : ¬ SplitDigits P) :
    ∀ (count i d d' : Nat), 1 ≤ i → i + count ≤ P.length →
      d = (P.take i).countP (fun c => decide (c ≤ 57)) →
      scanDigits count i d (P ++ tail) = .ok d' →
      d' = (P.take (i + count)).countP (fun c => decide (c ≤ 57)) := by
  intro count
  induction count with
  | zero =>
    intro i d d' _ _ hd h
    simp only [scanDigits, Except.ok.injEq] at h
    rw [← h, hd]
    rfl
  | succ count ih =>
    intro i d d' hi hle hd h
    simp only [scanDigits, bind_eq_ok, readAt_eq_ok] at h
    obtain ⟨c, hc, h⟩ := h
    rw [List.getElem?_append_left (by omega)] at hc
    have hstep := countP_take_succ P i c (fun c => decide (c ≤ 57)) hc
    have e : i + (count + 1) = i + 1 + count := by omega
    rw [e]
    split at h
    · rename_i hc57
      simp only [bind_eq_ok, readAt_eq_ok] at h
      obtain ⟨p, hp, h⟩ := h
      rw [List.getElem?_append_left (by omega)] at hp
      refine ih (i + 1) _ d' (by omega) (by omega) ?_ h
      rw [hstep]
      simp only [hc57, decide_True, if_true, Nat.add_right_cancel_iff]
      split
      · rename_i hp57
        symm
        rw [List.countP_eq_zero]
        intro x hx
        obtain ⟨a, ha⟩ := List.mem_iff_getElem?.1 hx
        have hai : a < i := by
          by_contra hcon
          rw [List.getElem?_take_eq_none (by omega)] at ha
          cases ha
        rw [List.getElem?_take_of_lt hai] at ha
        simp only [decide_eq_true_eq, not_le]
        by_contra hx57
        by_cases ha1 : a = i - 1
        · subst ha1
          rw [hp] at ha
          cases ha
          omega
        · exact hno ⟨a, i - 1, i, x, p, c, by omega, by omega, ha, hp, hc, by omega, hp57,
            hc57⟩
      · exact hd
    · rename_i hc57
      refine ih (i + 1) _ d' (by omega) (by omega) ?_ h
      rw [hstep]
      simp [hc57, hd]

theorem countDigitsInARow_spec (n : Nat) (P tail : List Nat) (hP : P.length = n) (hn : 1 ≤ n)
    (hno : ¬ SplitDigits P) (d : Nat) (h : countDigitsInARow n (P ++ tail) = .ok d) :
    d = P.countP (fun c => decide (c ≤ 57)) := by
  simp only [countDigitsInARow, bind_eq_ok, readAt_eq_ok] at h
  obtain ⟨c, hc, h⟩ := h
  rw [List.getElem?_append_left (by omega)] at hc
  have := scanDigits_spec P tail hno (n - 1) 1 _ d le_rfl (by omega) ?_ h
  · rw [this]
    have e : 1 + (n - 1) = P.length := by omega
    rw [e, List.take_length]
  · have := countP_take_succ P 0 c (fun c => decide (c ≤ 57)) hc
    simp only [Nat.zero_add, List.take_zero, List.countP_nil] at this
    rw [this]
    simp

/-- The rejection loop permutes the first `n` characters, leaves the rest alone, and ends
only on an arrangement whose digits are split. -/
theorem shuffleUntil_spec {σ : Type} (rng : Csprng σ) (hr : rng.InRange) (n : Nat)
    (hn : 1 ≤ n ∧ n ≤ 256) (numDigits : Nat) (tail : List Nat) :
    ∀ (fuel : Nat) (P : List Nat) (s : σ) (pw' : List Nat) (s' : σ),
      P.length = n → P.countP (fun c => decide (c ≤ 57)) = numDigits →
      shuffleUntil rng n numDigits fuel (P ++ tail) s = .ok (pw', s') →
      ∃ P', List.Perm P' P ∧ pw' = P' ++ tail ∧ SplitDigits P' := by
  intro fuel
  induction fuel with
  | zero =>
    intro P s pw' s' _ _ h
    simp [shuffleUntil] at h
  | succ fuel ih =>
    intro P s pw' s' hP hcount h
    simp only [shuffleUntil, bind_eq_ok] at h
    obtain ⟨⟨pw1, s1⟩, hpass, d, hd, h⟩ := h
    obtain ⟨P1, hperm, rfl⟩ := shufflePass_spec rng hr n hn tail n 0 P s pw1 s1 hP (by omega)
      hpass
    have hP1 : P1.length = n := by rw [hperm.length_eq, hP]
    have hc1 : P1.countP (fun c => decide (c ≤ 57)) = numDigits := by
      rw [hperm.countP_eq, hcount]
    simp only at h hd
    split at h
    · obtain ⟨P', hperm', heq, hsplit⟩ := ih P1 s1 pw' s' hP1 hc1 h
      exact ⟨P', hperm'.trans hperm, heq, hsplit⟩
    · rename_i hne
      simp only [Except.ok.injEq, Prod.mk.injEq] at h
      refine ⟨P1, hperm, h.1.symm, ?_⟩
      by_contra hno
      exact hne ((countDigitsInARow_spec n P1 tail hP1 hn.1 hno d hd).trans hc1)

theorem mem_LETTERS {c : Nat} : c ∈ LETTERS ↔ 97 ≤ c ∧ c ≤ 122 := by
  constructor
  · intro h
    simp only [LETTERS, List.mem_cons, List.mem_singleton, List.not_mem_nil, or_false] at h
    omega
  · rintro ⟨h1, h2⟩
    interval_cases c <;> decide

theorem mem_DIGITS {c : Nat} : c ∈ DIGITS ↔ 48 ≤ c ∧ c ≤ 57 := by
  constructor
  · intro h
    simp only [DIGITS, List.mem_cons, List.mem_singleton, List.not_mem_nil, or_false] at h
    omega
  · rintro ⟨h1, h2⟩
    interval_cases c <;> decide

theorem countP_le57 (L D : List Nat) (hL : ∀ c ∈ L, c ∈ LETTERS) (hD : ∀ c ∈ D, c ∈ DIGITS) :
    (L ++ D).countP (fun c => decide (c ≤ 57)) = D.length := by
  rw [List.countP_append]
  have h1 : L.countP (fun c => decide (c ≤ 57)) = 0 := by
    rw [List.countP_eq_zero]
    intro c hc
    have := mem_LETTERS.1 (hL c hc)
    simp only [decide_eq_true_eq]
    omega
  have h2 : D.countP (fun c => decide (c ≤ 57)) = D.length := by
    rw [List.countP_eq_length]
    intro c hc
    have := mem_DIGITS.1 (hD c hc)
    simp only [decide_eq_true_eq]
    omega
  rw [h1, h2, Nat.zero_add]

/-- Every successful run of `genPasswordLength` on a valid length has status zero; its buffer
is the result of the flag handling applied to an arrangement followed by the terminator and
the untouched rest of the caller's buffer. -/
theorem genPasswordLength_ok {σ : Type} (rng : Csprng σ) (hr : rng.InRange) (fuel : Nat)
    (password : List Nat) (n : Nat) (flags : Int) (s s' : σ) (st : Nat) (out : List Nat)
    (hn : 8 ≤ n ∧ n ≤ 36)
    (h : genPasswordLength rng fuel password n flags s = .ok (st, out, s')) :
    st = 0 ∧ ∃ (l d : Nat) (s1 : σ) (P : List Nat) (r0 : Nat) (rest : List Nat),
      splitCounts rng n s = .ok (l, d, s1) ∧ Arrangement l d P ∧ P.length = n ∧
      password.drop n = r0 :: rest ∧ applyFlags n flags (P ++ 0 :: rest) = .ok out := by
  unfold genPasswordLength at h
  rw [if_neg (by omega)] at h
  simp only [bind_eq_ok] at h
  obtain ⟨⟨l, d, s1⟩, hsplit, ⟨pw1, pool1, s2⟩, hdraw1, ⟨pw2, pool2, s3⟩, hdraw2, pw3, hterm,
    ⟨pw4, s4⟩, hshuf, pw5, hflags, h⟩ := h
  simp only [Except.ok.injEq, Prod.mk.injEq] at h
  obtain ⟨hl, hl1, hl26, hd2, hd10, -⟩ := splitCounts_spec rng n s s1 l d hn hsplit
  refine ⟨h.1.symm, l, d, s1, ?_⟩
  simp only at hdraw1 hdraw2 hshuf
  obtain ⟨L, hLlen, hLnd, hLmem, hLle, rfl⟩ :=
    drawChars_spec rng hr 0 l 0 LETTERS 25 password s1 pw1 pool1 s2 hdraw1 (by omega)
      (by decide) (by decide) (by decide)
  obtain ⟨D, hDlen, hDnd, hDmem, hDle, rfl⟩ :=
    drawChars_spec rng hr l d 0 DIGITS 9 _ s2 pw2 pool2 s3 hdraw2 (by omega)
      (by decide) (by decide) (by decide)
  have hLle' : l ≤ password.length := by omega
  simp only [Nat.zero_add, List.take_zero, List.nil_append, List.length_append,
    List.length_drop] at hDle
  have hlen : n ≤ password.length := by omega
  have e1 : List.take (0 + l) (List.take (0 + 0) password ++ L ++ List.drop (0 + 0 + l) password)
      = L := by
    simp [← hLlen]
  have e2 : List.drop (0 + l + d)
      (List.take (0 + 0) password ++ L ++ List.drop (0 + 0 + l) password)
      = List.drop n password := by
    simp only [Nat.zero_add, List.take_zero, List.nil_append]
    rw [List.drop_append_eq_append_drop, hLlen, List.drop_drop]
    have : l + d - l = d := by omega
    rw [List.drop_eq_nil_of_le (by omega), this, List.nil_append]
    congr 1
  rw [e1, e2] at hterm
  simp only [writeAt_eq_ok] at hterm
  obtain ⟨hnlt, rfl⟩ := hterm
  have hLD : (L ++ D).length = n := by rw [List.length_append, hLlen, hDlen, hl]
  have hlt : n < password.length := by
    rw [List.length_append, hLD, List.length_drop] at hnlt
    omega
  obtain ⟨r0, rest, hrest⟩ : ∃ r0 rest, password.drop n = r0 :: rest := by
    rw [List.drop_eq_getElem_cons hlt]
    exact ⟨_, _, rfl⟩
  rw [hrest, List.set_append_right _ _ (by omega), hLD, Nat.sub_self, List.set_cons_zero]
    at hshuf
  obtain ⟨P, hperm, rfl, hsplitD⟩ := shuffleUntil_spec rng hr n (by omega) d (0 :: rest) fuel
    (L ++ D) s3 pw4 s4 hLD
    (by rw [countP_le57 L D (fun c hc => List.mem_of_mem_take (hLmem c hc))
      (fun c hc => List.mem_of_mem_take (hDmem c hc)), hDlen]) hshuf
  refine ⟨P, r0, rest, hsplit, ⟨L, D, hLlen, hDlen, hLnd, hDnd,
    fun c hc => List.mem_of_mem_take (hLmem c hc),
    fun c hc => List.mem_of_mem_take (hDmem c hc), hperm, hsplitD⟩, ?_, hrest, ?_⟩
  · rw [hperm.length_eq, hLD]
  · rw [← h.2.1]
    exact hflags

theorem Arrangement.length_eq {l d : Nat} {P : List Nat} (h : Arrangement l d P) :
    P.length = l + d := by
  obtain ⟨L, D, hL, hD, -, -, -, -, hperm, -⟩ := h
  rw [hperm.length_eq, List.length_append, hL, hD]

theorem Arrangement.nodup {l d : Nat} {P : List Nat} (h : Arrangement l d P) : P.Nodup := by
  obtain ⟨L, D, -, -, hLnd, hDnd, hLmem, hDmem, hperm, -⟩ := h
  rw [hperm.nodup_iff, List.nodup_append]
  refine ⟨hLnd, hDnd, ?_⟩
  intro c hcL hcD
  have := mem_LETTERS.1 (hLmem c hcL)
  have := mem_DIGITS.1 (hDmem c hcD)
  omega

theorem Arrangement.lower_or_digit {l d : Nat} {P : List Nat} (h : Arrangement l d P) :
    ∀ c ∈ P, isLower c = true ∨ isDigit c = true := by
  obtain ⟨L, D, -, -, -, -, hLmem, hDmem, hperm, -⟩ := h
  intro c hc
  rcases List.mem_append.1 (hperm.mem_iff.1 hc) with hc | hc
  · left
    simpa [isLower] using mem_LETTERS.1 (hLmem c hc)
  · right
    simpa [isDigit] using mem_DIGITS.1 (hDmem c hc)

theorem Arrangement.count_digits {l d : Nat} {P : List Nat} (h : Arrangement l d P) :
    P.countP isDigit = d ∧ P.countP isLower = l := by
  obtain ⟨L, D, hL, hD, -, -, hLmem, hDmem, hperm, -⟩ := h
  rw [hperm.countP_eq, hperm.countP_eq, List.countP_append, List.countP_append]
  have h1 : L.countP isDigit = 0 := by
    rw [List.countP_eq_zero]
    intro c hc
    have := mem_LETTERS.1 (hLmem c hc)
    simp only [isDigit, decide_eq_true_eq]
    omega
  have h2 : D.countP isDigit = D.length := by
    rw [List.countP_eq_length]
    intro c hc
    simpa [isDigit] using mem_DIGITS.1 (hDmem c hc)
  have h3 : L.countP isLower = L.length := by
    rw [List.countP_eq_length]
    intro c hc
    simpa [isLower] using mem_LETTERS.1 (hLmem c hc)
  have h4 : D.countP isLower = 0 := by
    rw [List.countP_eq_zero]
    intro c hc
    have := mem_DIGITS.1 (hDmem c hc)
    simp only [isLower, decide_eq_true_eq]
    omega
  rw [h1, h2, h3, h4, hL, hD]
  omega

theorem Arrangement.exists_letter {l d : Nat} {P : List Nat} (h : Arrangement l d P)
    (hl : 1 ≤ l) : ∃ k c : Nat, P[k]? = some c ∧ 97 ≤ c := by
  obtain ⟨L, D, hL, -, -, -, hLmem, -, hperm, -⟩ := h
  obtain ⟨c, hc⟩ : ∃ c, c ∈ L := by
    cases L with
    | nil => simp at hL; omega
    | cons c _ => exact ⟨c, List.mem_cons_self _ _⟩
  have hcP : c ∈ P := hperm.mem_iff.2 (List.mem_append_left _ hc)
  obtain ⟨k, hk⟩ := List.mem_iff_getElem?.1 hcP
  exact ⟨k, c, hk, (mem_LETTERS.1 (hLmem c hc)).1⟩

/-- The uppercase loop either finds no character from `a` upwards and changes nothing, or
subtracts 32 from the leftmost such character. -/
theorem upcaseFirst_spec (P tail : List Nat) :
    ∀ (count i : Nat) (out : List Nat), i + count ≤ P.length →
      upcaseFirst count i (P ++ tail) = .ok out →
      (out = P ++ tail ∧ ∀ k, i ≤ k → k < i + count → ∃ x, P[k]? = some x ∧ x < 97) ∨
      (∃ k c : Nat, i ≤ k ∧ k < i + count ∧ P[k]? = some c ∧ 97 ≤ c ∧
        (∀ k', i ≤ k' → k' < k → ∃ x, P[k']? = some x ∧ x < 97) ∧
        out = P.set k (c - 32) ++ tail) := by
  intro count
  induction count with
  | zero =>
    intro i out _ h
    simp only [upcaseFirst, Except.ok.injEq] at h
    exact Or.inl ⟨h.symm, fun k h1 h2 => by omega⟩
  | succ count ih =>
    intro i out hle h
    simp only [upcaseFirst, bind_eq_ok, readAt_eq_ok] at h
    obtain ⟨c, hc, h⟩ := h
    rw [List.getElem?_append_left (by omega)] at hc
    split at h
    · rename_i hc97
      simp only [writeAt_eq_ok] at h
      right
      refine ⟨i, c, le_rfl, by omega, hc, hc97, fun k' h1 h2 => by omega, ?_⟩
      rw [h.2, List.set_append_left _ _ (by omega)]
    · rename_i hc97
      have hstep : ∀ k, i ≤ k → k < i + 1 → ∃ x, P[k]? = some x ∧ x < 97 := by
        intro k h1 h2
        have : k = i := by omega
        subst this
        exact ⟨c, hc, by omega⟩
      rcases ih (i + 1) out (by omega) h with ⟨h1, h2⟩ | ⟨k, c', h1, h2, h3, h4, h5, h6⟩
      · left
        refine ⟨h1, fun k hk1 hk2 => ?_⟩
        by_cases hki : k = i
        · exact hstep k hk1 (by omega)
        · exact h2 k (by omega) (by omega)
      · right
        refine ⟨k, c', by omega, by omega, h3, h4, fun k' hk1 hk2 => ?_, h6⟩
        by_cases hki : k' = i
        · exact hstep k' hk1 (by omega)
        · exact h5 k' (by omega) hk2

/-- The shape of the buffer after the flag handling. -/
theorem applyFlags_spec (n : Nat) (flags : Int) (l d : Nat) (P rest out : List Nat)
    (hP : Arrangement l d P) (hl : 1 ≤ l) (hlen : P.length = n)
    (h : applyFlags n flags (P ++ 0 :: rest) = .ok out) :
    ∃ P' tail, out = P' ++ tail ∧ P'.length = n ∧
      (Int.land flags GEN_PASSWORD_FLAG_NEED_UPPERCASE = 0 → P' = P) ∧
      (Int.land flags GEN_PASSWORD_FLAG_NEED_UPPERCASE ≠ 0 →
        ∃ k c : Nat, P[k]? = some c ∧ 97 ≤ c ∧ (∀ k', k' < k → ∃ x, P[k']? = some x ∧ x < 97) ∧
          P' = P.set k (c - 32)) ∧
      (Int.land flags GEN_PASSWORD_FLAG_NEED_SYMBOL = 0 → tail = 0 :: rest) ∧
      (Int.land flags GEN_PASSWORD_FLAG_NEED_SYMBOL ≠ 0 →
        ∃ r1 rest', rest = r1 :: rest' ∧ tail = 33 :: 0 :: rest') := by
  simp only [applyFlags, bind_eq_ok] at h
  obtain ⟨pw1, h1, h2⟩ := h
  have hup : ∃ P', pw1 = P' ++ 0 :: rest ∧ P'.length = n ∧
      (Int.land flags GEN_PASSWORD_FLAG_NEED_UPPERCASE = 0 → P' = P) ∧
      (Int.land flags GEN_PASSWORD_FLAG_NEED_UPPERCASE ≠ 0 →
        ∃ k c : Nat, P[k]? = some c ∧ 97 ≤ c ∧ (∀ k', k' < k → ∃ x, P[k']? = some x ∧ x < 97) ∧
          P' = P.set k (c - 32)) := by
    split at h1
    · rename_i hf
      rcases upcaseFirst_spec P (0 :: rest) n 0 pw1 (by omega) h1 with
        ⟨-, hnone⟩ | ⟨k, c, -, hk, hc, hc97, hbefore, rfl⟩
      · exfalso
        obtain ⟨k, c, hk, hc⟩ := hP.exists_letter hl
        have hkn : k < n := by
          rw [← hlen]
          exact (List.getElem?_eq_some.1 hk).1
        obtain ⟨x, hx, hx97⟩ := hnone k (Nat.zero_le _) (by omega)
        rw [hk] at hx
        cases hx
        omega
      · exact ⟨_, rfl, by rw [List.length_set, hlen], fun h0 => absurd h0 hf,
          fun _ => ⟨k, c, hc, hc97, fun k' hk' => hbefore k' (Nat.zero_le _) hk', rfl⟩⟩
    · rename_i hf
      simp only [Except.ok.injEq] at h1
      exact ⟨P, h1.symm, hlen, fun _ => rfl, fun h0 => absurd h0 hf⟩
  obtain ⟨P', rfl, hlen', hu0, hu1⟩ := hup
  split at h2
  · rename_i hf
    simp only [bind_eq_ok, writeAt_eq_ok] at h2
    obtain ⟨pw2, ⟨-, rfl⟩, hlt, rfl⟩ := h2
    rw [List.set_append_right _ _ (by omega), hlen', Nat.sub_self, List.set_cons_zero] at hlt ⊢
    rw [List.length_append, List.length_cons, hlen'] at hlt
    cases rest with
    | nil => simp at hlt
    | cons r1 rest' =>
      refine ⟨P', 33 :: 0 :: rest', ?_, hlen', hu0, hu1, fun h0 => absurd h0 hf,
        fun _ => ⟨r1, rest', rfl, rfl⟩⟩
      rw [List.set_append_right _ _ (by omega), hlen']
      simp
  · rename_i hf
    simp only [Except.ok.injEq] at h2
    exact ⟨P', 0 :: rest, h2.symm, hlen', hu0, hu1, fun _ => rfl, fun h0 => absurd h0 hf⟩

/-- The shape of the buffer after a successful run on a valid length: an arrangement `P`,
possibly with its leftmost letter moved to upper case, followed by the terminator (or by the
symbol and the terminator) and the untouched rest of the caller's buffer. -/
theorem genPasswordLength_shape {σ : Type} (rng : Csprng σ) (hr : rng.InRange) (fuel : Nat)
    (password : List Nat) (n : Nat) (flags : Int) (s s' : σ) (st : Nat) (out : List Nat)
    (hn : 8 ≤ n ∧ n ≤ 36)
    (h : genPasswordLength rng fuel password n flags s = .ok (st, out, s')) :
    st = 0 ∧ ∃ (l d : Nat) (P P' rest tail : List Nat),
      Arrangement l d P ∧ P.length = n ∧ l + d = n ∧ 1 ≤ l ∧
      (d = (10 * n + n / 8) / 36 ∨ (n < 36 ∧ d = (10 * n + n / 8) / 36 + 1)) ∧
      out = P' ++ tail ∧ P'.length = n ∧
      (Int.land flags GEN_PASSWORD_FLAG_NEED_UPPERCASE = 0 → P' = P) ∧
      (Int.land flags GEN_PASSWORD_FLAG_NEED_UPPERCASE ≠ 0 →
        ∃ k c : Nat, P[k]? = some c ∧ 97 ≤ c ∧
          (∀ k', k' < k → ∃ x, P[k']? = some x ∧ x < 97) ∧ P' = P.set k (c - 32)) ∧
      (Int.land flags GEN_PASSWORD_FLAG_NEED_SYMBOL = 0 → tail = 0 :: rest) ∧
      (Int.land flags GEN_PASSWORD_FLAG_NEED_SYMBOL ≠ 0 →
        ∃ r1 rest', rest = r1 :: rest' ∧ tail = 33 :: 0 :: rest') := by
  obtain ⟨hst, l, d, s1, P, r0, rest, hsplit, hP, hlen, -, hflags⟩ :=
    genPasswordLength_ok rng hr fuel password n flags s s' st out hn h
  obtain ⟨hl, hl1, -, -, -, hd⟩ := splitCounts_spec rng n s s1 l d hn hsplit
  obtain ⟨P', tail, h1, h2, h3, h4, h5, h6⟩ :=
    applyFlags_spec n flags l d P rest out hP hl1 hlen hflags
  exact ⟨hst, l, d, P, P', rest, tail, hP, hlen, hl, hl1, hd, h1, h2, h3, h4, h5, h6⟩

theorem land_zero_uppercase : Int.land 0 GEN_PASSWORD_FLAG_NEED_UPPERCASE = 0 := by decide

theorem land_zero_symbol : Int.land 0 GEN_PASSWORD_FLAG_NEED_SYMBOL = 0 := by decide

theorem rngZero_inRange : rngZero.InRange :=
  ⟨fun _ _ => Nat.zero_le _, fun _ _ => Nat.zero_le _⟩

theorem rngMax_inRange : rngMax.InRange :=
  ⟨fun _ _ => Nat.le_refl _, fun _ _ => Nat.le_refl _⟩

/-- Reading a list in which position `k` was overwritten. -/
theorem upcased_getElem {P : List Nat} {k c : Nat} (hc : P[k]? = some c) :
    ∀ i u, P[i]? = some u →
      ∃ v, (P.set k (c - 32))[i]? = some v ∧ ((i ≠ k ∧ v = u) ∨ (i = k ∧ u = c ∧ v = c - 32)) := by
  intro i u hu
  have hk : k < P.length := (List.getElem?_eq_some.1 hc).1
  by_cases hik : i = k
  · subst hik
    rw [hc] at hu
    cases hu
    exact ⟨c - 32, List.getElem?_set_self hk, Or.inr ⟨rfl, rfl, rfl⟩⟩
  · exact ⟨u, by rw [List.getElem?_set_ne (Ne.symm hik), hu], Or.inl ⟨hik, rfl⟩⟩

theorem Arrangement.split {l d : Nat} {P : List Nat} (h : Arrangement l d P) :
    SplitDigits P := by
  obtain ⟨L, D, -, -, -, -, -, -, -, hs⟩ := h
  exact hs

/-- On a valid length every run that returns has status zero (whatever the random source). -/
theorem genPasswordLength_status_zero {σ : Type} (rng : Csprng σ) (fuel : Nat)
    (password : List Nat) (n : Nat) (flags : Int) (s s' : σ) (st : Nat) (out : List Nat)
    (hn : ¬ (n < 8 ∨ n > 36))
    (h : genPasswordLength rng fuel password n flags s = .ok (st, out, s')) : st = 0 := by
  unfold genPasswordLength at h
  rw [if_neg hn] at h
  simp only [bind_eq_ok] at h
  obtain ⟨⟨l, d, s1⟩, -, ⟨pw1, pool1, s2⟩, -, ⟨pw2, pool2, s3⟩, -, pw3, -, ⟨pw4, s4⟩, -, pw5,
    -, h⟩ := h
  simp only [Except.ok.injEq, Prod.mk.injEq] at h
  exact h.1.symm

/-- On an invalid length the function returns 1 at once. -/
theorem genPasswordLength_invalid {σ : Type} (rng : Csprng σ) (fuel : Nat)
    (password : List Nat) (n : Nat) (flags : Int) (s : σ) (hn : n < 8 ∨ n > 36) :
    genPasswordLength rng fuel password n flags s = .ok (1, password, s) := by
  unfold genPasswordLength
  rw [if_pos hn]

theorem isDigit_toLower (c : Nat) : isDigit (toLower c) = isDigit c := by
  unfold toLower isDigit isUpper
  split
  · rename_i h
    simp only [decide_eq_true_eq] at h
    rw [decide_eq_decide]
    omega
  · rfl

theorem isLetter_toLower (c : Nat) : isLetter (toLower c) = isLetter c := by
  unfold toLower
  split
  · rename_i h
    have h' := h
    simp only [isUpper, decide_eq_true_eq] at h'
    have h1 : isLower (c + 32) = true := by
      simp only [isLower, decide_eq_true_eq]
      omega
    simp [isLetter, h, h1]
  · rfl

theorem beq_toLower_digit (c x : Nat) (hc : c ∈ DIGITS) : (toLower x == c) = (x == c) := by
  have hc' := mem_DIGITS.1 hc
  unfold toLower
  split
  · rename_i h
    simp only [isUpper, decide_eq_true_eq] at h
    have h1 : ¬ (x + 32 = c) := by omega
    have h2 : ¬ (x = c) := by omega
    simp [h1, h2]
  · rfl

/-- Lowering the characters of the flagged arrangement gives the arrangement back. -/
theorem map_toLower_flagged {l d : Nat} {P P' : List Nat} (flags : Int)
    (hP : Arrangement l d P)
    (hu0 : Int.land flags GEN_PASSWORD_FLAG_NEED_UPPERCASE = 0 → P' = P)
    (hu1 : Int.land flags GEN_PASSWORD_FLAG_NEED_UPPERCASE ≠ 0 →
        ∃ k c : Nat, P[k]? = some c ∧ 97 ≤ c ∧
          (∀ k', k' < k → ∃ x, P[k']? = some x ∧ x < 97) ∧ P' = P.set k (c - 32)) :
    P'.map toLower = P := by
  have hid : ∀ c ∈ P, toLower c = c := by
    intro c hc
    unfold toLower
    rw [if_neg]
    rcases hP.lower_or_digit c hc with h | h
    · simp only [isLower, decide_eq_true_eq] at h
      simp only [isUpper, decide_eq_true_eq]
      omega
    · simp only [isDigit, decide_eq_true_eq] at h
      simp only [isUpper, decide_eq_true_eq]
      omega
  have hP_id : P.map toLower = P := by
    conv_rhs => rw [← List.map_id P]
    exact List.map_congr_left hid
  by_cases hf : Int.land flags GEN_PASSWORD_FLAG_NEED_UPPERCASE = 0
  · rw [hu0 hf]
    exact hP_id
  · obtain ⟨k, c, hc, hc97, -, rfl⟩ := hu1 hf
    have hcP : c ∈ P := List.mem_iff_getElem?.2 ⟨k, hc⟩
    have hc122 : c ≤ 122 := by
      rcases hP.lower_or_digit c hcP with h | h
      · simp only [isLower, decide_eq_true_eq] at h
        omega
      · simp only [isDigit, decide_eq_true_eq] at h
        omega
    have hlow : toLower (c - 32) = c := by
      unfold toLower
      rw [if_pos]
      · omega
      · simp only [isUpper, decide_eq_true_eq]
        omega
    apply List.ext_getElem?
    intro i
    rw [List.getElem?_map, List.getElem?_set]
    split
    · rename_i hki
      subst hki
      have hk : k < P.length := (List.getElem?_eq_some.1 hc).1
      simp [hk, hlow, hc]
    · rw [← List.getElem?_map, hP_id]

/-- The numbers of digits and of letters among the flagged arrangement. -/
theorem flagged_counts {l d : Nat} {P P' : List Nat} (hP : Arrangement l d P)
    (hmap : P'.map toLower = P) :
    P'.countP isDigit = d ∧ P'.countP isLetter = l := by
  have h1 : P'.countP isDigit = P.countP isDigit := by
    rw [← hmap, List.countP_map]
    congr 1
    funext c
    exact (isDigit_toLower c).symm
  have h2 : P'.countP isLetter = P.countP isLetter := by
    rw [← hmap, List.countP_map]
    congr 1
    funext c
    exact (isLetter_toLower c).symm
  have h3 : P.countP isLetter = P.countP isLower := by
    apply List.countP_congr
    intro c hc
    have : isUpper c = false := by
      rcases hP.lower_or_digit c hc with h | h
      · simp only [isLower, decide_eq_true_eq] at h
        simp only [isUpper, decide_eq_false_iff_not]
        omega
      · simp only [isDigit, decide_eq_true_eq] at h
        simp only [isUpper, decide_eq_false_iff_not]
        omega
    simp [isLetter, this]
  rw [h1, h2, h3]
  exact hP.count_digits

theorem perm_of_full_pool {L pool : List Nat} (hnd : L.Nodup) (hsub : ∀ c ∈ L, c ∈ pool)
    (hlen : pool.length ≤ L.length) : List.Perm L pool :=
  (List.subperm_of_subset hnd hsub).perm_of_length_le hlen

/-- An arrangement of all 26 letters and all 10 digits holds each of them exactly once. -/
theorem Arrangement.full {P : List Nat} (hP : Arrangement 26 10 P) :
    ∀ c, c ∈ LETTERS ++ DIGITS → List.count c P = 1 := by
  obtain ⟨L, D, hL, hD, hLnd, hDnd, hLmem, hDmem, hperm, -⟩ := hP
  have h1 : List.Perm L LETTERS := perm_of_full_pool hLnd hLmem (by rw [hL]; decide)
  have h2 : List.Perm D DIGITS := perm_of_full_pool hDnd hDmem (by rw [hD]; decide)
  have h3 : List.Perm P (LETTERS ++ DIGITS) := hperm.trans (h1.append h2)
  intro c hc
  rw [h3.count_eq]
  exact List.count_eq_one_of_mem (by decide) hc

theorem cStringLength_append (A B : List Nat) (hA : ∀ c ∈ A, c ≠ 0) :
    cStringLength (A ++ 0 :: B) = A.length := by
  unfold cStringLength
  induction A with
  | nil => simp
  | cons a A ih =>
    have ha : a ≠ 0 := hA a (List.mem_cons_self _ _)
    have := ih (fun c hc => hA c (List.mem_cons_of_mem _ hc))
    simp [List.takeWhile_cons, ha, this]

theorem take_set_of_le (l : List Nat) (a : Nat) {m n : Nat} (h : m ≤ n) :
    (l.set n a).take m = l.take m := by
  apply List.ext_getElem?
  intro i
  by_cases hi : i < m
  · rw [List.getElem?_take_of_lt hi, List.getElem?_take_of_lt hi,
      List.getElem?_set_ne (by omega)]
  · rw [List.getElem?_take_eq_none (by omega), List.getElem?_take_eq_none (by omega)]

theorem applyFlags_zero (n : Nat) (pw : List Nat) : applyFlags n 0 pw = .ok pw := by
  simp only [applyFlags, land_zero_uppercase, land_zero_symbol, ne_eq, not_true_eq_false,
    if_false, bind, Except.bind]

/-- A run with flags is the run without flags followed by the flag handling. -/
theorem genPasswordLength_flags_iff {σ : Type} (rng : Csprng σ) (fuel : Nat)
    (password : List Nat) (n : Nat) (flags : Int) (s s' : σ) (st : Nat) (out : List Nat)
    (hn : ¬ (n < 8 ∨ n > 36)) :
    genPasswordLength rng fuel password n flags s = .ok (st, out, s') ↔
      ∃ base, genPasswordLength rng fuel password n 0 s = .ok (st, base, s') ∧
        applyFlags n flags base = .ok out := by
  unfold genPasswordLength
  rw [if_neg hn, if_neg hn]
  simp only [bind_eq_ok]
  constructor
  · rintro ⟨⟨l, d, s1⟩, h1, ⟨pw1, pool1, s2⟩, h2, ⟨pw2, pool2, s3⟩, h3, pw3, h4, ⟨pw4, s4⟩, h5,
      pw5, h6, h7⟩
    simp only [Except.ok.injEq, Prod.mk.injEq] at h7
    obtain ⟨rfl, rfl, rfl⟩ := h7
    exact ⟨pw4, ⟨⟨l, d, s1⟩, h1, ⟨pw1, pool1, s2⟩, h2, ⟨pw2, pool2, s3⟩, h3, pw3, h4,
      ⟨pw4, s4⟩, h5, pw4, applyFlags_zero n pw4, rfl⟩, h6⟩
  · rintro ⟨base, ⟨⟨l, d, s1⟩, h1, ⟨pw1, pool1, s2⟩, h2, ⟨pw2, pool2, s3⟩, h3, pw3, h4,
      ⟨pw4, s4⟩, h5, pw5, h6, h7⟩, h8⟩
    simp only [Except.ok.injEq, Prod.mk.injEq] at h7
    obtain ⟨rfl, rfl, rfl⟩ := h7
    simp only [applyFlags_zero, Except.ok.injEq] at h6
    subst h6
    exact ⟨⟨l, d, s1⟩, h1, ⟨pw1, pool1, s2⟩, h2, ⟨pw2, pool2, s3⟩, h3, pw3, h4,
      ⟨_, s4⟩, h5, _, h8, rfl⟩

/-- Clearing the symbol flag leaves the first `n` characters as they are. -/
theorem applyFlags_without_symbol (n : Nat) (flags flags0 : Int) (base out : List Nat)
    (h : applyFlags n flags base = .ok out)
    (h0 : Int.land flags0 GEN_PASSWORD_FLAG_NEED_SYMBOL = 0)
    (hu : Int.land flags0 GEN_PASSWORD_FLAG_NEED_UPPERCASE ≠ 0 ↔
      Int.land flags GEN_PASSWORD_FLAG_NEED_UPPERCASE ≠ 0) :
    ∃ out0, applyFlags n flags0 base = .ok out0 ∧ out0.take n = out.take n := by
  simp only [applyFlags, bind_eq_ok] at h ⊢
  obtain ⟨pw1, h1, h2⟩ := h
  refine ⟨pw1, ⟨pw1, ?_, ?_⟩, ?_⟩
  · by_cases hf : Int.land flags GEN_PASSWORD_FLAG_NEED_UPPERCASE ≠ 0
    · rw [if_pos hf] at h1
      rw [if_pos (hu.2 hf)]
      exact h1
    · rw [if_neg hf] at h1
      rw [if_neg (fun hc => hf (hu.1 hc))]
      exact h1
  · rw [if_neg (by simp [h0])]
  · split at h2
    · simp only [bind_eq_ok, writeAt_eq_ok] at h2
      obtain ⟨pw2, ⟨-, rfl⟩, -, rfl⟩ := h2
      rw [take_set_of_le _ _ (by omega), take_set_of_le _ _ (Nat.le_refl n)]
    · simp only [Except.ok.injEq] at h2
      rw [h2]

theorem getBaseLength_above (b : Nat) (hb : 128 < b) : genPassword_getBaseLength b = .ok 0 := by
  have h : readAt genPassword_getBaseLength.BIT_STRENGTHS (genPassword_getBaseLength.COUNT - 1)
      = .ok 128 := rfl
  unfold genPassword_getBaseLength
  rw [h]
  simp only [bind, Except.bind]
  rw [if_pos hb]

theorem getBaseLength_upto (b : Nat) (hb : b ≤ 128) :
    genPassword_getBaseLength b = .ok (specBaseLength b) := by
  interval_cases b <;> rfl

theorem specBaseLength_above (b : Nat) (hb : 128 < b) : specBaseLength b = 0 := by
  simp [specBaseLength, List.find?, show ¬ b ≤ 48 by omega, show ¬ b ≤ 58 by omega,
    show ¬ b ≤ 67 by omega, show ¬ b ≤ 76 by omega, show ¬ b ≤ 80 by omega,
    show ¬ b ≤ 96 by omega, show ¬ b ≤ 100 by omega, show ¬ b ≤ 128 by omega]

theorem getBaseLength_eq_spec (b : Nat) :
    genPassword_getBaseLength b = .ok (specBaseLength b) := by
  by_cases hb : b ≤ 128
  · exact getBaseLength_upto b hb
  · rw [getBaseLength_above b (by omega), specBaseLength_above b (by omega)]

theorem doubleValue_mono {x y : Nat} (h : x ≤ y) : doubleValue x ≤ doubleValue y := by
  unfold doubleValue
  apply div_le_div_of_nonneg_right _ (by positivity)
  exact_mod_cast h

theorem le_doubleValue {b x : Nat} (h : b * 2 ^ 52 ≤ x) : (b : ℚ) ≤ doubleValue x := by
  unfold doubleValue
  rw [le_div_iff₀ (by positivity)]
  exact_mod_cast h

theorem BIT_STRENGTHS_sorted :
    List.Pairwise (fun x y => x ≤ y) genPassword_getBitStrength.BIT_STRENGTHS := by
  decide

theorem getBitStrength_in_range (n : Nat) (hn : 8 ≤ n ∧ n ≤ 36) :
    ∃ x, genPassword_getBitStrength n = .ok x ∧
      genPassword_getBitStrength.BIT_STRENGTHS[n - 8]? = some x ∧ 0 < x := by
  obtain ⟨h1, h2⟩ := hn
  interval_cases n <;> exact ⟨_, rfl, rfl, by decide⟩

theorem documentedTargets_hold :
    documentedTargets.Forall (fun p =>
      genPassword_getBaseLength p.1 = .ok p.2.1 ∧
      ∃ x, genPassword_getBitStrength p.2.1 = .ok x ∧ (p.1 : ℚ) ≤ doubleValue x ∧
        |doubleValue x - p.2.2| ≤ 1 / 20000) := by
  simp only [documentedTargets, List.Forall]
  refine ⟨?_, ?_, ?_, ?_, ?_, ?_, ?_, ?_⟩
  · exact ⟨rfl, 219523727932272928, rfl, by norm_num [doubleValue],
      by rw [abs_le]; norm_num [doubleValue]⟩
  · exact ⟨rfl, 262003429752672224, rfl, by norm_num [doubleValue],
      by rw [abs_le]; norm_num [doubleValue]⟩
  · exact ⟨rfl, 302824040828039104, rfl, by norm_num [doubleValue],
      by rw [abs_le]; norm_num [doubleValue]⟩
  · exact ⟨rfl, 342864763364654720, rfl, by norm_num [doubleValue],
      by rw [abs_le]; norm_num [doubleValue]⟩
  · exact ⟨rfl, 362254063672905344, rfl, by norm_num [doubleValue],
      by rw [abs_le]; norm_num [doubleValue]⟩
  · exact ⟨rfl, 436544654354273024, rfl, by norm_num [doubleValue],
      by rw [abs_le]; norm_num [doubleValue]⟩
  · exact ⟨rfl, 454217989695998848, rfl, by norm_num [doubleValue],
      by rw [abs_le]; norm_num [doubleValue]⟩
  · exact ⟨rfl, 576697887872097920, rfl, by norm_num [doubleValue],
      by rw [abs_le]; norm_num [doubleValue]⟩

/-- The two table entries of a base length from 8 to 35 and the equation that ties them to
the summands of the key space. -/
theorem extra_tables_entries (n : Nat) (hn : 8 ≤ n ∧ n ≤ 35) :
    ∃ letter charMax : Nat,
      EXTRA_LETTER[n - 8]? = some letter ∧ EXTRA_CHAR_MAX[n - 8]? = some charMax ∧
      letter * (keySpaceLetter n ((10 * n + n / 8) / 36) +
          keySpaceDigit n ((10 * n + n / 8) / 36)) =
        keySpaceLetter n ((10 * n + n / 8) / 36) * (charMax + 1) ∧
      0 < keySpaceLetter n ((10 * n + n / 8) / 36) +
          keySpaceDigit n ((10 * n + n / 8) / 36) ∧
      letter ≤ charMax + 1 := by
  obtain ⟨h1, h2⟩ := hn
  interval_cases n <;> exact ⟨_, _, rfl, rfl, by decide, by decide, by decide⟩

theorem filter_lt_length {a b : Nat} (h : a ≤ b) :
    ((List.range b).filter (fun r => decide (r < a))).length = a := by
  induction b with
  | zero =>
    have : a = 0 := by omega
    subst this
    rfl
  | succ b ih =>
    rw [List.range_succ, List.filter_append, List.length_append]
    rcases Nat.eq_or_lt_of_le h with h1 | h1
    · subst h1
      have hall : (List.range b).filter (fun r => decide (r < b + 1)) = List.range b := by
        rw [List.filter_eq_self]
        intro x hx
        have := List.mem_range.1 hx
        simp only [decide_eq_true_eq]
        omega
      rw [hall]
      simp
    · have hb : a ≤ b := by omega
      have : ¬ b < a := by omega
      simp [ih hb, this]

/-- The split unfolded for a base length below 36 whose table entries are known. -/
theorem splitCounts_eq {σ : Type} (rng : Csprng σ) (n : Nat) (s : σ) (letter charMax : Nat)
    (hn : n ≠ 36) (h1 : EXTRA_LETTER[n - 8]? = some letter)
    (h2 : EXTRA_CHAR_MAX[n - 8]? = some charMax) :
    splitCounts rng n s =
      if (rng.randomUint32 charMax s).1 < letter then
        .ok (n - (10 * n + n / 8) / 36 - 1 + 1, (10 * n + n / 8) / 36,
          (rng.randomUint32 charMax s).2)
      else
        .ok (n - (10 * n + n / 8) / 36 - 1, (10 * n + n / 8) / 36 + 1,
          (rng.randomUint32 charMax s).2) := by
  have e1 : readAt EXTRA_LETTER (n - 8) = .ok letter := readAt_eq_ok.2 h1
  have e2 : readAt EXTRA_CHAR_MAX (n - 8) = .ok charMax := readAt_eq_ok.2 h2
  unfold splitCounts
  simp only []
  rw [if_neg hn, e2]
  simp only [bind, Except.bind]
  rw [e1]

theorem permCount_eq_descFactorial (n k : Nat) (h : k ≤ n) :
    permCount n k = n.descFactorial k := by
  unfold permCount
  rw [Nat.descFactorial_eq_div h]

theorem chooseCount_eq_choose (n k : Nat) (h : k ≤ n) : chooseCount n k = n.choose k := by
  unfold chooseCount
  rw [Nat.choose_eq_factorial_div_factorial h]

theorem floor_doubleValue (x : Nat) : ⌊doubleValue x⌋₊ = x / 2 ^ 52 := by
  unfold doubleValue
  have h : ((2 : ℚ) ^ 52) = ((2 ^ 52 : ℕ) : ℚ) := by push_cast; rfl
  rw [h, Nat.floor_div_eq_div]

set_option exponentiation.threshold 30000 in
/-- Bounds on a power of `K` by powers of two bound the binary logarithm of `K`. -/
theorem logb_two_close (K e : Nat) (he : 1 ≤ e) (h1 : 2 ^ (e - 1) ≤ K ^ 20000)
    (h2 : K ^ 20000 ≤ 2 ^ (e + 1)) :
    |Real.logb 2 (K : ℝ) - (e : ℝ) / 20000| ≤ 1 / 20000 := by
  have hK : 0 < K :=
    (pow_pos_iff (by decide : (20000 : ℕ) ≠ 0)).1
      (Nat.lt_of_lt_of_le (Nat.two_pow_pos (e - 1)) h1)
  have hKr : (0 : ℝ) < (K : ℝ) := by exact_mod_cast hK
  have key : ∀ m : Nat, ((2 : ℝ) ^ ((m : ℝ) / 20000)) ^ 20000 = (2 : ℝ) ^ m := by
    intro m
    rw [← Real.rpow_natCast, ← Real.rpow_mul (by norm_num)]
    have : (m : ℝ) / 20000 * ((20000 : ℕ) : ℝ) = (m : ℝ) := by
      push_cast
      field_simp
    rw [this, Real.rpow_natCast]
  have hlow : ((e - 1 : ℕ) : ℝ) / 20000 ≤ Real.logb 2 (K : ℝ) := by
    rw [Real.le_logb_iff_rpow_le (by norm_num) hKr]
    have hpos : (0 : ℝ) ≤ (2 : ℝ) ^ (((e - 1 : ℕ) : ℝ) / 20000) := by positivity
    rw [← pow_le_pow_iff_left₀ hpos hKr.le (by norm_num : (20000 : ℕ) ≠ 0), key]
    exact_mod_cast h1
  have hhigh : Real.logb 2 (K : ℝ) ≤ ((e + 1 : ℕ) : ℝ) / 20000 := by
    rw [Real.logb_le_iff_le_rpow (by norm_num) hKr]
    have hpos : (0 : ℝ) ≤ (2 : ℝ) ^ (((e + 1 : ℕ) : ℝ) / 20000) := by positivity
    rw [← pow_le_pow_iff_left₀ hKr.le hpos (by norm_num : (20000 : ℕ) ≠ 0), key]
    exact_mod_cast h2
  have e1 : ((e - 1 : ℕ) : ℝ) = (e : ℝ) - 1 := by
    rw [Nat.cast_sub he]
    simp
  have e2 : ((e + 1 : ℕ) : ℝ) = (e : ℝ) + 1 := by push_cast; rfl
  rw [e1] at hlow
  rw [e2] at hhigh
  rw [abs_le]
  constructor
  · have : ((e : ℝ) - 1) / 20000 = (e : ℝ) / 20000 - 1 / 20000 := by ring
    linarith
  · have : ((e : ℝ) + 1) / 20000 = (e : ℝ) / 20000 + 1 / 20000 := by ring
    linarith

set_option exponentiation.threshold 3000000 in
/-- The table entry, the documented value and the key space of a base length from 8 to 36,
compared as natural numbers. -/
theorem bitStrength_entries (n : Nat) (hn : 8 ≤ n ∧ n ≤ 36) :
    ∃ x doc : Nat, genPassword_getBitStrength n = .ok x ∧
      documentedStrengths[n - 8]? = some doc ∧
      2 ^ (x / 2 ^ 52) ≤ keySpace n ∧ keySpace n < 2 ^ (x / 2 ^ 52 + 1) ∧
      2 ^ (2 * doc - 1) ≤ keySpace n ^ 20000 ∧ keySpace n ^ 20000 ≤ 2 ^ (2 * doc + 1) ∧
      doc * 2 ^ 52 ≤ 10000 * x + 2 ^ 51 ∧ 10000 * x ≤ doc * 2 ^ 52 + 2 ^ 51 ∧ 1 ≤ doc := by
  obtain ⟨h1, h2⟩ := hn
  interval_cases n <;>
    exact ⟨_, _, rfl, rfl, by decide, by decide, by decide, by decide, by decide, by decide,
      by decide⟩

theorem doubleValue_close (x doc : Nat) (h1 : doc * 2 ^ 52 ≤ 10000 * x + 2 ^ 51)
    (h2 : 10000 * x ≤ doc * 2 ^ 52 + 2 ^ 51) :
    |doubleValue x - (doc : ℚ) / 10000| ≤ 1 / 20000 := by
  unfold doubleValue
  have h1' : (doc : ℚ) * 2 ^ 52 ≤ 10000 * x + 2 ^ 51 := by exact_mod_cast h1
  have h2' : (10000 : ℚ) * x ≤ doc * 2 ^ 52 + 2 ^ 51 := by exact_mod_cast h2
  rw [abs_le]
  constructor
  · rw [neg_le_sub_iff_le_add, div_add' _ _ _ (by norm_num), div_le_div_iff₀ (by norm_num)
      (by norm_num)]
    nlinarith
  · rw [sub_le_iff_le_add, div_add_div _ _ (by norm_num) (by norm_num), div_le_div_iff₀
      (by norm_num) (by norm_num)]
    nlinarith

/-- Bounds between multiples of two numbers, read as bounds on their excess in percent. -/
theorem percent_bounds (Kb Ku lo hi : Nat) (hpos : 0 < Ku)
    (h1 : lo * Ku + 10000000 * Ku ≤ 10000000 * Kb)
    (h2 : 10000000 * Kb < hi * Ku + 10000000 * Ku) :
    (lo : ℚ) / 100000 ≤ ((Kb : ℚ) / (Ku : ℕ) - 1) * 100 ∧
      ((Kb : ℚ) / (Ku : ℕ) - 1) * 100 < (hi : ℚ) / 100000 := by
  have hq : (0 : ℚ) < (Ku : ℚ) := by exact_mod_cast hpos
  have h1' : (lo : ℚ) * Ku + 10000000 * Ku ≤ 10000000 * Kb := by exact_mod_cast h1
  have h2' : (10000000 : ℚ) * Kb < hi * Ku + 10000000 * Ku := by exact_mod_cast h2
  have e : ((Kb : ℚ) / (Ku : ℕ) - 1) * 100 = ((Kb : ℚ) - Ku) * 100 / Ku := by
    field_simp
  rw [e]
  constructor
  · rw [div_le_div_iff₀ (by norm_num) hq]
    nlinarith
  · rw [div_lt_div_iff₀ hq (by norm_num)]
    nlinarith

/-- The values computed at run time for a base length from 8 to 35, with the sizes of the
intermediate quantities and the equation that ties them to the tables. -/
theorem calculateProbability_entries (n : Nat) (hn : 8 ≤ n ∧ n ≤ 35) :
    ∃ d l letter charMax x y : Nat,
      d = (10 * n + n / 8) / 36 ∧ l = n - d - 1 ∧
      EXTRA_LETTER[n - 8]? = some letter ∧ EXTRA_CHAR_MAX[n - 8]? = some charMax ∧
      calculateProbability n d l = (x, y) ∧ exactProbability n = (x, y) ∧
      (permCount n d < 2 ^ 64 ∧ d.factorial < 2 ^ 32 ∧ chooseCount n d < 2 ^ 32 ∧
        chooseCount n d * (n - d) < 2 ^ 32 ∧ l + 2 ≤ chooseCount n d ∧
        l + 1 ≤ chooseCount n d * (n - d) / (d + 1) ∧ l ≤ 26 ∧ d ≤ 10 ∧
        x < 2 ^ 32 ∧ y < 2 ^ 32 ∧ 1 ≤ x + y ∧ x + y < 2 ^ 32) ∧
      x * (charMax + 1) = letter * (x + y) ∧ sub32 (add32 x y) 1 = x + y - 1 := by
  obtain ⟨h1, h2⟩ := hn
  interval_cases n <;>
    exact ⟨_, _, _, _, _, _, rfl, rfl, rfl, rfl, rfl, rfl, by decide, by decide, by decide⟩

theorem splitCountsCalculated_eq {σ : Type} (rng : Csprng σ) (n : Nat) (s : σ) (x y : Nat)
    (hn : n ≠ 36)
    (h1 : calculateProbability n ((10 * n + n / 8) / 36) (n - (10 * n + n / 8) / 36 - 1)
      = (x, y))
    (h2 : sub32 (add32 x y) 1 = x + y - 1) :
    splitCountsCalculated rng n s =
      if (rng.randomUint32 (x + y - 1) s).1 < x then
        .ok (n - (10 * n + n / 8) / 36 - 1 + 1, (10 * n + n / 8) / 36,
          (rng.randomUint32 (x + y - 1) s).2)
      else
        .ok (n - (10 * n + n / 8) / 36 - 1, (10 * n + n / 8) / 36 + 1,
          (rng.randomUint32 (x + y - 1) s).2) := by
  unfold splitCountsCalculated
  simp only []
  rw [if_neg hn, h1]
  simp only []
  rw [h2]

theorem getBitStrength_mono (m n x y : Nat) (h8 : 8 ≤ m) (hmn : m ≤ n) (h36 : n ≤ 36)
    (hx : genPassword_getBitStrength m = .ok x) (hy : genPassword_getBitStrength n = .ok y) :
    x ≤ y := by
  obtain ⟨x', h1, h2, -⟩ := getBitStrength_in_range m ⟨h8, by omega⟩
  obtain ⟨y', h3, h4, -⟩ := getBitStrength_in_range n ⟨by omega, h36⟩
  rw [h1] at hx
  rw [h3] at hy
  cases hx
  cases hy
  rcases Nat.eq_or_lt_of_le hmn with rfl | hlt
  · rw [h2] at h4
    cases h4
    exact Nat.le_refl _
  · obtain ⟨hi, hxi⟩ := List.getElem?_eq_some.1 h2
    obtain ⟨hj, hyj⟩ := List.getElem?_eq_some.1 h4
    rw [← hxi, ← hyj]
    exact List.pairwise_iff_getElem.1 BIT_STRENGTHS_sorted (m - 8) (n - 8) hi hj (by omega)

theorem doubleValue_lt {b x : Nat} (h : x < b * 2 ^ 52) : doubleValue x < (b : ℚ) := by
  unfold doubleValue
  rw [div_lt_iff₀ (by positivity)]
  exact_mod_cast h

theorem getBaseLength_fullRange_above (b : Nat) (hb : 138 < b) :
    genPassword_getBaseLength_fullRange b = .ok 0 := by
  have h : readAt genPassword_getBaseLength_fullRange.BIT_STRENGTHS
      (genPassword_getBaseLength_fullRange.COUNT - 1) = .ok 138 := rfl
  unfold genPassword_getBaseLength_fullRange
  rw [h]
  simp only [bind, Except.bind]
  rw [if_pos hb]

/-- The result of full-range mode for a request up to 138: its strength reaches the request
and the strength of the length before it, if any, does not. -/
theorem getBaseLength_fullRange_entries (b : Nat) (hb : b ≤ 138) :
    ∃ n x : Nat, genPassword_getBaseLength_fullRange b = .ok n ∧ 8 ≤ n ∧ n ≤ 36 ∧
      genPassword_getBitStrength n = .ok x ∧ b * 2 ^ 52 ≤ x ∧
      (n = 8 ∨ ∃ y, genPassword_getBitStrength (n - 1) = .ok y ∧ y < b * 2 ^ 52) := by
  interval_cases b <;>
    first
    | exact ⟨_, _, rfl, by decide, by decide, rfl, by decide, Or.inl rfl⟩
    | exact ⟨_, _, rfl, by decide, by decide, rfl, by decide, Or.inr ⟨_, rfl, by decide⟩⟩

theorem getElem?_take_eq_some {P : List Nat} {k a x : Nat} :
    (P.take k)[a]? = some x ↔ a < k ∧ P[a]? = some x := by
  by_cases h : a < k
  · rw [List.getElem?_take_of_lt h]
    exact ⟨fun hx => ⟨h, hx⟩, fun hx => hx.2⟩
  · rw [List.getElem?_take_eq_none (by omega)]
    constructor
    · intro hx
      cases hx
    · intro hx
      exact absurd hx.1 h

/-- The digits of a prefix are split exactly when the splitting pattern lies inside it. -/
theorem splitDigits_take_iff (P : List Nat) (k : Nat) :
    SplitDigits (P.take k) ↔
      ∃ a b c x y z : Nat, a < b ∧ b < c ∧ c < k ∧ P[a]? = some x ∧ P[b]? = some y ∧
        P[c]? = some z ∧ x ≤ 57 ∧ 57 < y ∧ z ≤ 57 := by
  constructor
  · rintro ⟨a, b, c, x, y, z, hab, hbc, hx, hy, hz, h1, h2, h3⟩
    rw [getElem?_take_eq_some] at hx hy hz
    exact ⟨a, b, c, x, y, z, hab, hbc, hz.1, hx.2, hy.2, hz.2, h1, h2, h3⟩
  · rintro ⟨a, b, c, x, y, z, hab, hbc, hck, hx, hy, hz, h1, h2, h3⟩
    refine ⟨a, b, c, x, y, z, hab, hbc, ?_, ?_, ?_, h1, h2, h3⟩
    · exact getElem?_take_eq_some.2 ⟨by omega, hx⟩
    · exact getElem?_take_eq_some.2 ⟨by omega, hy⟩
    · exact getElem?_take_eq_some.2 ⟨hck, hz⟩

theorem scanDigits_total (P tail : List Nat) :
    ∀ (count i d : Nat), 1 ≤ i → i + count ≤ P.length →
      ∃ d', scanDigits count i d (P ++ tail) = .ok d' := by
  intro count
  induction count with
  | zero =>
    intro i d _ _
    exact ⟨d, rfl⟩
  | succ count ih =>
    intro i d hi hle
    have hi' : i < P.length := by omega
    have hp' : i - 1 < P.length := by omega
    have hc : readAt (P ++ tail) i = .ok P[i] := by
      rw [readAt_eq_ok, List.getElem?_append_left hi', List.getElem?_eq_getElem hi']
    have hp : readAt (P ++ tail) (i - 1) = .ok (P[i - 1]) := by
      rw [readAt_eq_ok, List.getElem?_append_left hp', List.getElem?_eq_getElem hp']
    unfold scanDigits
    rw [hc]
    simp only [bind, Except.bind]
    split
    · rw [hp]
      exact ih (i + 1) _ (by omega) (by omega)
    · exact ih (i + 1) _ (by omega) (by omega)

theorem countDigitsInARow_total (n : Nat) (P tail : List Nat) (hP : P.length = n)
    (hn : 1 ≤ n) : ∃ d, countDigitsInARow n (P ++ tail) = .ok d := by
  have h0 : 0 < P.length := by omega
  have hc : readAt (P ++ tail) 0 = .ok P[0] := by
    rw [readAt_eq_ok, List.getElem?_append_left h0, List.getElem?_eq_getElem h0]
  unfold countDigitsInARow
  rw [hc]
  simp only [bind, Except.bind]
  exact scanDigits_total P tail (n - 1) 1 _ le_rfl (by omega)

/-- The running count never exceeds the number of digits read so far, and stays below it
once the digits read so far are split. -/
theorem scanDigits_le (P tail : List Nat) :
    ∀ (count i d d' : Nat), 1 ≤ i → i + count ≤ P.length →
      d ≤ (P.take i).countP (fun c => decide (c ≤ 57)) →
      (SplitDigits (P.take i) → d < (P.take i).countP (fun c => decide (c ≤ 57))) →
      scanDigits count i d (P ++ tail) = .ok d' →
      d' ≤ (P.take (i + count)).countP (fun c => decide (c ≤ 57)) ∧
      (SplitDigits (P.take (i + count)) →
        d' < (P.take (i + count)).countP (fun c => decide (c ≤ 57))) := by
  intro count
  induction count with
  | zero =>
    intro i d d' _ _ hd hs h
    simp only [scanDigits, Except.ok.injEq] at h
    subst h
    exact ⟨hd, hs⟩
  | succ count ih =>
    intro i d d' hi hle hd hs h
    simp only [scanDigits, bind_eq_ok, readAt_eq_ok] at h
    obtain ⟨c, hc, h⟩ := h
    rw [List.getElem?_append_left (by omega)] at hc
    have hstep := countP_take_succ P i c (fun c => decide (c ≤ 57)) hc
    have e : i + (count + 1) = i + 1 + count := by omega
    rw [e]
    split at h
    · rename_i hc57
      simp only [bind_eq_ok, readAt_eq_ok] at h
      obtain ⟨p, hp, h⟩ := h
      rw [List.getElem?_append_left (by omega)] at hp
      have hcnt : (P.take (i + 1)).countP (fun c => decide (c ≤ 57)) =
          (P.take i).countP (fun c => decide (c ≤ 57)) + 1 := by
        rw [hstep]
        simp [hc57]
      refine ih (i + 1) _ d' (by omega) (by omega) ?_ ?_ h
      · rw [hcnt]
        split <;> omega
      · intro hsplit
        rw [hcnt]
        rw [splitDigits_take_iff] at hsplit
        obtain ⟨a, b, c', x, y, z, hab, hbc, hck, hx, hy, hz, h1, h2, h3⟩ := hsplit
        split
        · have hpos : 0 < (P.take i).countP (fun c => decide (c ≤ 57)) := by
            rw [List.countP_pos_iff]
            exact ⟨x, List.mem_iff_getElem?.2 ⟨a, getElem?_take_eq_some.2 ⟨by omega, hx⟩⟩,
              by simpa using h1⟩
          omega
        · rename_i hp57
          have hsplit' : SplitDigits (P.take i) := by
            rw [splitDigits_take_iff]
            by_cases hci : c' < i
            · exact ⟨a, b, c', x, y, z, hab, hbc, hci, hx, hy, hz, h1, h2, h3⟩
            · have hc'i : c' = i := by omega
              subst hc'i
              have hb1 : b ≠ c' - 1 := by
                intro hb
                subst hb
                rw [hp] at hy
                cases hy
                omega
              exact ⟨a, b, c' - 1, x, y, p, hab, by omega, by omega, hx, hy, hp, h1, h2,
                by omega⟩
          have := hs hsplit'
          omega
    · rename_i hc57
      have hcnt : (P.take (i + 1)).countP (fun c => decide (c ≤ 57)) =
          (P.take i).countP (fun c => decide (c ≤ 57)) := by
        rw [hstep]
        simp [hc57]
      refine ih (i + 1) _ d' (by omega) (by omega) ?_ ?_ h
      · rw [hcnt]
        exact hd
      · intro hsplit
        rw [hcnt]
        apply hs
        rw [splitDigits_take_iff] at hsplit ⊢
        obtain ⟨a, b, c', x, y, z, hab, hbc, hck, hx, hy, hz, h1, h2, h3⟩ := hsplit
        have hci : c' < i := by
          by_contra hcon
          have hc'i : c' = i := by omega
          subst hc'i
          rw [hc] at hz
          cases hz
          omega
        exact ⟨a, b, c', x, y, z, hab, hbc, hci, hx, hy, hz, h1, h2, h3⟩

theorem splitDigits_take_one (P : List Nat) : ¬ SplitDigits (P.take 1) := by
  rw [splitDigits_take_iff]
  rintro ⟨a, b, c, x, y, z, hab, hbc, hck, -⟩
  omega

/-- The final count is at most the number of digits, and less when the digits are split. -/
theorem countDigitsInARow_le (n : Nat) (P tail : List Nat) (hP : P.length = n) (hn : 1 ≤ n)
    (d : Nat) (h : countDigitsInARow n (P ++ tail) = .ok d) :
    d ≤ P.countP (fun c => decide (c ≤ 57)) ∧
      (SplitDigits P → d < P.countP (fun c => decide (c ≤ 57))) := by
  simp only [countDigitsInARow, bind_eq_ok, readAt_eq_ok] at h
  obtain ⟨c, hc, h⟩ := h
  rw [List.getElem?_append_left (by omega)] at hc
  have h1 := countP_take_succ P 0 c (fun c => decide (c ≤ 57)) hc
  simp only [Nat.zero_add, List.take_zero, List.countP_nil] at h1
  have key := scanDigits_le P tail (n - 1) 1 _ d le_rfl (by omega)
    (by rw [h1]; simp) (fun hs => absurd hs (splitDigits_take_one P)) h
  have e : 1 + (n - 1) = P.length := by omega
  rw [e, List.take_length] at key
  exact key

theorem digits_then_others (P : List Nat)
    (h : ∀ b c y z : Nat, b < c → P[b]? = some y → P[c]? = some z → 57 < y → 57 < z) :
    ∃ D B : List Nat, P = D ++ B ∧ (∀ c ∈ D, c ≤ 57) ∧ (∀ c ∈ B, 57 < c) := by
  induction P with
  | nil => exact ⟨[], [], rfl, by simp, by simp⟩
  | cons x Q ih =>
    by_cases hx : x ≤ 57
    · obtain ⟨D, B, rfl, hD, hB⟩ := ih (fun b c y z hbc hy hz =>
        h (b + 1) (c + 1) y z (by omega) (by simpa using hy) (by simpa using hz))
      refine ⟨x :: D, B, rfl, ?_, hB⟩
      intro c hc
      rcases List.mem_cons.1 hc with rfl | hc
      · exact hx
      · exact hD c hc
    · refine ⟨[], x :: Q, rfl, by simp, ?_⟩
      intro c hc
      rcases List.mem_cons.1 hc with rfl | hc
      · omega
      · obtain ⟨i, hi⟩ := List.mem_iff_getElem?.1 hc
        exact h 0 (i + 1) x c (by omega) (by simp) (by simpa using hi) (by omega)

/-- Digits that are not split form one block. -/
theorem block_of_not_split (P : List Nat) (h : ¬ SplitDigits P) :
    ∃ A D B : List Nat, P = A ++ D ++ B ∧ (∀ c ∈ A, 57 < c) ∧ (∀ c ∈ D, c ≤ 57) ∧
      (∀ c ∈ B, 57 < c) := by
  induction P with
  | nil => exact ⟨[], [], [], rfl, by simp, by simp, by simp⟩
  | cons x Q ih =>
    by_cases hx : x ≤ 57
    · obtain ⟨D, B, rfl, hD, hB⟩ := digits_then_others Q (by
        intro b c y z hbc hy hz hy57
        by_contra hz57
        exact h ⟨0, b + 1, c + 1, x, y, z, by omega, by omega, by simp, by simpa using hy,
          by simpa using hz, hx, hy57, by omega⟩)
      refine ⟨[], x :: D, B, rfl, by simp, ?_, hB⟩
      intro c hc
      rcases List.mem_cons.1 hc with rfl | hc
      · exact hx
      · exact hD c hc
    · obtain ⟨A, D, B, rfl, hA, hD, hB⟩ := ih (by
        rintro ⟨a, b, c, x', y, z, hab, hbc, hx', hy, hz, h1, h2, h3⟩
        exact h ⟨a + 1, b + 1, c + 1, x', y, z, by omega, by omega, by simpa using hx',
          by simpa using hy, by simpa using hz, h1, h2, h3⟩)
      refine ⟨x :: A, D, B, rfl, ?_, hD, hB⟩
      intro c hc
      rcases List.mem_cons.1 hc with rfl | hc
      · omega
      · exact hA c hc

/-- Where an entry of a list of three parts lies. -/
theorem getElem?_three_parts (A D B : List Nat) (i v : Nat)
    (h : (A ++ D ++ B)[i]? = some v) :
    (i < A.length ∧ v ∈ A) ∨ (A.length ≤ i ∧ i < A.length + D.length ∧ v ∈ D) ∨
      (A.length + D.length ≤ i ∧ v ∈ B) := by
  by_cases h1 : i < A.length
  · left
    rw [List.append_assoc, List.getElem?_append_left h1] at h
    exact ⟨h1, List.mem_iff_getElem?.2 ⟨i, h⟩⟩
  · right
    rw [List.append_assoc, List.getElem?_append_right (by omega)] at h
    by_cases h2 : i - A.length < D.length
    · left
      rw [List.getElem?_append_left h2] at h
      exact ⟨by omega, by omega, List.mem_iff_getElem?.2 ⟨_, h⟩⟩
    · right
      rw [List.getElem?_append_right (by omega)] at h
      exact ⟨by omega, List.mem_iff_getElem?.2 ⟨_, h⟩⟩

/-- Digits that form one block are not split. -/
theorem not_split_of_block (A D B : List Nat) (hA : ∀ c ∈ A, 57 < c) (hD : ∀ c ∈ D, c ≤ 57)
    (hB : ∀ c ∈ B, 57 < c) : ¬ SplitDigits (A ++ D ++ B) := by
  rintro ⟨a, b, c, x, y, z, hab, hbc, hx, hy, hz, h1, h2, h3⟩
  have ha : A.length ≤ a ∧ a < A.length + D.length := by
    rcases getElem?_three_parts A D B a x hx with ⟨-, h⟩ | ⟨h, h', -⟩ | ⟨-, h⟩
    · have := hA x h
      omega
    · exact ⟨h, h'⟩
    · have := hB x h
      omega
  have hc : A.length ≤ c ∧ c < A.length + D.length := by
    rcases getElem?_three_parts A D B c z hz with ⟨-, h⟩ | ⟨h, h', -⟩ | ⟨-, h⟩
    · have := hA z h
      omega
    · exact ⟨h, h'⟩
    · have := hB z h
      omega
  rcases getElem?_three_parts A D B b y hy with ⟨h, -⟩ | ⟨-, -, h⟩ | ⟨h, -⟩
  · omega
  · have := hD y h
    omega
  · omega

theorem countP_block (A D B : List Nat) (hA : ∀ c ∈ A, 57 < c) (hD : ∀ c ∈ D, c ≤ 57)
    (hB : ∀ c ∈ B, 57 < c) :
    (A ++ D ++ B).countP (fun c => decide (c ≤ 57)) = D.length := by
  have h1 : A.countP (fun c => decide (c ≤ 57)) = 0 := by
    rw [List.countP_eq_zero]
    intro c hc
    have := hA c hc
    simp only [decide_eq_true_eq]
    omega
  have h2 : D.countP (fun c => decide (c ≤ 57)) = D.length := by
    rw [List.countP_eq_length]
    intro c hc
    simpa using hD c hc
  have h3 : B.countP (fun c => decide (c ≤ 57)) = 0 := by
    rw [List.countP_eq_zero]
    intro c hc
    have := hB c hc
    simp only [decide_eq_true_eq]
    omega
  rw [List.countP_append, List.countP_append, h1, h2, h3]
  omega

theorem isDigit_iff_le (c : Nat) (h : isLower c = true ∨ isDigit c = true) :
    (isDigit c = true ↔ c ≤ 57) ∧ (isDigit c = false ↔ 57 < c) := by
  simp only [isLower, isDigit, decide_eq_true_eq, decide_eq_false_iff_not] at h ⊢
  omega

theorem rngScript_inRange : rngScript.InRange :=
  ⟨fun m _ => Nat.min_le_right _ m, fun m _ => Nat.min_le_right _ m⟩

theorem logged_inRange {σ : Type} (rng : Csprng σ) (hr : rng.InRange) :
    (logged rng).InRange :=
  ⟨fun m s => hr.1 m s.1, fun m s => hr.2 m s.1⟩

/-- On a valid length the split returns, whatever the random source. -/
theorem splitCounts_total {σ : Type} (rng : Csprng σ) (n : Nat) (s : σ)
    (hn : 8 ≤ n ∧ n ≤ 36) : ∃ l d s', splitCounts rng n s = .ok (l, d, s') := by
  by_cases h36 : n = 36
  · subst h36
    exact ⟨_, _, _, rfl⟩
  · obtain ⟨letter, charMax, h1, h2, -⟩ := extra_tables_entries n ⟨hn.1, by omega⟩
    rw [splitCounts_eq rng n s letter charMax h36 h1 h2]
    split
    · exact ⟨_, _, _, rfl⟩
    · exact ⟨_, _, _, rfl⟩

/-- A drawing loop that stays inside its pool and inside the buffer returns. -/
theorem drawChars_total {σ : Type} (rng : Csprng σ) (hr : rng.InRange) (offset : Nat) :
    ∀ (count i : Nat) (pool : List Nat) (maxIdx : Nat) (password : List Nat) (s : σ),
      count ≤ maxIdx + 1 → maxIdx < pool.length → maxIdx < 256 →
      i + offset + count ≤ password.length →
      ∃ r, drawChars rng offset count i pool maxIdx password s = .ok r := by
  intro count
  induction count with
  | zero =>
    intro i pool maxIdx password s _ _ _ _
    exact ⟨_, rfl⟩
  | succ count ih =>
    intro i pool maxIdx password s hc hm h256 hlen
    have hj : (rng.randomUint8 (maxIdx % 256) s).1 ≤ maxIdx :=
      Nat.le_trans (hr.1 (maxIdx % 256) s) (Nat.mod_le _ _)
    unfold drawChars
    generalize rng.randomUint8 (maxIdx % 256) s = r at hj
    have hjlt : r.1 < pool.length := by omega
    have h1 : readAt pool r.1 = .ok pool[r.1] := by
      rw [readAt_eq_ok, List.getElem?_eq_getElem hjlt]
    have h2 : ∀ c, writeAt password (i + offset) c = .ok (password.set (i + offset) c) := by
      intro c
      unfold writeAt
      rw [if_pos (by omega)]
    have h3 : readAt pool maxIdx = .ok pool[maxIdx] := by
      rw [readAt_eq_ok, List.getElem?_eq_getElem hm]
    have h4 : ∀ c, writeAt pool r.1 c = .ok (pool.set r.1 c) := by
      intro c
      unfold writeAt
      rw [if_pos hjlt]
    simp only [h1, h2, h3, h4, bind, Except.bind]
    rcases Nat.eq_zero_or_pos count with h0 | hpos
    · subst h0
      exact ⟨_, rfl⟩
    · have hm1 : (maxIdx + 2 ^ 32 - 1) % 2 ^ 32 = maxIdx - 1 := by omega
      rw [hm1]
      exact ih (i + 1) _ (maxIdx - 1) _ r.2 (by omega) (by rw [List.length_set]; omega)
        (by omega) (by rw [List.length_set]; omega)

theorem xorAssign_total (pw : List Nat) (a b : Nat) (ha : a < pw.length)
    (hb : b < pw.length) :
    ∃ p, xorAssign pw a b = .ok p ∧ p.length = pw.length := by
  have h1 : readAt pw a = .ok pw[a] := by
    rw [readAt_eq_ok, List.getElem?_eq_getElem ha]
  have h2 : readAt pw b = .ok pw[b] := by
    rw [readAt_eq_ok, List.getElem?_eq_getElem hb]
  refine ⟨pw.set a (pw[a] ^^^ pw[b]), ?_, List.length_set _ _ _⟩
  unfold xorAssign
  simp only [h1, h2, bind, Except.bind]
  unfold writeAt
  rw [if_pos ha]

/-- The three exclusive-or assignments on two distinct positions inside the buffer return
the buffer with the two positions exchanged. -/
theorem xorSwap_eq (pw : List Nat) (i j : Nat) (hij : i ≠ j) (hi : i < pw.length)
    (hj : j < pw.length) :
    (xorAssign pw i j >>= fun p1 => xorAssign p1 j i >>= fun p2 => xorAssign p2 i j) =
      .ok ((pw.set i pw[j]).set j pw[i]) := by
  obtain ⟨p1, e1, l1⟩ := xorAssign_total pw i j hi hj
  obtain ⟨p2, e2, l2⟩ := xorAssign_total p1 j i (by omega) (by omega)
  obtain ⟨p3, e3, -⟩ := xorAssign_total p2 i j (by omega) (by omega)
  obtain ⟨a, b, ha, hb, heq⟩ := xorAssign_swap hij e1 e2 e3
  rw [List.getElem?_eq_getElem hi] at ha
  rw [List.getElem?_eq_getElem hj] at hb
  cases ha
  cases hb
  rw [e1]
  simp only [bind, Except.bind]
  rw [e2]
  simp only []
  rw [e3, heq]

theorem swapAt_length (pw : List Nat) (i j : Nat) : (swapAt pw i j).length = pw.length := by
  unfold swapAt
  rw [List.length_set, List.length_set]

theorem swapAt_self (pw : List Nat) (i : Nat) : swapAt pw i i = pw := by
  unfold swapAt
  apply List.ext_getElem?
  intro k
  rw [List.set_set, List.getElem?_set]
  split
  · rename_i h
    subst h
    split
    · rename_i hi
      rw [List.getD_eq_getElem?_getD, List.getElem?_eq_getElem hi]
      rfl
    · rename_i hi
      rw [List.getElem?_eq_none (by omega)]
  · rfl

theorem swapAt_eq (pw : List Nat) (i j : Nat) (hi : i < pw.length) (hj : j < pw.length) :
    swapAt pw i j = (pw.set i pw[j]).set j pw[i] := by
  unfold swapAt
  rw [List.getD_eq_getElem?_getD, List.getD_eq_getElem?_getD, List.getElem?_eq_getElem hi,
    List.getElem?_eq_getElem hj]
  rfl

theorem swapAt_perm (pw : List Nat) (i j : Nat) (hi : i < pw.length) (hj : j < pw.length) :
    List.Perm (swapAt pw i j) pw := by
  rw [swapAt_eq pw i j hi hj]
  exact swap_perm (List.getElem?_eq_getElem hi) (List.getElem?_eq_getElem hj)

theorem swapAt_append (P tail : List Nat) (i j : Nat) (hi : i < P.length)
    (hj : j < P.length) : swapAt (P ++ tail) i j = swapAt P i j ++ tail := by
  rw [swapAt_eq (P ++ tail) i j (by rw [List.length_append]; omega)
    (by rw [List.length_append]; omega), swapAt_eq P i j hi hj,
    List.getElem_append_left hi, List.getElem_append_left hj,
    List.set_append_left _ _ hi, List.set_append_left _ _ (by rw [List.length_set]; exact hj)]

/-- One iteration of the shuffle loop whose swap partner lies inside the buffer. -/
theorem shufflePass_step {σ : Type} (rng : Csprng σ) (n count i : Nat) (pw : List Nat)
    (s : σ) (hi : i < pw.length) (hj : (rng.randomUint8 ((n - 1) % 256) s).1 < pw.length) :
    shufflePass rng n (count + 1) i pw s =
      shufflePass rng n count (i + 1)
        (swapAt pw i (rng.randomUint8 ((n - 1) % 256) s).1)
        (rng.randomUint8 ((n - 1) % 256) s).2 := by
  conv_lhs => unfold shufflePass
  simp only []
  generalize rng.randomUint8 ((n - 1) % 256) s = r at hj
  split
  · rename_i hne
    have := xorSwap_eq pw i r.1 hne hi hj
    simp only [bind, Except.bind] at this ⊢
    cases h1 : xorAssign pw i r.1 with
    | error e =>
      rw [h1] at this
      cases this
    | ok p1 =>
      rw [h1] at this
      simp only [] at this ⊢
      cases h2 : xorAssign p1 r.1 i with
      | error e =>
        rw [h2] at this
        cases this
      | ok p2 =>
        rw [h2] at this
        simp only [] at this ⊢
        rw [this, swapAt_eq pw i r.1 hi hj]
  · rename_i heq
    have : i = r.1 := by
      by_contra hne
      exact heq hne
    rw [← this, swapAt_self]

/-- A shuffle pass under an in-range random source returns, with a buffer of the same
length. -/
theorem shufflePass_total {σ : Type} (rng : Csprng σ) (hr : rng.InRange) (n : Nat)
    (hn : 1 ≤ n ∧ n ≤ 256) :
    ∀ (count i : Nat) (pw : List Nat) (s : σ), n ≤ pw.length → i + count ≤ n →
      ∃ r, shufflePass rng n count i pw s = .ok r ∧ r.1.length = pw.length := by
  intro count
  induction count with
  | zero =>
    intro i pw s _ _
    exact ⟨_, rfl, rfl⟩
  | succ count ih =>
    intro i pw s hlen hi
    have hj : (rng.randomUint8 ((n - 1) % 256) s).1 < n := by
      have := Nat.le_trans (hr.1 ((n - 1) % 256) s) (Nat.mod_le _ _)
      omega
    rw [shufflePass_step rng n count i pw s (by omega) (by omega)]
    obtain ⟨r, h1, h2⟩ := ih (i + 1) (swapAt pw i (rng.randomUint8 ((n - 1) % 256) s).1)
      (rng.randomUint8 ((n - 1) % 256) s).2 (by rw [swapAt_length]; exact hlen) (by omega)
    exact ⟨r, h1, by rw [h2, swapAt_length]⟩

/-- A shuffle pass under the replaying source makes the swaps of the replayed answers. -/
theorem shufflePass_script (n : Nat) (hn : 1 ≤ n ∧ n ≤ 256) :
    ∀ (js : List Nat) (i : Nat) (pw rest : List Nat), n ≤ pw.length → i + js.length ≤ n →
      (∀ j ∈ js, j < n) →
      shufflePass rngScript n js.length i pw (js ++ rest) = .ok (applySwaps js i pw, rest) := by
  intro js
  induction js with
  | nil =>
    intro i pw rest _ _ _
    rfl
  | cons j js ih =>
    intro i pw rest hlen hi hjs
    have hj : j < n := hjs j (List.mem_cons_self _ _)
    have hans : rngScript.randomUint8 ((n - 1) % 256) (j :: js ++ rest) = (j, js ++ rest) := by
      have : min j ((n - 1) % 256) = j := by
        rw [Nat.mod_eq_of_lt (by omega)]
        omega
      simp only [rngScript, List.cons_append, List.headD_cons, List.tail_cons, this]
    simp only [List.length_cons] at hi ⊢
    rw [shufflePass_step rngScript n js.length i pw _ (by omega) (by rw [hans]; omega), hans]
    exact ih (i + 1) (swapAt pw i j) rest (by rw [swapAt_length]; exact hlen) (by omega)
      (fun j' hj' => hjs j' (List.mem_cons_of_mem _ hj'))

/-- One iteration of a drawing loop whose accesses lie inside the pool and the buffer. -/
theorem drawChars_step {σ : Type} (rng : Csprng σ) (offset count i : Nat) (pool : List Nat)
    (maxIdx : Nat) (password : List Nat) (s : σ)
    (hj : (rng.randomUint8 (maxIdx % 256) s).1 < pool.length) (hm : maxIdx < pool.length)
    (hi : i + offset < password.length) :
    drawChars rng offset (count + 1) i pool maxIdx password s =
      drawChars rng offset count (i + 1)
        (pool.set (rng.randomUint8 (maxIdx % 256) s).1 (pool.getD maxIdx 0))
        ((maxIdx + 2 ^ 32 - 1) % 2 ^ 32)
        (password.set (i + offset) (pool.getD (rng.randomUint8 (maxIdx % 256) s).1 0))
        (rng.randomUint8 (maxIdx % 256) s).2 := by
  conv_lhs => unfold drawChars
  generalize rng.randomUint8 (maxIdx % 256) s = r at hj
  have h1 : readAt pool r.1 = .ok (pool.getD r.1 0) := by
    rw [readAt_eq_ok, List.getD_eq_getElem?_getD, List.getElem?_eq_getElem hj]
    rfl
  have h2 : ∀ c, writeAt password (i + offset) c = .ok (password.set (i + offset) c) := by
    intro c
    unfold writeAt
    rw [if_pos hi]
  have h3 : readAt pool maxIdx = .ok (pool.getD maxIdx 0) := by
    rw [readAt_eq_ok, List.getD_eq_getElem?_getD, List.getElem?_eq_getElem hm]
    rfl
  have h4 : ∀ c, writeAt pool r.1 c = .ok (pool.set r.1 c) := by
    intro c
    unfold writeAt
    rw [if_pos hj]
  simp only [h1, h2, h3, h4, bind, Except.bind]

/-- A drawing loop that starts with enough live pool entries returns, and over the logging
source it asks for the bounds `maxIdx`, `maxIdx - 1`, ... in turn. -/
theorem drawChars_logged {σ : Type} (rng : Csprng σ) (hr : rng.InRange) (offset : Nat) :
    ∀ (count i : Nat) (pool : List Nat) (maxIdx : Nat) (password : List Nat) (s : σ),
      count ≤ maxIdx + 1 → maxIdx < pool.length → maxIdx < 256 →
      i + offset + count ≤ password.length →
      ∃ pw' pool' s', drawChars rng offset count i pool maxIdx password s = .ok (pw', pool', s') ∧
        pw'.length = password.length ∧
        ∀ log, drawChars (logged rng) offset count i pool maxIdx password (s, log) =
          .ok (pw', pool', (s', log ++ (List.range count).map (fun k => maxIdx - k))) := by
  intro count
  induction count with
  | zero =>
    intro i pool maxIdx password s _ _ _ _
    refine ⟨password, pool, s, rfl, rfl, fun log => ?_⟩
    rw [List.range_zero, List.map_nil, List.append_nil]
    rfl
  | succ count ih =>
    intro i pool maxIdx password s hc hm h256 hlen
    have hj : (rng.randomUint8 (maxIdx % 256) s).1 ≤ maxIdx :=
      Nat.le_trans (hr.1 (maxIdx % 256) s) (Nat.mod_le _ _)
    have hstep := drawChars_step rng offset count i pool maxIdx password s (by omega) hm
      (by omega)
    have hstep' := fun log => drawChars_step (logged rng) offset count i pool maxIdx password
      (s, log) (Nat.lt_of_le_of_lt hj hm) hm (by omega)
    rw [hstep]
    simp only [hstep']
    rcases Nat.eq_zero_or_pos count with h0 | hpos
    · subst h0
      refine ⟨_, _, _, rfl, List.length_set _ _ _, fun log => ?_⟩
      rw [Nat.mod_eq_of_lt h256]
      rfl
    · have hm1 : (maxIdx + 2 ^ 32 - 1) % 2 ^ 32 = maxIdx - 1 := by omega
      rw [hm1]
      obtain ⟨pw', pool', s', e1, e2, e3⟩ := ih (i + 1)
        (pool.set (rng.randomUint8 (maxIdx % 256) s).1 (pool.getD maxIdx 0)) (maxIdx - 1)
        (password.set (i + offset) (pool.getD (rng.randomUint8 (maxIdx % 256) s).1 0))
        (rng.randomUint8 (maxIdx % 256) s).2 (by omega) (by rw [List.length_set]; omega)
        (by omega) (by rw [List.length_set]; omega)
      refine ⟨pw', pool', s', e1, by rw [e2, List.length_set], fun log => ?_⟩
      have := e3 (log ++ [maxIdx % 256])
      simp only [logged] at this ⊢
      rw [this, Nat.mod_eq_of_lt h256, List.range_succ_eq_map, List.map_cons, List.map_map,
        List.append_assoc]
      have hf : ((fun k => maxIdx - k) ∘ Nat.succ) = fun k => maxIdx - 1 - k := by
        funext k
        simp only [Function.comp]
        omega
      rw [hf]
      rfl

/-- The rejection loop never leaves the buffer: it returns a buffer of the same length or
runs out of fuel. -/
theorem shuffleUntil_no_fault {σ : Type} (rng : Csprng σ) (hr : rng.InRange) (n : Nat)
    (hn : 1 ≤ n ∧ n ≤ 256) (numDigits : Nat) :
    ∀ (fuel : Nat) (pw : List Nat) (s : σ), n ≤ pw.length →
      shuffleUntil rng n numDigits fuel pw s = .error .outOfFuel ∨
        ∃ r, shuffleUntil rng n numDigits fuel pw s = .ok r ∧ r.1.length = pw.length := by
  intro fuel
  induction fuel with
  | zero =>
    intro pw s _
    exact Or.inl rfl
  | succ fuel ih =>
    intro pw s hlen
    obtain ⟨r, h1, h2⟩ := shufflePass_total rng hr n hn n 0 pw s hlen (by omega)
    obtain ⟨d, h3⟩ := countDigitsInARow_total n (r.1.take n) (r.1.drop n)
      (by rw [List.length_take]; omega) hn.1
    rw [List.take_append_drop] at h3
    unfold shuffleUntil
    simp only [h1, h3, bind, Except.bind]
    split
    · rcases ih r.1 r.2 (by omega) with h | ⟨r', h, hl⟩
      · exact Or.inl h
      · exact Or.inr ⟨r', h, by rw [hl, h2]⟩
    · exact Or.inr ⟨r, rfl, h2⟩

theorem upcaseFirst_total :
    ∀ (count i : Nat) (pw : List Nat), i + count ≤ pw.length →
      ∃ out, upcaseFirst count i pw = .ok out ∧ out.length = pw.length := by
  intro count
  induction count with
  | zero =>
    intro i pw _
    exact ⟨pw, rfl, rfl⟩
  | succ count ih =>
    intro i pw hi
    have h1 : readAt pw i = .ok pw[i] := by
      rw [readAt_eq_ok, List.getElem?_eq_getElem (by omega)]
    unfold upcaseFirst
    simp only [h1, bind, Except.bind]
    split
    · refine ⟨pw.set i (pw[i] - 32), ?_, List.length_set _ _ _⟩
      unfold writeAt
      rw [if_pos (by omega)]
    · exact ih (i + 1) pw (by omega)

/-- The flag handling stays inside a buffer with room for the symbol and the terminator. -/
theorem applyFlags_total (n : Nat) (flags : Int) (pw : List Nat) (hlen : n + 2 ≤ pw.length) :
    ∃ out, applyFlags n flags pw = .ok out := by
  have hw : ∀ (p : List Nat), p.length = pw.length →
      ∃ out, (writeAt p n 33 >>= fun q => writeAt q (n + 1) 0) = .ok out := by
    intro p hp
    refine ⟨(p.set n 33).set (n + 1) 0, ?_⟩
    unfold writeAt
    rw [if_pos (by omega)]
    simp only [bind, Except.bind]
    rw [if_pos (by rw [List.length_set]; omega)]
  unfold applyFlags
  split
  · obtain ⟨q, h1, h2⟩ := upcaseFirst_total n 0 pw (by omega)
    rw [h1]
    simp only [bind, Except.bind]
    split
    · exact hw q h2
    · exact ⟨q, rfl⟩
  · simp only [bind, Except.bind]
    split
    · exact hw pw rfl
    · exact ⟨pw, rfl⟩

/-- With an in-range random source and room for `baseLength + 2` characters a run never
leaves the pools, the tables or the buffer: it returns or runs out of fuel. -/
theorem genPasswordLength_no_fault {σ : Type} (rng : Csprng σ) (hr : rng.InRange)
    (fuel : Nat) (password : List Nat) (n : Nat) (flags : Int) (s : σ)
    (hlen : n + 2 ≤ password.length) :
    genPasswordLength rng fuel password n flags s = .error .outOfFuel ∨
      ∃ r, genPasswordLength rng fuel password n flags s = .ok r := by
  unfold genPasswordLength
  split
  · exact Or.inr ⟨_, rfl⟩
  · rename_i hn
    have hn : 8 ≤ n ∧ n ≤ 36 := by omega
    obtain ⟨l, d, s1, h1⟩ := splitCounts_total rng n s hn
    obtain ⟨hsum, hl1, hl2, hd1, hd2, -⟩ := splitCounts_spec rng n s s1 l d hn h1
    obtain ⟨pw1, pool1, s2, h2, hlen1, -⟩ := drawChars_logged rng hr 0 l 0 LETTERS 25 password
      s1 (by omega) (by decide) (by decide) (by omega)
    obtain ⟨pw2, pool2, s3, h3, hlen2, -⟩ := drawChars_logged rng hr l d 0 DIGITS 9 pw1
      s2 (by omega) (by decide) (by decide) (by omega)
    have h4 : writeAt pw2 n 0 = .ok (pw2.set n 0) := by
      unfold writeAt
      rw [if_pos (by omega)]
    simp only [h1, h2, h3, h4, bind, Except.bind]
    rcases shuffleUntil_no_fault rng hr n ⟨by omega, by omega⟩ d fuel (pw2.set n 0) s3
      (by rw [List.length_set]; omega) with h5 | ⟨r, h5, hlen5⟩
    · rw [h5]
      exact Or.inl rfl
    · rw [h5]
      obtain ⟨out, h6⟩ := applyFlags_total n flags r.1
        (by rw [hlen5, List.length_set]; omega)
      simp only [h6]
      exact Or.inr ⟨_, rfl⟩

theorem applySwaps_perm :
    ∀ (js : List Nat) (i : Nat) (pw : List Nat), (∀ j ∈ js, j < pw.length) →
      i + js.length ≤ pw.length → List.Perm (applySwaps js i pw) pw := by
  intro js
  induction js with
  | nil =>
    intro i pw _ _
    exact List.Perm.refl _
  | cons j js ih =>
    intro i pw hjs hi
    simp only [List.length_cons] at hi
    have hj : j < pw.length := hjs j (List.mem_cons_self _ _)
    unfold applySwaps
    refine (ih (i + 1) (swapAt pw i j) ?_ ?_).trans (swapAt_perm pw i j (by omega) hj)
    · intro j' hj'
      rw [swapAt_length]
      exact hjs j' (List.mem_cons_of_mem _ hj')
    · rw [swapAt_length]
      omega

/-- A full pass over the positions `0 .. n - 1` with in-range swap partners returns a
permutation of them and consumes exactly the partners. -/
theorem shufflePass_positions (n : Nat) (hn : 1 ≤ n ∧ n ≤ 256) (js : List Nat)
    (hlen : js.length = n) (hjs : ∀ j ∈ js, j < n) :
    shufflePass rngScript n n 0 (List.range n) js = .ok (passResult n js, []) ∧
      passResult n js ∈ (List.range n).permutations := by
  have h := shufflePass_script n hn js 0 (List.range n) [] (by rw [List.length_range])
    (by omega) hjs
  rw [hlen, List.append_nil] at h
  have hres : passResult n js = applySwaps js 0 (List.range n) := by
    unfold passResult
    rw [h]
  rw [hres]
  refine ⟨h, List.mem_permutations.2 (applySwaps_perm js 0 (List.range n) ?_ ?_)⟩
  · intro j hj
    rw [List.length_range]
    exact hjs j hj
  · rw [List.length_range]
    omega

/-- No multiple of `n !` equals `n ^ n` once `n ≥ 3`: `n - 1` divides the first and is
coprime to the second. -/
theorem factorial_mul_ne_pow (n c : Nat) (hn : 3 ≤ n) : Nat.factorial n * c ≠ n ^ n := by
  intro h
  have h1 : n - 1 ∣ Nat.factorial n := Nat.dvd_factorial (by omega) (by omega)
  have h2 : n - 1 ∣ n ^ n := by
    rw [← h]
    exact Dvd.dvd.mul_right h1 c
  have h3 : Nat.Coprime (n - 1) n := by
    have : n = (n - 1) + 1 := by omega
    rw [this, Nat.add_sub_cancel]
    exact (Nat.coprime_self_add_right).2 (Nat.coprime_one_right _)
  have h4 := Nat.Coprime.eq_one_of_dvd (Nat.Coprime.pow_right n h3) h2
  omega

theorem extra_tables_bounds (n : Nat) (hn : 8 ≤ n ∧ n ≤ 35) :
    ∃ letter charMax : Nat,
      EXTRA_LETTER[n - 8]? = some letter ∧ EXTRA_CHAR_MAX[n - 8]? = some charMax ∧
      0 < letter ∧ letter ≤ charMax := by
  obtain ⟨h1, h2⟩ := hn
  interval_cases n <;> exact ⟨_, _, rfl, rfl, by decide, by decide⟩

/-- Either admissible digit count is reached by the split under the replaying source: no
answer at length 36, the answer 0 for the extra letter, the bound itself for the extra
digit. -/
theorem splitCounts_script (n k : Nat) (hn : 8 ≤ n ∧ n ≤ 36)
    (hk : k = (10 * n + n / 8) / 36 ∨ (n < 36 ∧ k = (10 * n + n / 8) / 36 + 1)) :
    ∃ pre : List Nat, ∀ rest, splitCounts rngScript n (pre ++ rest) = .ok (n - k, k, rest) := by
  by_cases h36 : n = 36
  · subst h36
    have : k = 10 := by omega
    subst this
    exact ⟨[], fun rest => rfl⟩
  · obtain ⟨letter, charMax, h1, h2, hpos, hle⟩ := extra_tables_bounds n ⟨hn.1, by omega⟩
    rcases hk with hk | ⟨-, hk⟩
    · refine ⟨[0], fun rest => ?_⟩
      rw [splitCounts_eq rngScript n _ letter charMax h36 h1 h2]
      have : (rngScript.randomUint32 charMax ([0] ++ rest)) = (0, rest) := by
        simp [rngScript]
      rw [this, if_pos hpos, hk]
      have : n - (10 * n + n / 8) / 36 - 1 + 1 = n - (10 * n + n / 8) / 36 := by omega
      rw [this]
    · refine ⟨[charMax], fun rest => ?_⟩
      rw [splitCounts_eq rngScript n _ letter charMax h36 h1 h2]
      have : (rngScript.randomUint32 charMax ([charMax] ++ rest)) = (charMax, rest) := by
        simp [rngScript]
      rw [this, if_neg (by omega), hk]
      have : n - (10 * n + n / 8) / 36 - 1 = n - ((10 * n + n / 8) / 36 + 1) := by omega
      rw [this]

/-- After a draw every other live pool entry is still live. -/
theorem pool_step_mem {pool : List Nat} {m j c last x : Nat} (hm : m < pool.length)
    (hj : j ≤ m) (hc : pool[j]? = some c) (hl : pool[m]? = some last)
    (hx : x ∈ pool.take (m + 1)) (hne : x ≠ c) : x ∈ (pool.set j last).take m := by
  obtain ⟨a, ha⟩ := List.mem_iff_getElem?.1 hx
  have ham : a < m + 1 := by
    by_contra hcon
    rw [List.getElem?_take_eq_none (by omega)] at ha
    cases ha
  rw [List.getElem?_take_of_lt ham] at ha
  have haj : a ≠ j := by
    rintro rfl
    rw [hc] at ha
    exact hne (Option.some.inj ha).symm
  apply List.mem_iff_getElem?.2
  by_cases hlast : a = m
  · subst hlast
    refine ⟨j, ?_⟩
    rw [List.getElem?_take_of_lt (by omega), List.getElem?_set_self (by omega), ← ha, hl]
  · refine ⟨a, ?_⟩
    rw [List.getElem?_take_of_lt (by omega), List.getElem?_set_ne (by omega), ha]

/-- Any sequence of distinct live pool entries is drawn, in order, for suitable in-range
answers of the random source. -/
theorem drawChars_script (offset : Nat) :
    ∀ (ys : List Nat) (i : Nat) (pool : List Nat) (maxIdx : Nat) (password : List Nat),
      ys.Nodup → (∀ y ∈ ys, y ∈ pool.take (maxIdx + 1)) → (pool.take (maxIdx + 1)).Nodup →
      ys.length ≤ maxIdx + 1 → maxIdx < pool.length → maxIdx < 256 →
      i + offset + ys.length ≤ password.length →
      ∃ js pool', ∀ rest,
        drawChars rngScript offset ys.length i pool maxIdx password (js ++ rest) =
          .ok (password.take (i + offset) ++ ys ++ password.drop (i + offset + ys.length),
            pool', rest) := by
  intro ys
  induction ys with
  | nil =>
    intro i pool maxIdx password _ _ _ _ _ _ _
    refine ⟨[], pool, fun rest => ?_⟩
    rw [List.append_nil, List.length_nil, Nat.add_zero, List.take_append_drop]
    rfl
  | cons y ys ih =>
    intro i pool maxIdx password hnd hmem hpool hc hm h256 hlen
    simp only [List.length_cons] at hc hlen ⊢
    obtain ⟨j, hj⟩ := List.mem_iff_getElem?.1 (hmem y (List.mem_cons_self _ _))
    have hjm : j < maxIdx + 1 := by
      by_contra hcon
      rw [List.getElem?_take_eq_none (by omega)] at hj
      cases hj
    rw [List.getElem?_take_of_lt hjm] at hj
    have hans : ∀ rest, rngScript.randomUint8 (maxIdx % 256) (j :: rest) = (j, rest) := by
      intro rest
      have : min j (maxIdx % 256) = j := by
        rw [Nat.mod_eq_of_lt h256]
        omega
      simp only [rngScript, List.headD_cons, List.tail_cons, this]
    have hgetj : pool.getD j 0 = y := by
      rw [List.getD_eq_getElem?_getD, hj]
      rfl
    have hstep : ∀ rest, drawChars rngScript offset (ys.length + 1) i pool maxIdx password
        (j :: rest) = drawChars rngScript offset ys.length (i + 1)
          (pool.set j (pool.getD maxIdx 0)) ((maxIdx + 2 ^ 32 - 1) % 2 ^ 32)
          (password.set (i + offset) y) rest := by
      intro rest
      rw [drawChars_step rngScript offset ys.length i pool maxIdx password (j :: rest)
        (by rw [hans]; omega) hm (by omega), hans, hgetj]
    have hshape : (password.set (i + offset) y).take (i + 1 + offset) ++ ys ++
        (password.set (i + offset) y).drop (i + 1 + offset + ys.length) =
        password.take (i + offset) ++ y :: ys ++
          password.drop (i + offset + (ys.length + 1)) := by
      rw [set_eq_take_cons_drop (by omega : i + offset < password.length)]
      have e1 : i + 1 + offset = i + offset + 1 := by omega
      have e2 : i + offset + 1 + ys.length = i + offset + (ys.length + 1) := by omega
      rw [e1, e2]
      have hA : (password.take (i + offset)).length = i + offset := by
        rw [List.length_take]
        omega
      have := shape_step (password.take (i + offset)) (password.drop (i + offset + 1)) ys y
        ys.length
      rw [hA] at this
      rw [this, List.drop_drop, e2]
    rcases Nat.eq_zero_or_pos ys.length with h0 | hpos
    · refine ⟨[j], pool.set j (pool.getD maxIdx 0), fun rest => ?_⟩
      rw [List.singleton_append, hstep, ← hshape]
      have hnil : ys = [] := List.eq_nil_of_length_eq_zero h0
      subst hnil
      simp only [List.length_nil, Nat.add_zero, List.append_nil, List.take_append_drop]
      rfl
    · have hm1 : (maxIdx + 2 ^ 32 - 1) % 2 ^ 32 = maxIdx - 1 := by omega
      have hm2 : maxIdx - 1 + 1 = maxIdx := by omega
      have hlast : pool[maxIdx]? = some (pool.getD maxIdx 0) := by
        rw [List.getD_eq_getElem?_getD, List.getElem?_eq_getElem hm]
        rfl
      obtain ⟨hnd1, -⟩ := pool_step hm (by omega) hj hlast hpool
      obtain ⟨js, pool', hrun⟩ := ih (i + 1) (pool.set j (pool.getD maxIdx 0)) (maxIdx - 1)
        (password.set (i + offset) y) (List.nodup_cons.1 hnd).2
        (by
          intro x hx
          rw [hm2]
          refine pool_step_mem hm (by omega) hj hlast (hmem x (List.mem_cons_of_mem _ hx)) ?_
          rintro rfl
          exact (List.nodup_cons.1 hnd).1 hx)
        (by rw [hm2]; exact hnd1) (by omega) (by rw [List.length_set]; omega) (by omega)
        (by rw [List.length_set]; omega)
      refine ⟨j :: js, pool', fun rest => ?_⟩
      rw [List.cons_append, hstep, hm1, hrun rest, hshape]

theorem swapAt_front (front a b : List Nat) (x y : Nat) :
    swapAt (front ++ y :: (a ++ x :: b)) front.length (front.length + 1 + a.length) =
      front ++ x :: (a ++ y :: b) := by
  have h1 : (front ++ y :: (a ++ x :: b)).getD (front.length + 1 + a.length) 0 = x := by
    rw [List.getD_eq_getElem?_getD, Nat.add_assoc,
      List.getElem?_append_right (Nat.le_add_right _ _), Nat.add_sub_cancel_left,
      Nat.add_comm 1, List.getElem?_cons_succ, List.getElem?_append_right (Nat.le_refl _),
      Nat.sub_self, List.getElem?_cons_zero, Option.getD_some]
  have h2 : (front ++ y :: (a ++ x :: b)).getD front.length 0 = y := by
    rw [List.getD_eq_getElem?_getD, List.getElem?_append_right (Nat.le_refl _), Nat.sub_self,
      List.getElem?_cons_zero, Option.getD_some]
  unfold swapAt
  rw [h1, h2, List.set_append_right _ _ (Nat.le_refl _), Nat.sub_self, List.set_cons_zero,
    Nat.add_assoc, List.set_append_right _ _ (Nat.le_add_right _ _), Nat.add_sub_cancel_left,
    Nat.add_comm 1, List.set_cons_succ, List.set_append_right _ _ (Nat.le_refl _),
    Nat.sub_self, List.set_cons_zero]

theorem applySwaps_append :
    ∀ (js : List Nat) (i : Nat) (P tail : List Nat), (∀ j ∈ js, j < P.length) →
      i + js.length ≤ P.length → applySwaps js i (P ++ tail) = applySwaps js i P ++ tail := by
  intro js
  induction js with
  | nil =>
    intro i P tail _ _
    rfl
  | cons j js ih =>
    intro i P tail hjs hi
    simp only [List.length_cons] at hi
    unfold applySwaps
    rw [swapAt_append P tail i j (by omega) (hjs j (List.mem_cons_self _ _))]
    refine ih (i + 1) (swapAt P i j) tail ?_ ?_
    · intro j' hj'
      rw [swapAt_length]
      exact hjs j' (List.mem_cons_of_mem _ hj')
    · rw [swapAt_length]
      omega

/-- The shuffle loop can reach every arrangement: for any rearrangement `target` of the part
`back` of the buffer not yet passed there are in-range swap partners after which the buffer
is `front ++ target`. -/
theorem applySwaps_reach :
    ∀ (target front back : List Nat), List.Perm back target →
      ∃ js, js.length = back.length ∧ (∀ j ∈ js, j < front.length + back.length) ∧
        applySwaps js front.length (front ++ back) = front ++ target := by
  intro target
  induction target with
  | nil =>
    intro front back hperm
    rw [List.Perm.eq_nil hperm]
    exact ⟨[], rfl, fun j hj => absurd hj (List.not_mem_nil j), rfl⟩
  | cons x target ih =>
    intro front back hperm
    obtain ⟨a, b, rfl⟩ := List.append_of_mem (hperm.symm.subset (List.mem_cons_self x target))
    have hfront : (front ++ [x]).length = front.length + 1 := by
      rw [List.length_append, List.length_singleton]
    cases a with
    | nil =>
      rw [List.nil_append] at hperm ⊢
      obtain ⟨js, hlen, hjs, hrun⟩ := ih (front ++ [x]) b (List.Perm.cons_inv hperm)
      rw [hfront, List.append_assoc, List.singleton_append] at hrun
      refine ⟨front.length :: js, by rw [List.length_cons, List.length_cons, hlen], ?_, ?_⟩
      · intro j hj
        rw [List.length_cons]
        rcases List.mem_cons.1 hj with rfl | hj
        · omega
        · have := hjs j hj
          rw [hfront] at this
          omega
      · unfold applySwaps
        rw [swapAt_self, hrun, List.append_assoc, List.singleton_append]
    | cons y a =>
      rw [List.cons_append] at hperm ⊢
      have hperm' : List.Perm (a ++ y :: b) target := by
        have h1 : List.Perm (y :: (a ++ x :: b)) (x :: (y :: (a ++ b))) :=
          ((List.perm_middle).cons y).trans (List.Perm.swap x y (a ++ b))
        have h2 : List.Perm (y :: (a ++ b)) target := List.Perm.cons_inv (h1.symm.trans hperm)
        exact (List.perm_middle).trans h2
      obtain ⟨js, hlen, hjs, hrun⟩ := ih (front ++ [x]) (a ++ y :: b) hperm'
      rw [hfront, List.append_assoc, List.singleton_append] at hrun
      refine ⟨(front.length + 1 + a.length) :: js, ?_, ?_, ?_⟩
      · rw [List.length_cons, hlen]
        simp only [List.length_append, List.length_cons]
      · intro j hj
        simp only [List.length_append, List.length_cons, List.length_nil] at hjs ⊢
        rcases List.mem_cons.1 hj with rfl | hj
        · omega
        · have := hjs j hj
          omega
      · unfold applySwaps
        rw [swapAt_front, hrun, List.append_assoc, List.singleton_append]

/-- The split of an admissible string into its letters and its digits, in order. -/
theorem letters_digits_of_admissible (n : Nat) (hn : 8 ≤ n ∧ n ≤ 36) (t : List Nat)
    (hlen : t.length = n) (hchars : ∀ c ∈ t, isLower c = true ∨ isDigit c = true)
    (hnd : t.Nodup)
    (hcount : t.countP isDigit = (10 * n + n / 8) / 36 ∨
      (n < 36 ∧ t.countP isDigit = (10 * n + n / 8) / 36 + 1)) :
    ∃ L D : List Nat, List.Perm (L ++ D) t ∧ L.length = n - t.countP isDigit ∧
      D.length = t.countP isDigit ∧ L.length + D.length = n ∧ L.length ≤ 26 ∧ D.length ≤ 10 ∧
      L.Nodup ∧ D.Nodup ∧ (∀ c ∈ L, c ∈ LETTERS) ∧ (∀ c ∈ D, c ∈ DIGITS) := by
  have hperm : List.Perm (t.filter (fun c => !isDigit c) ++ t.filter isDigit) t :=
    List.perm_append_comm.trans (List.filter_append_perm isDigit t)
  have hD : (t.filter isDigit).length = t.countP isDigit := (List.countP_eq_length_filter _ _).symm
  have hsum : (t.filter (fun c => !isDigit c)).length + (t.filter isDigit).length = n := by
    rw [← List.length_append, hperm.length_eq, hlen]
  refine ⟨_, _, hperm, by omega, hD, hsum, by omega, by omega, hnd.filter _, hnd.filter _, ?_, ?_⟩
  · intro c hc
    obtain ⟨hct, hcd⟩ := List.mem_filter.1 hc
    rcases hchars c hct with h | h
    · simp only [isLower, decide_eq_true_eq] at h
      exact mem_LETTERS.2 h
    · rw [h] at hcd
      cases hcd
  · intro c hc
    obtain ⟨-, hcd⟩ := List.mem_filter.1 hc
    simp only [isDigit, decide_eq_true_eq] at hcd
    exact mem_DIGITS.2 hcd

theorem countP_le57_eq_isDigit (t : List Nat)
    (hchars : ∀ c ∈ t, isLower c = true ∨ isDigit c = true) :
    t.countP (fun c => decide (c ≤ 57)) = t.countP isDigit := by
  apply List.countP_congr
  intro c hc
  have := (isDigit_iff_le c (hchars c hc)).1
  simp only [decide_eq_true_eq]
  exact this.symm

/-- Every admissible string is produced, in a single shuffle pass, for suitable in-range
answers of the random source. -/
theorem genPasswordLength_produces (n : Nat) (hn : 8 ≤ n ∧ n ≤ 36) (t : List Nat)
    (hlen : t.length = n) (hchars : ∀ c ∈ t, isLower c = true ∨ isDigit c = true)
    (hnd : t.Nodup)
    (hcount : t.countP isDigit = (10 * n + n / 8) / 36 ∨
      (n < 36 ∧ t.countP isDigit = (10 * n + n / 8) / 36 + 1))
    (hsplit : SplitDigits t) (password : List Nat) (hbuf : n + 1 ≤ password.length) :
    ∃ script : List Nat,
      genPasswordLength rngScript 1 password n 0 script =
        .ok (0, t ++ 0 :: password.drop (n + 1), []) := by
  obtain ⟨L, D, hperm, hL, hD, hsum, hL26, hD10, hLnd, hDnd, hLmem, hDmem⟩ :=
    letters_digits_of_admissible n hn t hlen hchars hnd hcount
  obtain ⟨pre, hsplitRun⟩ := splitCounts_script n (t.countP isDigit) hn hcount
  obtain ⟨jsL, poolL, hdrawL⟩ := drawChars_script 0 L 0 LETTERS 25 password hLnd hLmem
    (by decide) (by omega) (by decide) (by decide) (by omega)
  have hpw1 : (password.take (0 + 0) ++ L ++ password.drop (0 + 0 + L.length)) =
      L ++ password.drop L.length := by
    simp only [Nat.add_zero, Nat.zero_add, List.take_zero, List.nil_append]
  rw [hpw1] at hdrawL
  obtain ⟨jsD, poolD, hdrawD⟩ := drawChars_script L.length D 0 DIGITS 9
    (L ++ password.drop L.length) hDnd hDmem (by decide) (by omega) (by decide) (by decide)
    (by rw [List.length_append, List.length_drop]; omega)
  have hpw2 : (L ++ password.drop L.length).take (0 + L.length) ++ D ++
      (L ++ password.drop L.length).drop (0 + L.length + D.length) =
      (L ++ D) ++ password.drop n := by
    rw [Nat.zero_add, List.take_left, List.drop_append_eq_append_drop,
      List.drop_of_length_le (by omega), List.nil_append, List.drop_drop]
    congr 2
    omega
  rw [hpw2] at hdrawD
  have hPlen : (L ++ D).length = n := by rw [List.length_append, hsum]
  have hwrite : writeAt ((L ++ D) ++ password.drop n) n 0 =
      .ok ((L ++ D) ++ 0 :: password.drop (n + 1)) := by
    unfold writeAt
    rw [if_pos (by rw [List.length_append, List.length_drop]; omega),
      List.set_append_right _ _ (by omega), hPlen, Nat.sub_self]
    cases hdrop : password.drop n with
    | nil =>
      have := List.drop_eq_nil_iff.1 hdrop
      omega
    | cons a rest =>
      have hrest : password.drop (n + 1) = rest := by
        rw [← List.drop_drop, hdrop]
        rfl
      rw [hrest, List.set_cons_zero]
  obtain ⟨jsS, hSlen, hSmem, hSrun⟩ := applySwaps_reach t [] (L ++ D) hperm
  rw [List.nil_append, List.nil_append, List.length_nil] at hSrun
  rw [List.length_nil, Nat.zero_add, hPlen] at hSmem
  rw [hPlen] at hSlen
  have hpass : shufflePass rngScript n n 0 ((L ++ D) ++ 0 :: password.drop (n + 1)) jsS =
      .ok (t ++ 0 :: password.drop (n + 1), []) := by
    have h := shufflePass_script n ⟨by omega, by omega⟩ jsS 0
      ((L ++ D) ++ 0 :: password.drop (n + 1)) []
      (by rw [List.length_append, hPlen]; omega) (by omega) hSmem
    rw [hSlen, List.append_nil, applySwaps_append jsS 0 (L ++ D) _
      (by rw [hPlen]; exact hSmem) (by omega), hSrun] at h
    exact h
  obtain ⟨d', hd'⟩ := countDigitsInARow_total n t (0 :: password.drop (n + 1)) hlen (by omega)
  have hlt := (countDigitsInARow_le n t (0 :: password.drop (n + 1)) hlen (by omega) d' hd').2
    hsplit
  rw [countP_le57_eq_isDigit t hchars] at hlt
  have huntil : shuffleUntil rngScript n (t.countP isDigit) 1
      ((L ++ D) ++ 0 :: password.drop (n + 1)) jsS =
      .ok (t ++ 0 :: password.drop (n + 1), []) := by
    unfold shuffleUntil
    simp only [hpass, hd', bind, Except.bind]
    rw [if_neg (by omega)]
  refine ⟨pre ++ (jsL ++ (jsD ++ jsS)), ?_⟩
  unfold genPasswordLength
  rw [if_neg (by omega)]
  simp only [hsplitRun, bind, Except.bind]
  rw [← hL]
  simp only [hdrawL]
  rw [← hD]
  simp only [hdrawD, hwrite, applyFlags_zero]
  rw [hD, huntil]

theorem mem_cons_image {s : Finset Nat} {F : Nat → Finset (List Nat)} {t : List Nat} :
    (t ∈ s.biUnion fun x => (F x).image fun l => x :: l) ↔
      ∃ x l, t = x :: l ∧ x ∈ s ∧ l ∈ F x := by
  simp only [Finset.mem_biUnion, Finset.mem_image]
  constructor
  · rintro ⟨x, hx, l, hl, rfl⟩
    exact ⟨x, l, rfl, hx, hl⟩
  · rintro ⟨x, l, rfl, hx, hl⟩
    exact ⟨x, hx, l, hl, rfl⟩

/-- Membership in `mixedStrings` when the two sets lie on either side of the digit bound. -/
theorem mem_mixedStrings :
    ∀ (n : Nat) (sL sD : Finset Nat) (k : Nat) (t : List Nat),
      (∀ c ∈ sL, 57 < c) → (∀ c ∈ sD, c ≤ 57) →
      (t ∈ mixedStrings n sL sD k ↔
        t.length = n ∧ t.Nodup ∧ (∀ c ∈ t, c ∈ sL ∨ c ∈ sD) ∧
          t.countP (fun c => decide (c ≤ 57)) = k) := by
  intro n
  induction n with
  | zero =>
    intro sL sD k t _ _
    cases k with
    | zero =>
      simp only [mixedStrings, Finset.mem_singleton]
      constructor
      · rintro rfl
        exact ⟨rfl, List.nodup_nil, fun c hc => absurd hc (List.not_mem_nil c), rfl⟩
      · rintro ⟨h, -⟩
        exact List.eq_nil_of_length_eq_zero h
    | succ k =>
      simp only [mixedStrings, Finset.not_mem_empty, false_iff]
      rintro ⟨h, -, -, hc⟩
      rw [List.eq_nil_of_length_eq_zero h] at hc
      cases hc
  | succ n ih =>
    intro sL sD k t hL hD
    have hLe : ∀ x, ∀ c ∈ sL.erase x, 57 < c := fun x c hc => hL c (Finset.mem_of_mem_erase hc)
    have hDe : ∀ x, ∀ c ∈ sD.erase x, c ≤ 57 := fun x c hc => hD c (Finset.mem_of_mem_erase hc)
    have letterStep : ∀ k', (t ∈ sL.biUnion fun x =>
          (mixedStrings n (sL.erase x) sD k').image fun l => x :: l) ↔
        ∃ x l, t = x :: l ∧ x ∈ sL ∧ l.length = n ∧ (x :: l).Nodup ∧
          (∀ c ∈ l, c ∈ sL ∨ c ∈ sD) ∧ l.countP (fun c => decide (c ≤ 57)) = k' := by
      intro k'
      rw [mem_cons_image]
      constructor
      · rintro ⟨x, l, rfl, hx, hl⟩
        obtain ⟨h1, h2, h3, h4⟩ := (ih (sL.erase x) sD k' l (hLe x) hD).1 hl
        refine ⟨x, l, rfl, hx, h1, List.nodup_cons.2 ⟨?_, h2⟩, ?_, h4⟩
        · intro hxl
          rcases h3 x hxl with h | h
          · exact Finset.not_mem_erase x sL h
          · have := hL x hx
            have := hD x h
            omega
        · intro c hc
          rcases h3 c hc with h | h
          · exact Or.inl (Finset.mem_of_mem_erase h)
          · exact Or.inr h
      · rintro ⟨x, l, rfl, hx, h1, h2, h3, h4⟩
        refine ⟨x, l, rfl, hx, (ih (sL.erase x) sD k' l (hLe x) hD).2
          ⟨h1, (List.nodup_cons.1 h2).2, ?_, h4⟩⟩
        intro c hc
        rcases h3 c hc with h | h
        · refine Or.inl (Finset.mem_erase.2 ⟨?_, h⟩)
          rintro rfl
          exact (List.nodup_cons.1 h2).1 hc
        · exact Or.inr h
    have digitStep : ∀ k', (t ∈ sD.biUnion fun x =>
          (mixedStrings n sL (sD.erase x) k').image fun l => x :: l) ↔
        ∃ x l, t = x :: l ∧ x ∈ sD ∧ l.length = n ∧ (x :: l).Nodup ∧
          (∀ c ∈ l, c ∈ sL ∨ c ∈ sD) ∧ l.countP (fun c => decide (c ≤ 57)) = k' := by
      intro k'
      rw [mem_cons_image]
      constructor
      · rintro ⟨x, l, rfl, hx, hl⟩
        obtain ⟨h1, h2, h3, h4⟩ := (ih sL (sD.erase x) k' l hL (hDe x)).1 hl
        refine ⟨x, l, rfl, hx, h1, List.nodup_cons.2 ⟨?_, h2⟩, ?_, h4⟩
        · intro hxl
          rcases h3 x hxl with h | h
          · have := hL x h
            have := hD x hx
            omega
          · exact Finset.not_mem_erase x sD h
        · intro c hc
          rcases h3 c hc with h | h
          · exact Or.inl h
          · exact Or.inr (Finset.mem_of_mem_erase h)
      · rintro ⟨x, l, rfl, hx, h1, h2, h3, h4⟩
        refine ⟨x, l, rfl, hx, (ih sL (sD.erase x) k' l hL (hDe x)).2
          ⟨h1, (List.nodup_cons.1 h2).2, ?_, h4⟩⟩
        intro c hc
        rcases h3 c hc with h | h
        · exact Or.inl h
        · refine Or.inr (Finset.mem_erase.2 ⟨?_, h⟩)
          rintro rfl
          exact (List.nodup_cons.1 h2).1 hc
    have hcount : ∀ (x : Nat) (l : List Nat), (x :: l).countP (fun c => decide (c ≤ 57)) =
        l.countP (fun c => decide (c ≤ 57)) + if x ≤ 57 then 1 else 0 := by
      intro x l
      rw [List.countP_cons]
      simp only [decide_eq_true_eq]
    cases k with
    | zero =>
      simp only [mixedStrings]
      rw [letterStep 0]
      constructor
      · rintro ⟨x, l, rfl, hx, h1, h2, h3, h4⟩
        refine ⟨by rw [List.length_cons, h1], h2, ?_, ?_⟩
        · intro c hc
          rcases List.mem_cons.1 hc with rfl | hc
          · exact Or.inl hx
          · exact h3 c hc
        · rw [hcount, h4, if_neg (by have := hL x hx; omega)]
      · rintro ⟨h1, h2, h3, h4⟩
        cases t with
        | nil => cases h1
        | cons x l =>
          rw [hcount] at h4
          have hx57 : ¬ x ≤ 57 := by
            intro hx
            rw [if_pos hx] at h4
            omega
          rw [if_neg hx57] at h4
          refine ⟨x, l, rfl, ?_, by simpa using h1, h2,
            fun c hc => h3 c (List.mem_cons_of_mem _ hc), h4⟩
          rcases h3 x (List.mem_cons_self _ _) with h | h
          · exact h
          · exact absurd (hD x h) hx57
    | succ k =>
      simp only [mixedStrings, Finset.mem_union]
      rw [letterStep (k + 1), digitStep k]
      constructor
      · rintro (⟨x, l, rfl, hx, h1, h2, h3, h4⟩ | ⟨x, l, rfl, hx, h1, h2, h3, h4⟩)
        · refine ⟨by rw [List.length_cons, h1], h2, ?_, ?_⟩
          · intro c hc
            rcases List.mem_cons.1 hc with rfl | hc
            · exact Or.inl hx
            · exact h3 c hc
          · rw [hcount, h4, if_neg (by have := hL x hx; omega)]
        · refine ⟨by rw [List.length_cons, h1], h2, ?_, ?_⟩
          · intro c hc
            rcases List.mem_cons.1 hc with rfl | hc
            · exact Or.inr hx
            · exact h3 c hc
          · rw [hcount, h4, if_pos (hD x hx)]
      · rintro ⟨h1, h2, h3, h4⟩
        cases t with
        | nil => cases h1
        | cons x l =>
          rw [hcount] at h4
          have hrest := fun c hc => h3 c (List.mem_cons_of_mem x hc)
          by_cases hx57 : x ≤ 57
          · rw [if_pos hx57] at h4
            refine Or.inr ⟨x, l, rfl, ?_, by simpa using h1, h2, hrest, by omega⟩
            rcases h3 x (List.mem_cons_self _ _) with h | h
            · have := hL x h
              omega
            · exact h
          · rw [if_neg hx57] at h4
            refine Or.inl ⟨x, l, rfl, ?_, by simpa using h1, h2, hrest, h4⟩
            rcases h3 x (List.mem_cons_self _ _) with h | h
            · exact h
            · exact absurd (hD x h) hx57

theorem mul_descFactorial_pred (a j : Nat) :
    a * (a - 1).descFactorial j = a.descFactorial (j + 1) := by
  cases a with
  | zero => rw [Nat.zero_mul, Nat.zero_descFactorial_succ]
  | succ a => rw [Nat.succ_descFactorial_succ, Nat.add_sub_cancel]

theorem card_cons_image (s : Finset Nat) (F : Nat → Finset (List Nat)) :
    (s.biUnion fun x => (F x).image fun l => x :: l).card = ∑ x in s, (F x).card := by
  rw [Finset.card_biUnion]
  · refine Finset.sum_congr rfl fun x _ => ?_
    exact Finset.card_image_of_injective _ (List.cons_injective)
  · intro x _ y _ hxy
    rw [Finset.disjoint_left]
    intro t hx hy
    obtain ⟨l, -, rfl⟩ := Finset.mem_image.1 hx
    obtain ⟨l', -, h⟩ := Finset.mem_image.1 hy
    exact hxy (List.cons.inj h).1.symm

/-- The number of strings in `mixedStrings`: choose the places of the `k` characters from
`sD`, then arrange distinct characters of each set. -/
theorem card_mixedStrings :
    ∀ (n : Nat) (sL sD : Finset Nat) (k : Nat),
      (∀ c ∈ sL, 57 < c) → (∀ c ∈ sD, c ≤ 57) →
      (mixedStrings n sL sD k).card =
        n.choose k * sD.card.descFactorial k * sL.card.descFactorial (n - k) := by
  intro n
  induction n with
  | zero =>
    intro sL sD k _ _
    cases k with
    | zero => rfl
    | succ k =>
      rw [Nat.choose_zero_succ, Nat.zero_mul, Nat.zero_mul]
      rfl
  | succ n ih =>
    intro sL sD k hL hD
    have hLe : ∀ x, ∀ c ∈ sL.erase x, 57 < c := fun x c hc => hL c (Finset.mem_of_mem_erase hc)
    have hDe : ∀ x, ∀ c ∈ sD.erase x, c ≤ 57 := fun x c hc => hD c (Finset.mem_of_mem_erase hc)
    have letterCard : ∀ k', (sL.biUnion fun x =>
          (mixedStrings n (sL.erase x) sD k').image fun l => x :: l).card =
        sL.card * (n.choose k' * sD.card.descFactorial k' *
          (sL.card - 1).descFactorial (n - k')) := by
      intro k'
      rw [card_cons_image, Finset.sum_congr rfl (fun x hx => by
        rw [ih (sL.erase x) sD k' (hLe x) hD, Finset.card_erase_of_mem hx]),
        Finset.sum_const, smul_eq_mul]
    have digitCard : ∀ k', (sD.biUnion fun x =>
          (mixedStrings n sL (sD.erase x) k').image fun l => x :: l).card =
        sD.card * (n.choose k' * (sD.card - 1).descFactorial k' *
          sL.card.descFactorial (n - k')) := by
      intro k'
      rw [card_cons_image, Finset.sum_congr rfl (fun x hx => by
        rw [ih sL (sD.erase x) k' hL (hDe x), Finset.card_erase_of_mem hx]),
        Finset.sum_const, smul_eq_mul]
    cases k with
    | zero =>
      simp only [mixedStrings]
      rw [letterCard 0, Nat.choose_zero_right, Nat.choose_zero_right, Nat.descFactorial_zero,
        Nat.sub_zero, Nat.sub_zero, Nat.mul_one, Nat.one_mul, Nat.one_mul,
        mul_descFactorial_pred]
    | succ k =>
      simp only [mixedStrings]
      rw [Finset.card_union_of_disjoint, letterCard (k + 1), digitCard k,
        Nat.choose_succ_succ, Nat.add_sub_add_right]
      · have h2 : sD.card * (n.choose k * (sD.card - 1).descFactorial k *
            sL.card.descFactorial (n - k)) =
            n.choose k * sD.card.descFactorial (k + 1) * sL.card.descFactorial (n - k) := by
          rw [← mul_descFactorial_pred sD.card k]
          ring
        have h1 : sL.card * (n.choose (k + 1) * sD.card.descFactorial (k + 1) *
            (sL.card - 1).descFactorial (n - (k + 1))) =
            n.choose (k + 1) * sD.card.descFactorial (k + 1) *
              sL.card.descFactorial (n - k) := by
          by_cases hkn : k + 1 ≤ n
          · have : n - k = n - (k + 1) + 1 := by omega
            rw [this, ← mul_descFactorial_pred sL.card (n - (k + 1))]
            ring
          · rw [Nat.choose_eq_zero_of_lt (by omega)]
            simp only [Nat.zero_mul, Nat.mul_zero]
        rw [h1, h2]
        ring
      · rw [Finset.disjoint_left]
        intro t ht1 ht2
        obtain ⟨x, l, rfl, hx, -⟩ := mem_cons_image.1 ht1
        obtain ⟨y, l', h, hy, -⟩ := mem_cons_image.1 ht2
        have := hL x hx
        have := hD y hy
        have := (List.cons.inj h).1
        omega

theorem mem_lettersOnly (m : Nat) (sL : Finset Nat) (hL : ∀ c ∈ sL, 57 < c) (l : List Nat) :
    l ∈ mixedStrings m sL ∅ 0 ↔ l.length = m ∧ l.Nodup ∧ ∀ c ∈ l, c ∈ sL := by
  rw [mem_mixedStrings m sL ∅ 0 l hL (fun c hc => absurd hc (Finset.not_mem_empty c))]
  constructor
  · rintro ⟨h1, h2, h3, -⟩
    refine ⟨h1, h2, fun c hc => ?_⟩
    rcases h3 c hc with h | h
    · exact h
    · exact absurd h (Finset.not_mem_empty c)
  · rintro ⟨h1, h2, h3⟩
    refine ⟨h1, h2, fun c hc => Or.inl (h3 c hc), List.countP_eq_zero.2 fun c hc => ?_⟩
    have := hL c (h3 c hc)
    simp only [decide_eq_true_eq]
    omega

theorem mem_digitsOnly (k : Nat) (sD : Finset Nat) (hD : ∀ c ∈ sD, c ≤ 57) (l : List Nat) :
    l ∈ mixedStrings k ∅ sD k ↔ l.length = k ∧ l.Nodup ∧ ∀ c ∈ l, c ∈ sD := by
  rw [mem_mixedStrings k ∅ sD k l (fun c hc => absurd hc (Finset.not_mem_empty c)) hD]
  constructor
  · rintro ⟨h1, h2, h3, -⟩
    refine ⟨h1, h2, fun c hc => ?_⟩
    rcases h3 c hc with h | h
    · exact absurd h (Finset.not_mem_empty c)
    · exact h
  · rintro ⟨h1, h2, h3⟩
    refine ⟨h1, h2, fun c hc => Or.inr (h3 c hc), ?_⟩
    rw [← h1]
    refine List.countP_eq_length.2 fun c hc => ?_
    simp only [decide_eq_true_eq]
    exact hD c (h3 c hc)

/-- The three parts of a string whose digit-range characters form a nonempty block are
determined by the string. -/
theorem block_parts (A D B : List Nat) (hA : ∀ c ∈ A, 57 < c) (hD : ∀ c ∈ D, c ≤ 57)
    (hB : ∀ c ∈ B, 57 < c) (hne : D ≠ []) :
    (A ++ D ++ B).takeWhile (fun c => decide (57 < c)) = A ∧
      (A ++ D ++ B).filter (fun c => decide (c ≤ 57)) = D ∧
      (A ++ D ++ B).filter (fun c => decide (57 < c)) = A ++ B := by
  refine ⟨?_, ?_, ?_⟩
  · rw [List.append_assoc, List.takeWhile_append_of_pos (fun c hc => by simpa using hA c hc)]
    cases D with
    | nil => exact absurd rfl hne
    | cons d D =>
      rw [List.cons_append, List.takeWhile_cons_of_neg (by
        have := hD d (List.mem_cons_self _ _)
        simp only [decide_eq_true_eq]
        omega), List.append_nil]
  · have fA : A.filter (fun c => decide (c ≤ 57)) = [] :=
      List.filter_eq_nil_iff.2 fun c hc => by
        have := hA c hc
        simp only [decide_eq_true_eq]
        omega
    have fB : B.filter (fun c => decide (c ≤ 57)) = [] :=
      List.filter_eq_nil_iff.2 fun c hc => by
        have := hB c hc
        simp only [decide_eq_true_eq]
        omega
    have fD : D.filter (fun c => decide (c ≤ 57)) = D :=
      List.filter_eq_self.2 fun c hc => by simpa using hD c hc
    rw [List.filter_append, List.filter_append, fA, fB, fD, List.nil_append, List.append_nil]
  · have fA : A.filter (fun c => decide (57 < c)) = A :=
      List.filter_eq_self.2 fun c hc => by simpa using hA c hc
    have fB : B.filter (fun c => decide (57 < c)) = B :=
      List.filter_eq_self.2 fun c hc => by simpa using hB c hc
    have fD : D.filter (fun c => decide (57 < c)) = [] :=
      List.filter_eq_nil_iff.2 fun c hc => by
        have := hD c hc
        simp only [decide_eq_true_eq]
        omega
    rw [List.filter_append, List.filter_append, fA, fB, fD, List.append_nil]

/-- The strings of `blockStrings` are the strings of `mixedStrings` whose digit-range
characters form one block. -/
theorem mem_blockStrings (n k : Nat) (sL sD : Finset Nat) (hL : ∀ c ∈ sL, 57 < c)
    (hD : ∀ c ∈ sD, c ≤ 57) (hk : k ≤ n) (t : List Nat) :
    t ∈ blockStrings n k sL sD ↔ t ∈ mixedStrings n sL sD k ∧ ¬ SplitDigits t := by
  unfold blockStrings
  rw [Finset.mem_image, mem_mixedStrings n sL sD k t hL hD]
  constructor
  · rintro ⟨⟨a, L, D⟩, hmem, rfl⟩
    simp only [Finset.mem_product, Finset.mem_range, mem_lettersOnly _ sL hL,
      mem_digitsOnly _ sD hD] at hmem
    obtain ⟨ha, ⟨hL1, hL2, hL3⟩, hD1, hD2, hD3⟩ := hmem
    simp only []
    have hA : ∀ c ∈ L.take a, 57 < c := fun c hc => hL c (hL3 c (List.mem_of_mem_take hc))
    have hB : ∀ c ∈ L.drop a, 57 < c := fun c hc => hL c (hL3 c (List.mem_of_mem_drop hc))
    have hDD : ∀ c ∈ D, c ≤ 57 := fun c hc => hD c (hD3 c hc)
    have hperm : List.Perm (L.take a ++ D ++ L.drop a) (L ++ D) := by
      rw [List.append_assoc]
      refine (List.Perm.append_left _ List.perm_append_comm).trans ?_
      rw [← List.append_assoc, List.take_append_drop]
    refine ⟨⟨?_, ?_, ?_, ?_⟩, not_split_of_block _ D _ hA hDD hB⟩
    · rw [hperm.length_eq, List.length_append, hL1, hD1]
      omega
    · rw [hperm.nodup_iff]
      refine List.Nodup.append hL2 hD2 ?_
      intro c hc1 hc2
      have := hL c (hL3 c hc1)
      have := hDD c hc2
      omega
    · intro c hc
      rcases List.mem_append.1 (hperm.subset hc) with h | h
      · exact Or.inl (hL3 c h)
      · exact Or.inr (hD3 c h)
    · rw [countP_block _ D _ hA hDD hB, hD1]
  · rintro ⟨⟨h1, h2, h3, h4⟩, hns⟩
    obtain ⟨A, D, B, rfl, hA, hDD, hB⟩ := block_of_not_split t hns
    rw [countP_block A D B hA hDD hB] at h4
    simp only [List.length_append] at h1
    refine ⟨(A.length, A ++ B, D), ?_, ?_⟩
    · simp only [Finset.mem_product, Finset.mem_range, mem_lettersOnly _ sL hL,
        mem_digitsOnly _ sD hD, List.length_append]
      have hsub : ∀ c, c ∈ A ++ B → c ∈ A ++ D ++ B := by
        intro c hc
        rcases List.mem_append.1 hc with h | h
        · exact List.mem_append_left _ (List.mem_append_left _ h)
        · exact List.mem_append_right _ h
      refine ⟨by omega, ⟨by omega, ?_, ?_⟩, h4, ?_, ?_⟩
      · have hperm : List.Perm (A ++ D ++ B) (D ++ (A ++ B)) := by
          rw [List.append_assoc]
          exact (List.perm_append_comm).trans (by
            rw [List.append_assoc]
            exact List.Perm.append_left _ List.perm_append_comm)
        exact (List.nodup_append.1 (hperm.nodup_iff.1 h2)).2.1
      · intro c hc
        rcases h3 c (hsub c hc) with h | h
        · exact h
        · have := hD c h
          rcases List.mem_append.1 hc with h' | h'
          · have := hA c h'
            omega
          · have := hB c h'
            omega
      · exact (List.nodup_append.1 (List.nodup_append.1 h2).1).2.1
      · intro c hc
        rcases h3 c (List.mem_append_left _ (List.mem_append_right _ hc)) with h | h
        · have := hL c h
          have := hDD c hc
          omega
        · exact h
    · simp only [List.take_left, List.drop_left]

/-- The number of strings in `blockStrings`: the position of the block, the arrangement of
the other characters and the arrangement of the block. -/
theorem card_blockStrings (n k : Nat) (sL sD : Finset Nat) (hL : ∀ c ∈ sL, 57 < c)
    (hD : ∀ c ∈ sD, c ≤ 57) (hk : 1 ≤ k) :
    (blockStrings n k sL sD).card =
      (n - k + 1) * (sL.card.descFactorial (n - k) * sD.card.descFactorial k) := by
  unfold blockStrings
  rw [Finset.card_image_of_injOn, Finset.card_product, Finset.card_product, Finset.card_range,
    card_mixedStrings _ sL ∅ 0 hL (fun c hc => absurd hc (Finset.not_mem_empty c)),
    card_mixedStrings _ ∅ sD k (fun c hc => absurd hc (Finset.not_mem_empty c)) hD,
    Nat.choose_zero_right, Nat.choose_self, Nat.descFactorial_zero, Nat.sub_self,
    Nat.descFactorial_zero, Nat.sub_zero, Nat.one_mul, Nat.one_mul, Nat.mul_one]
  rintro ⟨a, L, D⟩ hx ⟨a', L', D'⟩ hx' heq
  simp only [Finset.coe_product, Set.mem_prod, Finset.mem_coe, Finset.mem_range,
    mem_lettersOnly _ sL hL, mem_digitsOnly _ sD hD] at hx hx'
  obtain ⟨ha, ⟨hL1, -, hL3⟩, hD1, -, hD3⟩ := hx
  obtain ⟨ha', ⟨hL1', -, hL3'⟩, hD1', -, hD3'⟩ := hx'
  simp only [] at heq
  have hne : ∀ (X : List Nat), X.length = k → X ≠ [] := by
    rintro X hX rfl
    simp only [List.length_nil] at hX
    omega
  have p1 := block_parts (L.take a) D (L.drop a)
    (fun c hc => hL c (hL3 c (List.mem_of_mem_take hc))) (fun c hc => hD c (hD3 c hc))
    (fun c hc => hL c (hL3 c (List.mem_of_mem_drop hc))) (hne D hD1)
  have p2 := block_parts (L'.take a') D' (L'.drop a')
    (fun c hc => hL c (hL3' c (List.mem_of_mem_take hc))) (fun c hc => hD c (hD3' c hc))
    (fun c hc => hL c (hL3' c (List.mem_of_mem_drop hc))) (hne D' hD1')
  rw [heq] at p1
  have e1 : L.take a = L'.take a' := p1.1.symm.trans p2.1
  have e2 : D = D' := p1.2.1.symm.trans p2.2.1
  have e3 : L = L' := by
    have := p1.2.2.symm.trans p2.2.2
    rwa [List.take_append_drop, List.take_append_drop] at this
  have e4 : a = a' := by
    have := congrArg List.length e1
    rw [List.length_take, List.length_take, hL1, hL1'] at this
    omega
  rw [e2, e3, e4]

/-- On strings of lowercase letters and digits the contiguity notion of the code agrees with
the one stated with `isDigit`. -/
theorem splitDigits_iff_isDigit (t : List Nat)
    (hchars : ∀ c ∈ t, isLower c = true ∨ isDigit c = true) :
    SplitDigits t ↔
      ∃ a b c x y z : Nat, a < b ∧ b < c ∧ t[a]? = some x ∧ t[b]? = some y ∧
        t[c]? = some z ∧ isDigit x = true ∧ isDigit y = false ∧ isDigit z = true := by
  have hmem : ∀ (i v : Nat), t[i]? = some v → isLower v = true ∨ isDigit v = true :=
    fun i v h => hchars v (List.mem_iff_getElem?.2 ⟨i, h⟩)
  constructor
  · rintro ⟨a, b, c, x, y, z, hab, hbc, hx, hy, hz, hdx, hdy, hdz⟩
    exact ⟨a, b, c, x, y, z, hab, hbc, hx, hy, hz, (isDigit_iff_le x (hmem a x hx)).1.2 hdx,
      (isDigit_iff_le y (hmem b y hy)).2.2 hdy, (isDigit_iff_le z (hmem c z hz)).1.2 hdz⟩
  · rintro ⟨a, b, c, x, y, z, hab, hbc, hx, hy, hz, hdx, hdy, hdz⟩
    exact ⟨a, b, c, x, y, z, hab, hbc, hx, hy, hz, (isDigit_iff_le x (hmem a x hx)).1.1 hdx,
      (isDigit_iff_le y (hmem b y hy)).2.1 hdy, (isDigit_iff_le z (hmem c z hz)).1.1 hdz⟩

theorem letters_above_57 : ∀ c ∈ LETTERS.toFinset, 57 < c := by
  intro c hc
  have := mem_LETTERS.1 (List.mem_toFinset.1 hc)
  omega

theorem digits_upto_57 : ∀ c ∈ DIGITS.toFinset, c ≤ 57 := by
  intro c hc
  exact (mem_DIGITS.1 (List.mem_toFinset.1 hc)).2

theorem lower_or_digit_iff (c : Nat) :
    (c ∈ LETTERS.toFinset ∨ c ∈ DIGITS.toFinset) ↔ (isLower c = true ∨ isDigit c = true) := by
  rw [List.mem_toFinset, List.mem_toFinset, mem_LETTERS, mem_DIGITS]
  simp only [isLower, isDigit, decide_eq_true_eq]

/-- Membership in `admissibleStrings`. -/
theorem mem_admissibleStrings (n k : Nat) (hk : k ≤ n) (t : List Nat) :
    t ∈ admissibleStrings n k ↔
      t.length = n ∧ (∀ c ∈ t, isLower c = true ∨ isDigit c = true) ∧ t.Nodup ∧
        t.countP isDigit = k ∧
        ∃ a b c x y z : Nat, a < b ∧ b < c ∧ t[a]? = some x ∧ t[b]? = some y ∧
          t[c]? = some z ∧ isDigit x = true ∧ isDigit y = false ∧ isDigit z = true := by
  unfold admissibleStrings
  rw [Finset.mem_sdiff, mem_blockStrings n k _ _ letters_above_57 digits_upto_57 hk,
    mem_mixedStrings n _ _ k t letters_above_57 digits_upto_57]
  constructor
  · rintro ⟨⟨h1, h2, h3, h4⟩, hns⟩
    have hchars : ∀ c ∈ t, isLower c = true ∨ isDigit c = true :=
      fun c hc => (lower_or_digit_iff c).1 (h3 c hc)
    refine ⟨h1, hchars, h2, by rw [← countP_le57_eq_isDigit t hchars, h4],
      (splitDigits_iff_isDigit t hchars).1 ?_⟩
    by_contra hno
    exact hns ⟨⟨h1, h2, h3, h4⟩, hno⟩
  · rintro ⟨h1, hchars, h2, h4, hs⟩
    have hmix : t.length = n ∧ t.Nodup ∧ (∀ c ∈ t, c ∈ LETTERS.toFinset ∨ c ∈ DIGITS.toFinset) ∧
        t.countP (fun c => decide (c ≤ 57)) = k :=
      ⟨h1, h2, fun c hc => (lower_or_digit_iff c).2 (hchars c hc),
        by rw [countP_le57_eq_isDigit t hchars, h4]⟩
    exact ⟨hmix, fun hno => hno.2 ((splitDigits_iff_isDigit t hchars).2 hs)⟩

/-- The number of strings in `admissibleStrings` is the summand of the key-space comment. -/
theorem card_admissibleStrings (n k : Nat) (hk : 1 ≤ k ∧ k ≤ 10) (hkn : k ≤ n)
    (hl : n - k ≤ 26) :
    (admissibleStrings n k).card =
      permCount 26 (n - k) * permCount 10 k * (chooseCount n k - (n - k + 1)) := by
  have hsub : blockStrings n k LETTERS.toFinset DIGITS.toFinset ⊆
      mixedStrings n LETTERS.toFinset DIGITS.toFinset k := fun t ht =>
    ((mem_blockStrings n k _ _ letters_above_57 digits_upto_57 hkn t).1 ht).1
  have hcL : LETTERS.toFinset.card = 26 := by decide
  have hcD : DIGITS.toFinset.card = 10 := by decide
  unfold admissibleStrings
  rw [Finset.card_sdiff hsub, card_mixedStrings n _ _ k letters_above_57 digits_upto_57,
    card_blockStrings n k _ _ letters_above_57 digits_upto_57 hk.1, hcL, hcD,
    permCount_eq_descFactorial 26 (n - k) hl, permCount_eq_descFactorial 10 k hk.2,
    chooseCount_eq_choose n k hkn, Nat.mul_sub]
  congr 1
  · ring
  · ring

/-- The admissible passwords of a base length are counted by the key-space formula. -/
theorem ncard_admissible (n : Nat) (hn : 8 ≤ n ∧ n ≤ 36) :
    Set.ncard {t : List Nat | Admissible n t} = keySpace n := by
  have hd : 2 ≤ (10 * n + n / 8) / 36 ∧ (10 * n + n / 8) / 36 ≤ 10 ∧
      n - (10 * n + n / 8) / 36 ≤ 26 ∧ (10 * n + n / 8) / 36 + 1 ≤ n := by omega
  by_cases h36 : n = 36
  · subst h36
    have hset : {t : List Nat | Admissible 36 t} = ↑(admissibleStrings 36 10) := by
      ext t
      rw [Set.mem_setOf_eq, Finset.mem_coe, mem_admissibleStrings 36 10 (by decide) t]
      unfold Admissible
      constructor
      · rintro ⟨h1, h2, h3, h4, h5⟩
        exact ⟨h1, h2, h3, by omega, h5⟩
      · rintro ⟨h1, h2, h3, h4, h5⟩
        exact ⟨h1, h2, h3, Or.inl h4, h5⟩
    rw [hset, Set.ncard_coe_Finset,
      card_admissibleStrings 36 10 (by decide) (by decide) (by decide)]
    rfl
  · have hset : {t : List Nat | Admissible n t} =
        ↑(admissibleStrings n ((10 * n + n / 8) / 36) ∪
          admissibleStrings n ((10 * n + n / 8) / 36 + 1)) := by
      ext t
      rw [Set.mem_setOf_eq, Finset.mem_coe, Finset.mem_union,
        mem_admissibleStrings n _ (by omega) t, mem_admissibleStrings n _ (by omega) t]
      unfold Admissible
      constructor
      · rintro ⟨h1, h2, h3, h4 | ⟨-, h4⟩, h5⟩
        · exact Or.inl ⟨h1, h2, h3, h4, h5⟩
        · exact Or.inr ⟨h1, h2, h3, h4, h5⟩
      · rintro (⟨h1, h2, h3, h4, h5⟩ | ⟨h1, h2, h3, h4, h5⟩)
        · exact ⟨h1, h2, h3, Or.inl h4, h5⟩
        · exact ⟨h1, h2, h3, Or.inr ⟨by omega, h4⟩, h5⟩
    have hdisj : Disjoint (admissibleStrings n ((10 * n + n / 8) / 36))
        (admissibleStrings n ((10 * n + n / 8) / 36 + 1)) := by
      rw [Finset.disjoint_left]
      intro t h1 h2
      have e1 := ((mem_admissibleStrings n _ (by omega) t).1 h1).2.2.2.1
      have e2 := ((mem_admissibleStrings n _ (by omega) t).1 h2).2.2.2.1
      omega
    have e1 : n - (10 * n + n / 8) / 36 - 1 + 1 = n - (10 * n + n / 8) / 36 := by omega
    have e2 : n - (10 * n + n / 8) / 36 - 1 + 2 = n - (10 * n + n / 8) / 36 + 1 := by omega
    have e3 : n - ((10 * n + n / 8) / 36 + 1) = n - (10 * n + n / 8) / 36 - 1 := by omega
    rw [hset, Set.ncard_coe_Finset, Finset.card_union_of_disjoint hdisj,
      card_admissibleStrings n _ ⟨by omega, by omega⟩ (by omega) (by omega),
      card_admissibleStrings n _ ⟨by omega, by omega⟩ (by omega) (by omega)]
    unfold keySpace keySpaceLetter keySpaceDigit
    rw [if_neg h36, e3, e1, e2]

/-- The strings that a run with `flags = 0` can leave in the buffer, over all in-range
random sources, are exactly the admissible passwords. -/
theorem possible_outputs_eq (n : Nat) (hn : 8 ≤ n ∧ n ≤ 36) (password : List Nat)
    (hbuf : n + 1 ≤ password.length) :
    {t : List Nat | t.length = n ∧ ∃ (σ : Type) (rng : Csprng σ), rng.InRange ∧
        ∃ (fuel : Nat) (s s' : σ) (tail : List Nat),
          genPasswordLength rng fuel password n 0 s = .ok (0, t ++ tail, s')} =
      {t : List Nat | Admissible n t} := by
  ext t
  simp only [Set.mem_setOf_eq]
  constructor
  · rintro ⟨hlen, σ, rng, hr, fuel, s, s', tail, hrun⟩
    obtain ⟨-, l, d, P, P', rest, tail', hP, hPlen, -, -, hd, hout, hP'len, hup, -, -, -⟩ :=
      genPasswordLength_shape rng hr fuel password n 0 s s' 0 (t ++ tail) hn hrun
    have ht : t = P := by
      rw [hup land_zero_uppercase] at hout
      exact List.append_inj_left hout (by rw [hlen, hPlen])
    subst ht
    exact ⟨hlen, hP.lower_or_digit, hP.nodup, by rw [hP.count_digits.1]; exact hd,
      (splitDigits_iff_isDigit t hP.lower_or_digit).1 hP.split⟩
  · rintro ⟨hlen, hchars, hnd, hcount, hsplit⟩
    obtain ⟨script, hrun⟩ := genPasswordLength_produces n hn t hlen hchars hnd hcount
      ((splitDigits_iff_isDigit t hchars).2 hsplit) password hbuf
    exact ⟨hlen, List Nat, rngScript, rngScript_inRange, 1, script, [], _, hrun⟩

/-- C1: for a base length from 8 to 36, no flags and a random source answering within the
requested ranges, a run of `genPasswordLength` that returns has status 0, the terminator at
index `baseLength`, and before it `baseLength` characters that are lowercase letters or
digits and pairwise distinct. -/
theorem genPasswordLength_lowercase_digits_distinct {σ : Type} (rng : Csprng σ) (fuel : Nat)
    (password : List Nat) (baseLength : Nat) (s s' : σ) (st : Nat) (out : List Nat)
    (hn : 8 ≤ baseLength ∧ baseLength ≤ 36) (hr : rng.InRange)
    (h : genPasswordLength rng fuel password baseLength 0 s = .ok (st, out, s')) :
    st = 0 ∧ out[baseLength]? = some 0 ∧
      (∀ i, i < baseLength →
        ∃ c, out[i]? = some c ∧ (isLower c = true ∨ isDigit c = true)) ∧
      (out.take baseLength).Nodup := by
  obtain ⟨hst, l, d, P, P', rest, tail, hP, hlen, -, -, -, rfl, hlen', hu, -, hs, -⟩ :=
    genPasswordLength_shape rng hr fuel password baseLength 0 s s' st out hn h
  have hPP := hu land_zero_uppercase
  have htail := hs land_zero_symbol
  subst hPP htail
  refine ⟨hst, ?_, ?_, ?_⟩
  · rw [List.getElem?_append_right (by omega), hlen, Nat.sub_self, List.getElem?_cons_zero]
  · intro i hi
    rw [List.getElem?_append_left (by omega)]
    have hi' : i < P'.length := by omega
    exact ⟨P'[i], List.getElem?_eq_getElem hi', hP.lower_or_digit _ (List.getElem_mem _)⟩
  · rw [← hlen, List.take_left]
    exact hP.nodup

theorem genPasswordLength_lowercase_digits_distinct_witness :
    (8 ≤ 8 ∧ 8 ≤ 36) ∧ rngZero.InRange ∧
      genPasswordLength rngZero 1 buffer38 8 0 () =
        .ok (0, [57, 97, 122, 121, 120, 119, 118, 48, 0] ++ List.replicate 29 255, ()) ∧
      (0 = 0 ∧ ([57, 97, 122, 121, 120, 119, 118, 48, 0] ++ List.replicate 29 255)[8]? = some 0 ∧
        (∀ i, i < 8 → ∃ c,
          ([57, 97, 122, 121, 120, 119, 118, 48, 0] ++ List.replicate 29 255)[i]? = some c ∧
            (isLower c = true ∨ isDigit c = true)) ∧
        (([57, 97, 122, 121, 120, 119, 118, 48, 0] ++ List.replicate 29 255).take 8).Nodup) :=
  ⟨by decide, rngZero_inRange, rfl,
    genPasswordLength_lowercase_digits_distinct rngZero 1 buffer38 8 () () 0 _ (by decide)
      rngZero_inRange rfl⟩

/-- C2: for a base length from 8 to 36, any flags and a random source answering within the
requested ranges, in the output of a successful run of `genPasswordLength` the digits among
the first `baseLength` characters are not one contiguous block: some character that is not a
digit stands between two digits. -/
theorem genPasswordLength_digits_not_contiguous {σ : Type} (rng : Csprng σ) (fuel : Nat)
    (password : List Nat) (baseLength : Nat) (flags : Int) (s s' : σ) (out : List Nat)
    (hn : 8 ≤ baseLength ∧ baseLength ≤ 36) (hr : rng.InRange)
    (h : genPasswordLength rng fuel password baseLength flags s = .ok (0, out, s')) :
    ∃ a b c x y z : Nat, a < b ∧ b < c ∧ c < baseLength ∧
      out[a]? = some x ∧ out[b]? = some y ∧ out[c]? = some z ∧
      isDigit x = true ∧ isDigit y = false ∧ isDigit z = true := by
  obtain ⟨-, l, d, P, P', rest, tail, hP, hlen, -, -, -, rfl, hlen', hu0, hu1, -, -⟩ :=
    genPasswordLength_shape rng hr fuel password baseLength flags s s' 0 out hn h
  obtain ⟨a, b, c, x, y, z, hab, hbc, hx, hy, hz, hx57, hy57, hz57⟩ := hP.split
  have hc : c < baseLength := by
    rw [← hlen]
    exact (List.getElem?_eq_some.1 hz).1
  have hdx : isDigit x = true := by
    rcases hP.lower_or_digit x (List.mem_iff_getElem?.2 ⟨a, hx⟩) with h1 | h1
    · simp only [isLower, decide_eq_true_eq] at h1
      omega
    · exact h1
  have hdz : isDigit z = true := by
    rcases hP.lower_or_digit z (List.mem_iff_getElem?.2 ⟨c, hz⟩) with h1 | h1
    · simp only [isLower, decide_eq_true_eq] at h1
      omega
    · exact h1
  have hly : 97 ≤ y ∧ y ≤ 122 := by
    rcases hP.lower_or_digit y (List.mem_iff_getElem?.2 ⟨b, hy⟩) with h1 | h1
    · simpa [isLower] using h1
    · simp only [isDigit, decide_eq_true_eq] at h1
      omega
  have hdy : isDigit y = false := by
    simp only [isDigit, decide_eq_false_iff_not]
    omega
  by_cases hf : Int.land flags GEN_PASSWORD_FLAG_NEED_UPPERCASE = 0
  · have := hu0 hf
    subst this
    refine ⟨a, b, c, x, y, z, hab, hbc, hc, ?_, ?_, ?_, hdx, hdy, hdz⟩ <;>
      rw [List.getElem?_append_left (by omega)] <;> assumption
  · obtain ⟨k, ck, hck, hck97, -, rfl⟩ := hu1 hf
    obtain ⟨x', hx', hxx⟩ := upcased_getElem hck a x hx
    obtain ⟨y', hy', hyy⟩ := upcased_getElem hck b y hy
    obtain ⟨z', hz', hzz⟩ := upcased_getElem hck c z hz
    have ex : x' = x := by
      rcases hxx with ⟨-, h1⟩ | ⟨-, h1, -⟩
      · exact h1
      · omega
    have ez : z' = z := by
      rcases hzz with ⟨-, h1⟩ | ⟨-, h1, -⟩
      · exact h1
      · omega
    have hdy' : isDigit y' = false := by
      rcases hyy with ⟨-, h1⟩ | ⟨-, h1, h2⟩
      · rw [h1]
        exact hdy
      · simp only [isDigit, decide_eq_false_iff_not]
        omega
    subst ex ez
    refine ⟨a, b, c, x', y', z', hab, hbc, hc, ?_, ?_, ?_, hdx, hdy', hdz⟩ <;>
      rw [List.getElem?_append_left (by omega)] <;> assumption

theorem genPasswordLength_digits_not_contiguous_witness :
    (8 ≤ 8 ∧ 8 ≤ 36) ∧ rngMax.InRange ∧
      genPasswordLength rngMax 1 buffer38 8 3 () =
        .ok (0, [55, 90, 121, 120, 119, 118, 57, 56, 33, 0] ++ List.replicate 28 255, ()) ∧
      ∃ a b c x y z : Nat, a < b ∧ b < c ∧ c < 8 ∧
        ([55, 90, 121, 120, 119, 118, 57, 56, 33, 0] ++ List.replicate 28 255)[a]? = some x ∧
        ([55, 90, 121, 120, 119, 118, 57, 56, 33, 0] ++ List.replicate 28 255)[b]? = some y ∧
        ([55, 90, 121, 120, 119, 118, 57, 56, 33, 0] ++ List.replicate 28 255)[c]? = some z ∧
        isDigit x = true ∧ isDigit y = false ∧ isDigit z = true :=
  ⟨by decide, rngMax_inRange, rfl,
    genPasswordLength_digits_not_contiguous rngMax 1 buffer38 8 3 () () _ (by decide)
      rngMax_inRange rfl⟩

/-- C3: `genPasswordLength` returns a non-zero status exactly when `baseLength` is outside
8 to 36. On such a length it returns 1 whatever the fuel, with the caller's buffer unchanged
and the state of the random source (any random source) unchanged, so no draw was made. On a
length from 8 to 36 every run that returns has status 0. -/
theorem genPasswordLength_fails_iff_out_of_range {σ : Type} (rng : Csprng σ) (fuel : Nat)
    (password : List Nat) (baseLength : Nat) (flags : Int) (s : σ) :
    ((baseLength < 8 ∨ baseLength > 36) →
      genPasswordLength rng fuel password baseLength flags s = .ok (1, password, s)) ∧
    (∀ st out s', genPasswordLength rng fuel password baseLength flags s = .ok (st, out, s') →
      (st ≠ 0 ↔ (baseLength < 8 ∨ baseLength > 36))) := by
  refine ⟨genPasswordLength_invalid rng fuel password baseLength flags s, ?_⟩
  intro st out s' h
  by_cases hn : baseLength < 8 ∨ baseLength > 36
  · rw [genPasswordLength_invalid rng fuel password baseLength flags s hn] at h
    simp only [Except.ok.injEq, Prod.mk.injEq] at h
    constructor
    · intro _
      exact hn
    · intro _
      omega
  · have := genPasswordLength_status_zero rng fuel password baseLength flags s s' st out hn h
    constructor
    · intro h0
      exact absurd this h0
    · intro h1
      exact absurd h1 hn

theorem genPasswordLength_fails_iff_out_of_range_witness :
    ((7 < 8 ∨ 7 > 36) ∧ genPasswordLength rngMax 0 buffer38 7 0 () = .ok (1, buffer38, ())) ∧
    ((37 < 8 ∨ 37 > 36) ∧ genPasswordLength rngMax 0 buffer38 37 3 () = .ok (1, buffer38, ())) ∧
    (genPasswordLength rngZero 1 buffer38 8 0 () =
        .ok (0, [57, 97, 122, 121, 120, 119, 118, 48, 0] ++ List.replicate 29 255, ()) ∧
      ((0 : Nat) ≠ 0 ↔ (8 < 8 ∨ 8 > 36))) ∧
    (genPasswordLength rngZero 1 buffer38 36 1 () =
        .ok (0, [49, 65, 122, 121, 120, 119, 118, 117, 116, 115, 114, 113, 112, 111, 110, 109,
          108, 107, 106, 105, 104, 103, 102, 101, 100, 99, 98, 48, 57, 56, 55, 54, 53, 52, 51,
          50, 0, 255], ()) ∧
      ((0 : Nat) ≠ 0 ↔ (36 < 8 ∨ 36 > 36))) :=
  ⟨⟨by decide, (genPasswordLength_fails_iff_out_of_range rngMax 0 buffer38 7 0 ()).1
      (by decide)⟩,
    ⟨by decide, (genPasswordLength_fails_iff_out_of_range rngMax 0 buffer38 37 3 ()).1
      (by decide)⟩,
    ⟨rfl, (genPasswordLength_fails_iff_out_of_range rngZero 1 buffer38 8 0 ()).2 0 _ () rfl⟩,
    ⟨rfl, (genPasswordLength_fails_iff_out_of_range rngZero 1 buffer38 36 1 ()).2 0 _ () rfl⟩⟩

/-- C4: with `d = (10 * n + n / 8) / 36`, for a base length `n` from 8 to 35 the output of
a successful run under an in-range random source has `d` or `d + 1` digits among its first
`n` characters and letters in the remaining places; for `n = 10` both 2 and 3 digits occur
for suitable in-range sources; for `n = 36` it has 10 digits and 26 letters, each digit once
and, after lowering the case, each letter once. -/
theorem genPasswordLength_digit_letter_counts :
    (∀ (σ : Type) (rng : Csprng σ) (fuel : Nat) (password : List Nat) (n : Nat) (flags : Int)
      (s s' : σ) (out : List Nat), rng.InRange → 8 ≤ n → n ≤ 35 →
      genPasswordLength rng fuel password n flags s = .ok (0, out, s') →
      ((out.take n).countP isDigit = (10 * n + n / 8) / 36 ∨
        (out.take n).countP isDigit = (10 * n + n / 8) / 36 + 1) ∧
      (out.take n).countP isLetter = n - (out.take n).countP isDigit) ∧
    (∃ (rng : Csprng Unit) (out : List Nat), rng.InRange ∧
      genPasswordLength rng 1 buffer38 10 0 () = .ok (0, out, ()) ∧
      (out.take 10).countP isDigit = 2) ∧
    (∃ (rng : Csprng Unit) (out : List Nat), rng.InRange ∧
      genPasswordLength rng 1 buffer38 10 0 () = .ok (0, out, ()) ∧
      (out.take 10).countP isDigit = 3) ∧
    (∀ (σ : Type) (rng : Csprng σ) (fuel : Nat) (password : List Nat) (flags : Int)
      (s s' : σ) (out : List Nat), rng.InRange →
      genPasswordLength rng fuel password 36 flags s = .ok (0, out, s') →
      (out.take 36).countP isDigit = 10 ∧ (out.take 36).countP isLetter = 26 ∧
      (∀ c, c ∈ DIGITS → List.count c (out.take 36) = 1) ∧
      (∀ c, c ∈ LETTERS → List.count c ((out.take 36).map toLower) = 1)) := by
  refine ⟨?_, ⟨rngZero, _, rngZero_inRange, rfl, by decide⟩,
    ⟨rngMax, _, rngMax_inRange, rfl, by decide⟩, ?_⟩
  · intro σ rng fuel password n flags s s' out hr h8 h35 h
    obtain ⟨-, l, d, P, P', rest, tail, hP, -, hld, -, hd, rfl, hlen', hu0, hu1, -, -⟩ :=
      genPasswordLength_shape rng hr fuel password n flags s s' 0 _ ⟨h8, by omega⟩ h
    rw [List.take_left' hlen']
    obtain ⟨hcd, hcl⟩ := flagged_counts hP (map_toLower_flagged flags hP hu0 hu1)
    rw [hcd, hcl]
    clear hu0 hu1 h hP hcd hcl
    omega
  · intro σ rng fuel password flags s s' out hr h
    obtain ⟨-, l, d, P, P', rest, tail, hP, -, hld, -, hd, rfl, hlen', hu0, hu1, -, -⟩ :=
      genPasswordLength_shape rng hr fuel password 36 flags s s' 0 _ (by decide) h
    rw [List.take_left' hlen']
    have hmap := map_toLower_flagged flags hP hu0 hu1
    obtain ⟨hcd, hcl⟩ := flagged_counts hP hmap
    have hd10 : d = 10 := by
      clear hu0 hu1 h hP hcd hcl hmap
      omega
    have hl26 : l = 26 := by
      clear hu0 hu1 h hP hcd hcl hmap
      omega
    subst hd10 hl26
    refine ⟨hcd, hcl, ?_, ?_⟩
    · intro c hc
      have := hP.full c (List.mem_append_right _ hc)
      rw [← hmap, List.count_eq_countP, List.countP_map] at this
      rw [List.count_eq_countP, ← this]
      congr 1
      funext x
      exact (beq_toLower_digit c x hc).symm
    · intro c hc
      rw [hmap]
      exact hP.full c (List.mem_append_left _ hc)

theorem genPasswordLength_digit_letter_counts_witness :
    ((rngZero.InRange ∧ 8 ≤ 10 ∧ 10 ≤ 35 ∧
        genPasswordLength rngZero 1 buffer38 10 0 () =
          .ok (0, [57, 97, 122, 121, 120, 119, 118, 117, 116, 48, 0] ++ List.replicate 27 255,
            ())) ∧
      ((List.take 10 ([57, 97, 122, 121, 120, 119, 118, 117, 116, 48, 0] ++
            List.replicate 27 255)).countP isDigit = (10 * 10 + 10 / 8) / 36 ∨
        (List.take 10 ([57, 97, 122, 121, 120, 119, 118, 117, 116, 48, 0] ++
            List.replicate 27 255)).countP isDigit = (10 * 10 + 10 / 8) / 36 + 1) ∧
      (List.take 10 ([57, 97, 122, 121, 120, 119, 118, 117, 116, 48, 0] ++
          List.replicate 27 255)).countP isLetter =
        10 - (List.take 10 ([57, 97, 122, 121, 120, 119, 118, 117, 116, 48, 0] ++
          List.replicate 27 255)).countP isDigit) ∧
    ((rngMax.InRange ∧ genPasswordLength rngMax 1 buffer38 36 3 () = .ok (0, sample36, ())) ∧
      (sample36.take 36).countP isDigit = 10 ∧ (sample36.take 36).countP isLetter = 26 ∧
      (∀ c, c ∈ DIGITS → List.count c (sample36.take 36) = 1) ∧
      (∀ c, c ∈ LETTERS → List.count c ((sample36.take 36).map toLower) = 1)) :=
  ⟨⟨⟨rngZero_inRange, by decide, by decide, rfl⟩,
      genPasswordLength_digit_letter_counts.1 Unit rngZero 1 buffer38 10 0 () () _
        rngZero_inRange (by decide) (by decide) rfl⟩,
    ⟨⟨rngMax_inRange, rfl⟩,
      genPasswordLength_digit_letter_counts.2.2.2 Unit rngMax 1 buffer38 3 () () _
        rngMax_inRange rfl⟩⟩

/-- C5: for a base length from 8 to 36 and an in-range random source, the output of a
successful run with the uppercase flag has exactly one uppercase character among its first
`baseLength` characters; only digits stand before it, and only lowercase letters and digits
after it. Without the flag the first `baseLength` characters are lowercase letters and
digits, none of them uppercase. -/
theorem genPasswordLength_uppercase_leftmost_letter {σ : Type} (rng : Csprng σ) (fuel : Nat)
    (password : List Nat) (baseLength : Nat) (flags : Int) (s s' : σ) (out : List Nat)
    (hn : 8 ≤ baseLength ∧ baseLength ≤ 36) (hr : rng.InRange)
    (h : genPasswordLength rng fuel password baseLength flags s = .ok (0, out, s')) :
    (Int.land flags GEN_PASSWORD_FLAG_NEED_UPPERCASE ≠ 0 →
      (out.take baseLength).countP isUpper = 1 ∧
      ∃ k, k < baseLength ∧ (∃ c, out[k]? = some c ∧ isUpper c = true) ∧
        (∀ i, i < k → ∃ c, out[i]? = some c ∧ isDigit c = true) ∧
        (∀ i, k < i → i < baseLength →
          ∃ c, out[i]? = some c ∧ (isLower c = true ∨ isDigit c = true))) ∧
    (Int.land flags GEN_PASSWORD_FLAG_NEED_UPPERCASE = 0 →
      (out.take baseLength).countP isUpper = 0 ∧
      ∀ i, i < baseLength → ∃ c, out[i]? = some c ∧ (isLower c = true ∨ isDigit c = true)) := by
  obtain ⟨-, l, d, P, P', rest, tail, hP, hlen, -, -, -, rfl, hlen', hu0, hu1, -, -⟩ :=
    genPasswordLength_shape rng hr fuel password baseLength flags s s' 0 out hn h
  rw [List.take_left' hlen']
  have hnoUpper : ∀ c ∈ P, isUpper c = false := by
    intro c hc
    rcases hP.lower_or_digit c hc with h1 | h1
    · simp only [isLower, decide_eq_true_eq] at h1
      simp only [isUpper, decide_eq_false_iff_not]
      omega
    · simp only [isDigit, decide_eq_true_eq] at h1
      simp only [isUpper, decide_eq_false_iff_not]
      omega
  have hcount0 : P.countP isUpper = 0 := by
    rw [List.countP_eq_zero]
    intro c hc
    rw [hnoUpper c hc]
    decide
  have hget : ∀ i, i < baseLength → ∃ c, P[i]? = some c ∧ c ∈ P := by
    intro i hi
    have hi' : i < P.length := by omega
    exact ⟨P[i], List.getElem?_eq_getElem hi', List.getElem_mem _⟩
  constructor
  · intro hf
    obtain ⟨k, c, hc, hc97, hbefore, rfl⟩ := hu1 hf
    have hk : k < P.length := (List.getElem?_eq_some.1 hc).1
    have hcP : c ∈ P := List.mem_iff_getElem?.2 ⟨k, hc⟩
    have hc122 : c ≤ 122 := by
      rcases hP.lower_or_digit c hcP with h1 | h1
      · simp only [isLower, decide_eq_true_eq] at h1
        omega
      · simp only [isDigit, decide_eq_true_eq] at h1
        omega
    have hup : isUpper (c - 32) = true := by
      simp only [isUpper, decide_eq_true_eq]
      omega
    refine ⟨?_, k, by omega, ⟨c - 32, ?_, hup⟩, ?_, ?_⟩
    · rw [List.countP_set _ _ _ _ hk, hcount0, hup, hnoUpper _ (List.getElem_mem _)]
      rfl
    · rw [List.getElem?_append_left (by rw [List.length_set]; exact hk),
        List.getElem?_set_self hk]
    · intro i hi
      obtain ⟨x, hx, hx97⟩ := hbefore i hi
      refine ⟨x, ?_, ?_⟩
      · rw [List.getElem?_append_left (by rw [List.length_set]; omega),
          List.getElem?_set_ne (by omega), hx]
      · rcases hP.lower_or_digit x (List.mem_iff_getElem?.2 ⟨i, hx⟩) with h1 | h1
        · simp only [isLower, decide_eq_true_eq] at h1
          omega
        · exact h1
    · intro i hki hi
      obtain ⟨x, hx, hxP⟩ := hget i hi
      refine ⟨x, ?_, hP.lower_or_digit x hxP⟩
      rw [List.getElem?_append_left (by rw [List.length_set]; omega),
        List.getElem?_set_ne (by omega), hx]
  · intro hf
    have := hu0 hf
    subst this
    refine ⟨hcount0, fun i hi => ?_⟩
    obtain ⟨x, hx, hxP⟩ := hget i hi
    refine ⟨x, ?_, hP.lower_or_digit x hxP⟩
    rw [List.getElem?_append_left (by omega), hx]

theorem genPasswordLength_uppercase_leftmost_letter_witness :
    (((8 ≤ 36 ∧ 36 ≤ 36) ∧ rngMax.InRange ∧
        genPasswordLength rngMax 1 buffer38 36 3 () = .ok (0, sample36, ()) ∧
        Int.land 3 GEN_PASSWORD_FLAG_NEED_UPPERCASE ≠ 0) ∧
      ((sample36.take 36).countP isUpper = 1 ∧
        ∃ k, k < 36 ∧ (∃ c, sample36[k]? = some c ∧ isUpper c = true) ∧
          (∀ i, i < k → ∃ c, sample36[i]? = some c ∧ isDigit c = true) ∧
          (∀ i, k < i → i < 36 →
            ∃ c, sample36[i]? = some c ∧ (isLower c = true ∨ isDigit c = true)))) ∧
    (((8 ≤ 8 ∧ 8 ≤ 36) ∧ rngZero.InRange ∧
        genPasswordLength rngZero 1 buffer38 8 2 () =
          .ok (0, [57, 97, 122, 121, 120, 119, 118, 48, 33, 0] ++ List.replicate 28 255, ()) ∧
        Int.land 2 GEN_PASSWORD_FLAG_NEED_UPPERCASE = 0) ∧
      ((([57, 97, 122, 121, 120, 119, 118, 48, 33, 0] ++
          List.replicate 28 255).take 8).countP isUpper = 0 ∧
        ∀ i, i < 8 → ∃ c,
          ([57, 97, 122, 121, 120, 119, 118, 48, 33, 0] ++ List.replicate 28 255)[i]?
            = some c ∧ (isLower c = true ∨ isDigit c = true))) :=
  ⟨⟨⟨by decide, rngMax_inRange, rfl, by decide⟩,
      (genPasswordLength_uppercase_leftmost_letter rngMax 1 buffer38 36 3 () () _ (by decide)
        rngMax_inRange rfl).1 (by decide)⟩,
    ⟨⟨by decide, rngZero_inRange, rfl, by decide⟩,
      (genPasswordLength_uppercase_leftmost_letter rngZero 1 buffer38 8 2 () () _ (by decide)
        rngZero_inRange rfl).2 (by decide)⟩⟩

/-- C6: for a base length from 8 to 36 and an in-range random source, the output of a
successful run with the symbol flag is a string of length `baseLength + 1` ending in `!`
(character 33), terminated at index `baseLength + 1`, whose first `baseLength` characters are
those of the same run with the symbol flag cleared (which succeeds as well); without the
flag the output is a string of length `baseLength`. -/
theorem genPasswordLength_symbol_appended {σ : Type} (rng : Csprng σ) (fuel : Nat)
    (password : List Nat) (baseLength : Nat) (flags : Int) (s s' : σ) (out : List Nat)
    (hn : 8 ≤ baseLength ∧ baseLength ≤ 36) (hr : rng.InRange)
    (h : genPasswordLength rng fuel password baseLength flags s = .ok (0, out, s')) :
    (Int.land flags GEN_PASSWORD_FLAG_NEED_SYMBOL ≠ 0 →
      cStringLength out = baseLength + 1 ∧ out[baseLength]? = some 33 ∧
      out[baseLength + 1]? = some 0 ∧
      ∀ flags0 : Int, Int.land flags0 GEN_PASSWORD_FLAG_NEED_SYMBOL = 0 →
        (Int.land flags0 GEN_PASSWORD_FLAG_NEED_UPPERCASE ≠ 0 ↔
          Int.land flags GEN_PASSWORD_FLAG_NEED_UPPERCASE ≠ 0) →
        ∃ out0, genPasswordLength rng fuel password baseLength flags0 s = .ok (0, out0, s') ∧
          out0.take baseLength = out.take baseLength) ∧
    (Int.land flags GEN_PASSWORD_FLAG_NEED_SYMBOL = 0 →
      cStringLength out = baseLength ∧ out[baseLength]? = some 0) := by
  have hn' : ¬ (baseLength < 8 ∨ baseLength > 36) := by omega
  obtain ⟨base, hbase, hflags⟩ :=
    (genPasswordLength_flags_iff rng fuel password baseLength flags s s' 0 out hn').1 h
  obtain ⟨-, l, d, P, P', rest, tail, hP, hlen, -, -, -, rfl, hlen', hu0, hu1, hs0, hs1⟩ :=
    genPasswordLength_shape rng hr fuel password baseLength flags s s' 0 out hn h
  have hmap := map_toLower_flagged flags hP hu0 hu1
  have hnz : ∀ c ∈ P', c ≠ 0 := by
    intro c hc h0
    subst h0
    have hmem : toLower 0 ∈ P := by
      rw [← hmap]
      exact List.mem_map_of_mem _ hc
    rcases hP.lower_or_digit _ hmem with h1 | h1
    · revert h1
      decide
    · revert h1
      decide
  constructor
  · intro hf
    obtain ⟨r1, rest', -, rfl⟩ := hs1 hf
    refine ⟨?_, ?_, ?_, ?_⟩
    · have e : P' ++ 33 :: 0 :: rest' = (P' ++ [33]) ++ 0 :: rest' := by simp
      rw [e, cStringLength_append, List.length_append, hlen']
      · rfl
      · intro c hc
        rcases List.mem_append.1 hc with hc | hc
        · exact hnz c hc
        · rw [List.mem_singleton] at hc
          omega
    · rw [List.getElem?_append_right (by omega), hlen', Nat.sub_self, List.getElem?_cons_zero]
    · rw [List.getElem?_append_right (by omega), hlen']
      have : baseLength + 1 - baseLength = 1 := by omega
      rw [this]
      simp
    · intro flags0 h0 hu
      obtain ⟨out0, ho, htake⟩ :=
        applyFlags_without_symbol baseLength flags flags0 base _ hflags h0 hu
      exact ⟨out0,
        (genPasswordLength_flags_iff rng fuel password baseLength flags0 s s' 0 out0 hn').2
          ⟨base, hbase, ho⟩, htake⟩
  · intro hf
    have := hs0 hf
    subst this
    refine ⟨?_, ?_⟩
    · rw [cStringLength_append _ _ hnz, hlen']
    · rw [List.getElem?_append_right (by omega), hlen', Nat.sub_self, List.getElem?_cons_zero]

theorem genPasswordLength_symbol_appended_witness :
    (((8 ≤ 9 ∧ 9 ≤ 36) ∧ rngZero.InRange ∧
        genPasswordLength rngZero 1 buffer38 9 2 () =
          .ok (0, [57, 97, 122, 121, 120, 119, 118, 117, 48, 33, 0] ++ List.replicate 27 255,
            ()) ∧
        Int.land 2 GEN_PASSWORD_FLAG_NEED_SYMBOL ≠ 0) ∧
      cStringLength ([57, 97, 122, 121, 120, 119, 118, 117, 48, 33, 0] ++ List.replicate 27 255)
        = 9 + 1 ∧
      ([57, 97, 122, 121, 120, 119, 118, 117, 48, 33, 0] ++ List.replicate 27 255)[9]?
        = some 33 ∧
      ([57, 97, 122, 121, 120, 119, 118, 117, 48, 33, 0] ++ List.replicate 27 255)[9 + 1]?
        = some 0 ∧
      ∀ flags0 : Int, Int.land flags0 GEN_PASSWORD_FLAG_NEED_SYMBOL = 0 →
        (Int.land flags0 GEN_PASSWORD_FLAG_NEED_UPPERCASE ≠ 0 ↔
          Int.land 2 GEN_PASSWORD_FLAG_NEED_UPPERCASE ≠ 0) →
        ∃ out0, genPasswordLength rngZero 1 buffer38 9 flags0 () = .ok (0, out0, ()) ∧
          out0.take 9 =
            ([57, 97, 122, 121, 120, 119, 118, 117, 48, 33, 0] ++
              List.replicate 27 255).take 9) ∧
    (((8 ≤ 9 ∧ 9 ≤ 36) ∧ rngZero.InRange ∧
        genPasswordLength rngZero 1 buffer38 9 1 () =
          .ok (0, [57, 65, 122, 121, 120, 119, 118, 117, 48, 0] ++ List.replicate 28 255, ()) ∧
        Int.land 1 GEN_PASSWORD_FLAG_NEED_SYMBOL = 0) ∧
      cStringLength ([57, 65, 122, 121, 120, 119, 118, 117, 48, 0] ++ List.replicate 28 255)
        = 9 ∧
      ([57, 65, 122, 121, 120, 119, 118, 117, 48, 0] ++ List.replicate 28 255)[9]?
        = some 0) :=
  ⟨⟨⟨by decide, rngZero_inRange, rfl, by decide⟩,
      (genPasswordLength_symbol_appended rngZero 1 buffer38 9 2 () () _ (by decide)
        rngZero_inRange rfl).1 (by decide)⟩,
    ⟨⟨by decide, rngZero_inRange, rfl, by decide⟩,
      (genPasswordLength_symbol_appended rngZero 1 buffer38 9 1 () () _ (by decide)
        rngZero_inRange rfl).2 (by decide)⟩⟩

/-- C7: in default mode `genPassword_getBaseLength` returns, for a bit strength up to 128,
the length that is paired with the smallest of the targets 48, 58, 67, 76, 80, 96, 100, 128
that is at least the bit strength (10, 12, 14, 16, 17, 21, 22, 30 in this order), and 0 for a
bit strength above 128. -/
theorem genPassword_getBaseLength_smallest_target (b : Nat) :
    genPassword_getBaseLength b = .ok (specBaseLength b) ∧
    (b ≤ 48 → genPassword_getBaseLength b = .ok 10) ∧
    (48 < b ∧ b ≤ 58 → genPassword_getBaseLength b = .ok 12) ∧
    (58 < b ∧ b ≤ 67 → genPassword_getBaseLength b = .ok 14) ∧
    (67 < b ∧ b ≤ 76 → genPassword_getBaseLength b = .ok 16) ∧
    (76 < b ∧ b ≤ 80 → genPassword_getBaseLength b = .ok 17) ∧
    (80 < b ∧ b ≤ 96 → genPassword_getBaseLength b = .ok 21) ∧
    (96 < b ∧ b ≤ 100 → genPassword_getBaseLength b = .ok 22) ∧
    (100 < b ∧ b ≤ 128 → genPassword_getBaseLength b = .ok 30) ∧
    (128 < b → genPassword_getBaseLength b = .ok 0) := by
  refine ⟨getBaseLength_eq_spec b, ?_, ?_, ?_, ?_, ?_, ?_, ?_, ?_, getBaseLength_above b⟩
  · intro h
    interval_cases b <;> rfl
  · rintro ⟨h1, h2⟩
    interval_cases b <;> rfl
  · rintro ⟨h1, h2⟩
    interval_cases b <;> rfl
  · rintro ⟨h1, h2⟩
    interval_cases b <;> rfl
  · rintro ⟨h1, h2⟩
    interval_cases b <;> rfl
  · rintro ⟨h1, h2⟩
    interval_cases b <;> rfl
  · rintro ⟨h1, h2⟩
    interval_cases b <;> rfl
  · rintro ⟨h1, h2⟩
    interval_cases b <;> rfl

theorem genPassword_getBaseLength_smallest_target_witness :
    ((48 < 58 ∧ 58 ≤ 58) ∧ genPassword_getBaseLength 58 = .ok 12) ∧
    ((48 < 49 ∧ 49 ≤ 58) ∧ genPassword_getBaseLength 49 = .ok 12) ∧
    (0 ≤ 48 ∧ genPassword_getBaseLength 0 = .ok 10) ∧
    (128 < 129 ∧ genPassword_getBaseLength 129 = .ok 0) :=
  ⟨⟨by decide, (genPassword_getBaseLength_smallest_target 58).2.2.1 (by decide)⟩,
    ⟨by decide, (genPassword_getBaseLength_smallest_target 49).2.2.1 (by decide)⟩,
    ⟨by decide, (genPassword_getBaseLength_smallest_target 0).2.1 (by decide)⟩,
    ⟨by decide, (genPassword_getBaseLength_smallest_target 129).2.2.2.2.2.2.2.2.2 (by decide)⟩⟩

/-- C8: in default mode, for every requested bit strength up to 128 the strength of the
length that `genPassword_getBaseLength` selects is at least the request; the documented
targets 48, 56, 64, 72, 80, 96, 100, 128 select the lengths 10, 12, 14, 16, 17, 21, 22, 30,
whose strengths are the documented 48.7441, 58.1764, 67.2404, 76.1313, 80.4366, 96.9324,
100.8567, 128.0527 to four decimal places and at least the target. -/
theorem genPassword_guaranteed_minimum_strength :
    (∀ b : Nat, b ≤ 128 → ∃ len x, genPassword_getBaseLength b = .ok len ∧
      genPassword_getBitStrength len = .ok x ∧ (b : ℚ) ≤ doubleValue x) ∧
    (∀ (t len : Nat) (doc : ℚ), (t, len, doc) ∈ documentedTargets →
      genPassword_getBaseLength t = .ok len ∧
      ∃ x, genPassword_getBitStrength len = .ok x ∧ (t : ℚ) ≤ doubleValue x ∧
        |doubleValue x - doc| ≤ 1 / 20000) := by
  constructor
  · intro b hb
    interval_cases b <;> exact ⟨_, _, rfl, rfl, le_doubleValue (by decide)⟩
  · intro t len doc hmem
    have hall := documentedTargets_hold
    rw [List.forall_iff_forall_mem] at hall
    exact hall (t, len, doc) hmem

theorem genPassword_guaranteed_minimum_strength_witness :
    (56 ≤ 128 ∧ ∃ len x, genPassword_getBaseLength 56 = .ok len ∧
      genPassword_getBitStrength len = .ok x ∧ ((56 : Nat) : ℚ) ≤ doubleValue x) ∧
    (128 ≤ 128 ∧ ∃ len x, genPassword_getBaseLength 128 = .ok len ∧
      genPassword_getBitStrength len = .ok x ∧ ((128 : Nat) : ℚ) ≤ doubleValue x) :=
  ⟨⟨by decide, genPassword_guaranteed_minimum_strength.1 56 (by decide)⟩,
    ⟨by decide, genPassword_guaranteed_minimum_strength.1 128 (by decide)⟩⟩

/-- C9: `genPassword_getBitStrength` returns 0 for a base length outside 8 to 36; for a
base length from 8 to 36 it returns entry `baseLength - 8` of the table of 29 entries, a
positive value; and over 8 to 36 the returned value does not decrease when the base length
grows. -/
theorem genPassword_getBitStrength_table_lookup :
    (∀ n : Nat, n < 8 ∨ n > 36 → genPassword_getBitStrength n = .ok 0) ∧
    doubleValue 0 = 0 ∧
    genPassword_getBitStrength.BIT_STRENGTHS.length = 29 ∧
    (∀ n : Nat, 8 ≤ n ∧ n ≤ 36 → ∃ x, genPassword_getBitStrength n = .ok x ∧
      genPassword_getBitStrength.BIT_STRENGTHS[n - 8]? = some x ∧ 0 < doubleValue x) ∧
    (∀ (m n x y : Nat), 8 ≤ m → m ≤ n → n ≤ 36 → genPassword_getBitStrength m = .ok x →
      genPassword_getBitStrength n = .ok y → doubleValue x ≤ doubleValue y) := by
  refine ⟨?_, by simp [doubleValue], rfl, ?_, ?_⟩
  · intro n hn
    unfold genPassword_getBitStrength
    rw [if_pos hn]
  · intro n hn
    obtain ⟨x, h1, h2, h3⟩ := getBitStrength_in_range n hn
    refine ⟨x, h1, h2, ?_⟩
    unfold doubleValue
    have : (0 : ℚ) < (x : ℚ) := by exact_mod_cast h3
    positivity
  · intro m n x y h8 hmn h36 hx hy
    obtain ⟨x', h1, h2, -⟩ := getBitStrength_in_range m ⟨h8, by omega⟩
    obtain ⟨y', h3, h4, -⟩ := getBitStrength_in_range n ⟨by omega, h36⟩
    rw [h1] at hx
    rw [h3] at hy
    cases hx
    cases hy
    apply doubleValue_mono
    rcases Nat.eq_or_lt_of_le hmn with rfl | hlt
    · rw [h2] at h4
      cases h4
      exact Nat.le_refl _
    · obtain ⟨hi, hxi⟩ := List.getElem?_eq_some.1 h2
      obtain ⟨hj, hyj⟩ := List.getElem?_eq_some.1 h4
      rw [← hxi, ← hyj]
      exact List.pairwise_iff_getElem.1 BIT_STRENGTHS_sorted (m - 8) (n - 8) hi hj (by omega)

theorem genPassword_getBitStrength_table_lookup_witness :
    ((7 < 8 ∨ 7 > 36) ∧ genPassword_getBitStrength 7 = .ok 0) ∧
    ((37 < 8 ∨ 37 > 36) ∧ genPassword_getBitStrength 37 = .ok 0) ∧
    ((8 ≤ 10 ∧ 10 ≤ 36) ∧ ∃ x, genPassword_getBitStrength 10 = .ok x ∧
      genPassword_getBitStrength.BIT_STRENGTHS[10 - 8]? = some x ∧ 0 < doubleValue x) ∧
    ((8 ≤ 35 ∧ 35 ≤ 36 ∧ 36 ≤ 36 ∧
        genPassword_getBitStrength 35 = .ok 621921565611412352 ∧
        genPassword_getBitStrength 36 = .ok 621921566276004096) ∧
      doubleValue 621921565611412352 ≤ doubleValue 621921566276004096) :=
  ⟨⟨by decide, genPassword_getBitStrength_table_lookup.1 7 (by decide)⟩,
    ⟨by decide, genPassword_getBitStrength_table_lookup.1 37 (by decide)⟩,
    ⟨by decide, genPassword_getBitStrength_table_lookup.2.2.2.1 10 (by decide)⟩,
    ⟨⟨by decide, by decide, by decide, rfl, rfl⟩,
      genPassword_getBitStrength_table_lookup.2.2.2.2 35 36 _ _ (by decide) (by decide)
        (by decide) rfl rfl⟩⟩

/-- C11, as stated, fails: in default mode `genPassword_getBaseLength 138` is not 30. -/
theorem genPassword_getBaseLength_138_not_capped :
    genPassword_getBaseLength 138 ≠ .ok 30 := by
  rw [getBaseLength_above 138 (by decide)]
  intro h
  cases h

/-- C11, amended: in default mode `genPassword_getBaseLength 138` returns 0: a request
above the largest target, 128, is rejected, as is every request above 128; the length 30 of
the 128-target is returned for the requests from 101 to 128. -/
theorem genPassword_getBaseLength_138_rejected :
    genPassword_getBaseLength 138 = .ok 0 ∧
    (∀ b, 128 < b → genPassword_getBaseLength b = .ok 0) ∧
    (∀ b, 100 < b ∧ b ≤ 128 → genPassword_getBaseLength b = .ok 30) := by
  refine ⟨rfl, getBaseLength_above, ?_⟩
  rintro b ⟨h1, h2⟩
  interval_cases b <;> rfl

theorem genPassword_getBaseLength_138_rejected_witness :
    (128 < 129 ∧ genPassword_getBaseLength 129 = .ok 0) ∧
    ((100 < 128 ∧ 128 ≤ 128) ∧ genPassword_getBaseLength 128 = .ok 30) :=
  ⟨⟨by decide, genPassword_getBaseLength_138_rejected.2.1 129 (by decide)⟩,
    ⟨by decide, genPassword_getBaseLength_138_rejected.2.2 128 (by decide)⟩⟩

/-- C13: for every base length `n` from 8 to 35, with `a` and `b` the two summands of the
key space, `EXTRA_LETTER[n-8] * (a + b) = a * (EXTRA_CHAR_MAX[n-8] + 1)`; the split takes
the letter branch exactly when the answer to `randomUint32(EXTRA_CHAR_MAX[n-8])` is below
`EXTRA_LETTER[n-8]`, which holds for `EXTRA_LETTER[n-8]` of the `EXTRA_CHAR_MAX[n-8] + 1`
possible answers, a share of exactly `a / (a + b)`. -/
theorem extra_tables_exact_probability (n : Nat) (hn : 8 ≤ n ∧ n ≤ 35) :
    ∃ letter charMax : Nat,
      EXTRA_LETTER[n - 8]? = some letter ∧ EXTRA_CHAR_MAX[n - 8]? = some charMax ∧
      letter * (keySpaceLetter n ((10 * n + n / 8) / 36) +
          keySpaceDigit n ((10 * n + n / 8) / 36)) =
        keySpaceLetter n ((10 * n + n / 8) / 36) * (charMax + 1) ∧
      0 < keySpaceLetter n ((10 * n + n / 8) / 36) +
          keySpaceDigit n ((10 * n + n / 8) / 36) ∧
      ((List.range (charMax + 1)).filter (fun r => decide (r < letter))).length = letter ∧
      (letter : ℚ) / (charMax + 1) =
        (keySpaceLetter n ((10 * n + n / 8) / 36) : ℚ) /
          (keySpaceLetter n ((10 * n + n / 8) / 36) +
            keySpaceDigit n ((10 * n + n / 8) / 36)) ∧
      ∀ (σ : Type) (rng : Csprng σ) (s : σ),
        splitCounts rng n s =
          if (rng.randomUint32 charMax s).1 < letter then
            .ok (n - (10 * n + n / 8) / 36 - 1 + 1, (10 * n + n / 8) / 36,
              (rng.randomUint32 charMax s).2)
          else
            .ok (n - (10 * n + n / 8) / 36 - 1, (10 * n + n / 8) / 36 + 1,
              (rng.randomUint32 charMax s).2) := by
  obtain ⟨letter, charMax, h1, h2, h3, h4, h5⟩ := extra_tables_entries n hn
  refine ⟨letter, charMax, h1, h2, h3, h4, filter_lt_length (by omega), ?_, ?_⟩
  · rw [div_eq_div_iff (by positivity) (by exact_mod_cast Nat.ne_of_gt h4)]
    exact_mod_cast h3
  · intro σ rng s
    exact splitCounts_eq rng n s letter charMax (by omega) h1 h2

theorem extra_tables_exact_probability_witness :
    (8 ≤ 10 ∧ 10 ≤ 35) ∧ ∃ letter charMax : Nat,
      EXTRA_LETTER[10 - 8]? = some letter ∧ EXTRA_CHAR_MAX[10 - 8]? = some charMax ∧
      letter * (keySpaceLetter 10 ((10 * 10 + 10 / 8) / 36) +
          keySpaceDigit 10 ((10 * 10 + 10 / 8) / 36)) =
        keySpaceLetter 10 ((10 * 10 + 10 / 8) / 36) * (charMax + 1) ∧
      0 < keySpaceLetter 10 ((10 * 10 + 10 / 8) / 36) +
          keySpaceDigit 10 ((10 * 10 + 10 / 8) / 36) ∧
      ((List.range (charMax + 1)).filter (fun r => decide (r < letter))).length = letter ∧
      (letter : ℚ) / (charMax + 1) =
        (keySpaceLetter 10 ((10 * 10 + 10 / 8) / 36) : ℚ) /
          (keySpaceLetter 10 ((10 * 10 + 10 / 8) / 36) +
            keySpaceDigit 10 ((10 * 10 + 10 / 8) / 36)) ∧
      ∀ (σ : Type) (rng : Csprng σ) (s : σ),
        splitCounts rng 10 s =
          if (rng.randomUint32 charMax s).1 < letter then
            .ok (10 - (10 * 10 + 10 / 8) / 36 - 1 + 1, (10 * 10 + 10 / 8) / 36,
              (rng.randomUint32 charMax s).2)
          else
            .ok (10 - (10 * 10 + 10 / 8) / 36 - 1, (10 * 10 + 10 / 8) / 36 + 1,
              (rng.randomUint32 charMax s).2) :=
  ⟨by decide, extra_tables_exact_probability 10 (by decide)⟩

/-- C12: for every base length `n` from 8 to 36 the value `s` returned by
`genPassword_getBitStrength` satisfies `2 ^ floor s ≤ keySpace n < 2 ^ (floor s + 1)`, and
both `s` and the binary logarithm of the key space lie within half a unit of the fourth
decimal place of the strength listed in the documentation. -/
theorem bitStrength_is_log2_keySpace (n : Nat) (hn : 8 ≤ n ∧ n ≤ 36) :
    ∃ x doc : Nat, genPassword_getBitStrength n = .ok x ∧
      documentedStrengths[n - 8]? = some doc ∧
      2 ^ ⌊doubleValue x⌋₊ ≤ keySpace n ∧ keySpace n < 2 ^ (⌊doubleValue x⌋₊ + 1) ∧
      |doubleValue x - (doc : ℚ) / 10000| ≤ 1 / 20000 ∧
      |Real.logb 2 (keySpace n : ℝ) - (doc : ℝ) / 10000| ≤ 1 / 20000 := by
  obtain ⟨x, doc, h1, h2, h3, h4, h5, h6, h7, h8, h9⟩ := bitStrength_entries n hn
  refine ⟨x, doc, h1, h2, ?_, ?_, doubleValue_close x doc h7 h8, ?_⟩
  · rw [floor_doubleValue]
    exact h3
  · rw [floor_doubleValue]
    exact h4
  · have := logb_two_close (keySpace n) (2 * doc) (by omega) h5 h6
    have e : ((2 * doc : ℕ) : ℝ) / 20000 = (doc : ℝ) / 10000 := by
      push_cast
      ring
    rw [e] at this
    exact this

theorem bitStrength_is_log2_keySpace_witness :
    (8 ≤ 36 ∧ 36 ≤ 36) ∧
    ∃ x doc : Nat, genPassword_getBitStrength 36 = .ok x ∧
      documentedStrengths[36 - 8]? = some doc ∧
      2 ^ ⌊doubleValue x⌋₊ ≤ keySpace 36 ∧ keySpace 36 < 2 ^ (⌊doubleValue x⌋₊ + 1) ∧
      |doubleValue x - (doc : ℚ) / 10000| ≤ 1 / 20000 ∧
      |Real.logb 2 (keySpace 36 : ℝ) - (doc : ℝ) / 10000| ≤ 1 / 20000 :=
  ⟨by decide, bitStrength_is_log2_keySpace 36 (by decide)⟩

/-- C18: among the base lengths 8 to 36 the digit count `(10 * n + n / 8) / 36` differs
from `10 * n / 36` exactly at 25 and 32, where it is one larger; at these two lengths the
key space with the larger digit count exceeds the key space with the smaller one, by 0.7617
percent at 25 and by 0.8001 percent at 32, to four decimal places. -/
theorem biased_digit_count_key_space :
    (∀ n, 8 ≤ n → n ≤ 36 → ((10 * n + n / 8) / 36 ≠ 10 * n / 36 ↔ (n = 25 ∨ n = 32))) ∧
    (10 * 25 + 25 / 8) / 36 = 10 * 25 / 36 + 1 ∧
    (10 * 32 + 32 / 8) / 36 = 10 * 32 / 36 + 1 ∧
    keySpaceLetter 25 (10 * 25 / 36) + keySpaceDigit 25 (10 * 25 / 36) < keySpace 25 ∧
    keySpaceLetter 32 (10 * 32 / 36) + keySpaceDigit 32 (10 * 32 / 36) < keySpace 32 ∧
    (76165 : ℚ) / 100000 ≤ ((keySpace 25 : ℚ) /
      (keySpaceLetter 25 (10 * 25 / 36) + keySpaceDigit 25 (10 * 25 / 36) : ℕ) - 1) * 100 ∧
    ((keySpace 25 : ℚ) /
      (keySpaceLetter 25 (10 * 25 / 36) + keySpaceDigit 25 (10 * 25 / 36) : ℕ) - 1) * 100
        < 76175 / 100000 ∧
    (80005 : ℚ) / 100000 ≤ ((keySpace 32 : ℚ) /
      (keySpaceLetter 32 (10 * 32 / 36) + keySpaceDigit 32 (10 * 32 / 36) : ℕ) - 1) * 100 ∧
    ((keySpace 32 : ℚ) /
      (keySpaceLetter 32 (10 * 32 / 36) + keySpaceDigit 32 (10 * 32 / 36) : ℕ) - 1) * 100
        < 80015 / 100000 := by
  have p25 := percent_bounds (keySpace 25)
    (keySpaceLetter 25 (10 * 25 / 36) + keySpaceDigit 25 (10 * 25 / 36)) 76165 76175
    (by decide) (by decide) (by decide)
  have p32 := percent_bounds (keySpace 32)
    (keySpaceLetter 32 (10 * 32 / 36) + keySpaceDigit 32 (10 * 32 / 36)) 80005 80015
    (by decide) (by decide) (by decide)
  refine ⟨?_, by decide, by decide, by decide, by decide, p25.1, p25.2, p32.1, p32.2⟩
  intro n h8 h36
  interval_cases n <;> decide

theorem biased_digit_count_key_space_witness :
    (8 ≤ 25 ∧ 25 ≤ 36) ∧
      ((10 * 25 + 25 / 8) / 36 ≠ 10 * 25 / 36 ↔ (25 = 25 ∨ 25 = 32)) :=
  ⟨by decide, biased_digit_count_key_space.1 25 (by decide) (by decide)⟩

/-- C15: for every base length `n` from 8 to 35, with `d = (10 * n + n / 8) / 36` and
`l = n - d - 1`, the values `x` and `y` that the code computes in 32-bit and 64-bit unsigned
arithmetic under `GEN_PASSWORD_CALCULATE_PROBABILITY` are the values of the formulas in
unbounded arithmetic, no intermediate quantity reaching the width of its variable or going
below zero, and `x * (EXTRA_CHAR_MAX[n-8] + 1) = EXTRA_LETTER[n-8] * (x + y)`: the test
`randomUint32(x + y - 1) < x` of that mode takes the letter branch for the same share of
answers as the test on the tables. -/
theorem calculateProbability_agrees_with_tables (n : Nat) (hn : 8 ≤ n ∧ n ≤ 35) :
    ∃ d l letter charMax x y : Nat,
      d = (10 * n + n / 8) / 36 ∧ l = n - d - 1 ∧
      EXTRA_LETTER[n - 8]? = some letter ∧ EXTRA_CHAR_MAX[n - 8]? = some charMax ∧
      calculateProbability n d l = (x, y) ∧ exactProbability n = (x, y) ∧
      (permCount n d < 2 ^ 64 ∧ d.factorial < 2 ^ 32 ∧ chooseCount n d < 2 ^ 32 ∧
        chooseCount n d * (n - d) < 2 ^ 32 ∧ l + 2 ≤ chooseCount n d ∧
        l + 1 ≤ chooseCount n d * (n - d) / (d + 1) ∧ l ≤ 26 ∧ d ≤ 10 ∧
        x < 2 ^ 32 ∧ y < 2 ^ 32 ∧ 1 ≤ x + y ∧ x + y < 2 ^ 32) ∧
      x * (charMax + 1) = letter * (x + y) ∧
      (x : ℚ) / ((x + y : ℕ) : ℚ) = (letter : ℚ) / ((charMax + 1 : ℕ) : ℚ) ∧
      ((List.range (x + y - 1 + 1)).filter (fun r => decide (r < x))).length = x ∧
      (∀ (σ : Type) (rng : Csprng σ) (s : σ),
        splitCountsCalculated rng n s =
          if (rng.randomUint32 (x + y - 1) s).1 < x then
            .ok (l + 1, d, (rng.randomUint32 (x + y - 1) s).2)
          else
            .ok (l, d + 1, (rng.randomUint32 (x + y - 1) s).2)) ∧
      (∀ (σ : Type) (rng : Csprng σ) (s : σ),
        splitCounts rng n s =
          if (rng.randomUint32 charMax s).1 < letter then
            .ok (l + 1, d, (rng.randomUint32 charMax s).2)
          else
            .ok (l, d + 1, (rng.randomUint32 charMax s).2)) := by
  obtain ⟨d, l, letter, charMax, x, y, hd, hl, h1, h2, h3, h4, h5, h6, h7⟩ :=
    calculateProbability_entries n hn
  refine ⟨d, l, letter, charMax, x, y, hd, hl, h1, h2, h3, h4, h5, h6, ?_, ?_, ?_, ?_⟩
  · have hxy : 0 < x + y := by omega
    have hc : ((charMax + 1 : ℕ) : ℚ) ≠ 0 := Nat.cast_ne_zero.2 (Nat.succ_ne_zero charMax)
    have hq : ((x + y : ℕ) : ℚ) ≠ 0 := Nat.cast_ne_zero.2 (Nat.ne_of_gt hxy)
    rw [div_eq_div_iff hq hc]
    exact_mod_cast h6
  · exact filter_lt_length (by omega)
  · intro σ rng s
    subst hd hl
    exact splitCountsCalculated_eq rng n s x y (by omega) h3 h7
  · intro σ rng s
    subst hd hl
    exact splitCounts_eq rng n s letter charMax (by omega) h1 h2

theorem calculateProbability_agrees_with_tables_witness :
    (8 ≤ 35 ∧ 35 ≤ 35) ∧ ∃ d l letter charMax x y : Nat,
      d = (10 * 35 + 35 / 8) / 36 ∧ l = 35 - d - 1 ∧
      EXTRA_LETTER[35 - 8]? = some letter ∧ EXTRA_CHAR_MAX[35 - 8]? = some charMax ∧
      calculateProbability 35 d l = (x, y) ∧ exactProbability 35 = (x, y) ∧
      (permCount 35 d < 2 ^ 64 ∧ d.factorial < 2 ^ 32 ∧ chooseCount 35 d < 2 ^ 32 ∧
        chooseCount 35 d * (35 - d) < 2 ^ 32 ∧ l + 2 ≤ chooseCount 35 d ∧
        l + 1 ≤ chooseCount 35 d * (35 - d) / (d + 1) ∧ l ≤ 26 ∧ d ≤ 10 ∧
        x < 2 ^ 32 ∧ y < 2 ^ 32 ∧ 1 ≤ x + y ∧ x + y < 2 ^ 32) ∧
      x * (charMax + 1) = letter * (x + y) ∧
      (x : ℚ) / ((x + y : ℕ) : ℚ) = (letter : ℚ) / ((charMax + 1 : ℕ) : ℚ) ∧
      ((List.range (x + y - 1 + 1)).filter (fun r => decide (r < x))).length = x ∧
      (∀ (σ : Type) (rng : Csprng σ) (s : σ),
        splitCountsCalculated rng 35 s =
          if (rng.randomUint32 (x + y - 1) s).1 < x then
            .ok (l + 1, d, (rng.randomUint32 (x + y - 1) s).2)
          else
            .ok (l, d + 1, (rng.randomUint32 (x + y - 1) s).2)) ∧
      (∀ (σ : Type) (rng : Csprng σ) (s : σ),
        splitCounts rng 35 s =
          if (rng.randomUint32 charMax s).1 < letter then
            .ok (l + 1, d, (rng.randomUint32 charMax s).2)
          else
            .ok (l, d + 1, (rng.randomUint32 charMax s).2)) :=
  ⟨by decide, calculateProbability_agrees_with_tables 35 (by decide)⟩

/-- C16: in full-range mode `genPassword_getBaseLength` returns, for a bit strength up to
138, the smallest base length from 8 to 36 whose strength `genPassword_getBitStrength` is at
least the bit strength, and 0 for a bit strength above 138. -/
theorem genPassword_getBaseLength_fullRange_smallest :
    (∀ b : Nat, b ≤ 138 → ∃ n x : Nat,
      genPassword_getBaseLength_fullRange b = .ok n ∧ 8 ≤ n ∧ n ≤ 36 ∧
      genPassword_getBitStrength n = .ok x ∧ (b : ℚ) ≤ doubleValue x ∧
      ∀ m y : Nat, 8 ≤ m → m < n → genPassword_getBitStrength m = .ok y →
        doubleValue y < (b : ℚ)) ∧
    (∀ b : Nat, 138 < b → genPassword_getBaseLength_fullRange b = .ok 0) := by
  refine ⟨?_, getBaseLength_fullRange_above⟩
  intro b hb
  obtain ⟨n, x, h1, h2, h3, h4, h5, h6⟩ := getBaseLength_fullRange_entries b hb
  refine ⟨n, x, h1, h2, h3, h4, le_doubleValue h5, ?_⟩
  intro m y hm8 hmn hy
  rcases h6 with h6 | ⟨z, hz, hzb⟩
  · omega
  · have := getBitStrength_mono m (n - 1) y z hm8 (by omega) (by omega) hy hz
    exact doubleValue_lt (by omega)

theorem genPassword_getBaseLength_fullRange_smallest_witness :
    (137 ≤ 138 ∧ ∃ n x : Nat,
      genPassword_getBaseLength_fullRange 137 = .ok n ∧ 8 ≤ n ∧ n ≤ 36 ∧
      genPassword_getBitStrength n = .ok x ∧ ((137 : ℕ) : ℚ) ≤ doubleValue x ∧
      ∀ m y : Nat, 8 ≤ m → m < n → genPassword_getBitStrength m = .ok y →
        doubleValue y < ((137 : ℕ) : ℚ)) ∧
    (138 < 139 ∧ genPassword_getBaseLength_fullRange 139 = .ok 0) :=
  ⟨⟨by decide, genPassword_getBaseLength_fullRange_smallest.1 137 (by decide)⟩,
    ⟨by decide, genPassword_getBaseLength_fullRange_smallest.2 139 (by decide)⟩⟩

/-- C17: for a string of length `n ≥ 1` over lowercase letters and digits that has `k`
digits (`k ≥ 1`, and `k = 0` as well), the contiguity scan returns a value of `digitsInARow` that equals `k` exactly when
the string is a block of `k` digits between two stretches without digits; and the running
count (the scan of the first `m` characters, for some `m` from 1 to `n`) reaches `k` exactly
when the final value is `k`. -/
theorem countDigitsInARow_exact (P tail : List Nat) (n k : Nat) (hP : P.length = n)
    (hn : 1 ≤ n) (hchars : ∀ c ∈ P, isLower c = true ∨ isDigit c = true)
    (hk : P.countP isDigit = k) :
    ∃ d, countDigitsInARow n (P ++ tail) = .ok d ∧
      (d = k ↔ ∃ A D B : List Nat, P = A ++ D ++ B ∧ D.length = k ∧
        (∀ c ∈ D, isDigit c = true) ∧ (∀ c ∈ A, isDigit c = false) ∧
        (∀ c ∈ B, isDigit c = false)) ∧
      ((∃ m, 1 ≤ m ∧ m ≤ n ∧ countDigitsInARow m (P ++ tail) = .ok k) ↔ d = k) := by
  have hcnt : P.countP (fun c => decide (c ≤ 57)) = k := by
    rw [← hk]
    apply List.countP_congr
    intro c hc
    have := (isDigit_iff_le c (hchars c hc)).1
    simp only [decide_eq_true_eq]
    exact this.symm
  obtain ⟨d, hd⟩ := countDigitsInARow_total n P tail hP hn
  obtain ⟨hle, hlt⟩ := countDigitsInARow_le n P tail hP hn d hd
  have hiff : d = k ↔ ¬ SplitDigits P := by
    constructor
    · intro hdk hs
      have := hlt hs
      omega
    · intro hs
      rw [countDigitsInARow_spec n P tail hP hn hs d hd, hcnt]
  refine ⟨d, hd, ?_, ?_⟩
  · rw [hiff]
    constructor
    · intro hs
      obtain ⟨A, D, B, rfl, hA, hD, hB⟩ := block_of_not_split P hs
      refine ⟨A, D, B, rfl, ?_, ?_, ?_, ?_⟩
      · rw [← hcnt, countP_block A D B hA hD hB]
      · intro c hc
        exact (isDigit_iff_le c (hchars c (by simp [hc]))).1.2 (hD c hc)
      · intro c hc
        exact (isDigit_iff_le c (hchars c (by simp [hc]))).2.2 (hA c hc)
      · intro c hc
        exact (isDigit_iff_le c (hchars c (by simp [hc]))).2.2 (hB c hc)
    · rintro ⟨A, D, B, rfl, -, hD, hA, hB⟩
      apply not_split_of_block
      · intro c hc
        exact (isDigit_iff_le c (hchars c (by simp [hc]))).2.1 (hA c hc)
      · intro c hc
        exact (isDigit_iff_le c (hchars c (by simp [hc]))).1.1 (hD c hc)
      · intro c hc
        exact (isDigit_iff_le c (hchars c (by simp [hc]))).2.1 (hB c hc)
  · constructor
    · rintro ⟨m, hm1, hmn, hm⟩
      rw [hiff]
      have hsplit : P ++ tail = P.take m ++ (P.drop m ++ tail) := by
        rw [← List.append_assoc, List.take_append_drop]
      have hlen : (P.take m).length = m := by
        rw [List.length_take]
        omega
      rw [hsplit] at hm
      obtain ⟨hle', hlt'⟩ := countDigitsInARow_le m (P.take m) _ hlen hm1 k hm
      have hsum : (P.take m).countP (fun c => decide (c ≤ 57)) +
          (P.drop m).countP (fun c => decide (c ≤ 57)) = k := by
        rw [← List.countP_append, List.take_append_drop, hcnt]
      have hdrop : (P.drop m).countP (fun c => decide (c ≤ 57)) = 0 := by omega
      rw [List.countP_eq_zero] at hdrop
      intro hs
      apply Nat.lt_irrefl k
      have hlt'' := hlt'
      have : SplitDigits (P.take m) := by
        rw [splitDigits_take_iff]
        obtain ⟨a, b, c, x, y, z, hab, hbc, hx, hy, hz, h1, h2, h3⟩ := hs
        refine ⟨a, b, c, x, y, z, hab, hbc, ?_, hx, hy, hz, h1, h2, h3⟩
        by_contra hcm
        have hzmem : z ∈ P.drop m := by
          apply List.mem_iff_getElem?.2
          refine ⟨c - m, ?_⟩
          rw [List.getElem?_drop]
          have : m + (c - m) = c := by omega
          rw [this, hz]
        exact hdrop z hzmem (by simpa using h3)
      have := hlt'' this
      omega
    · intro hdk
      exact ⟨n, hn, le_rfl, by rw [← hdk]; exact hd⟩

theorem countDigitsInARow_exact_witness :
    ([97, 49, 50, 98].length = 4 ∧ 1 ≤ 4 ∧
      (∀ c ∈ [97, 49, 50, 98], isLower c = true ∨ isDigit c = true) ∧
      List.countP isDigit [97, 49, 50, 98] = 2) ∧
    ∃ d, countDigitsInARow 4 ([97, 49, 50, 98] ++ [0]) = .ok d ∧
      (d = 2 ↔ ∃ A D B : List Nat, [97, 49, 50, 98] = A ++ D ++ B ∧ D.length = 2 ∧
        (∀ c ∈ D, isDigit c = true) ∧ (∀ c ∈ A, isDigit c = false) ∧
        (∀ c ∈ B, isDigit c = false)) ∧
      ((∃ m, 1 ≤ m ∧ m ≤ 4 ∧ countDigitsInARow m ([97, 49, 50, 98] ++ [0]) = .ok 2) ↔
        d = 2) :=
  ⟨⟨rfl, by decide, by decide, by decide⟩,
    countDigitsInARow_exact [97, 49, 50, 98] [0] 4 2 rfl (by decide) (by decide)
      (by decide)⟩

/-- C20: no out-of-bounds access. For every base length in 8..36, every in-range random
source and a buffer with room for `baseLength + 2` characters (38 suffice): the split
returns counts with `1 ≤ numLetters ≤ 26`, `2 ≤ numDigits ≤ 10` and
`numLetters + numDigits = baseLength`, whatever the tie-break answer; the table index
`baseLength - 8` lies inside both tables whenever they are read (`baseLength ≠ 36`); both
drawing loops return, and the bounds they pass to `randomUint8` (recorded by the logging
source) are `25 - i` for `i < numLetters`
and `9 - i` for `i < numDigits`, with `i ≤ 25` and `i ≤ 9` so nothing wraps below zero; and
the whole run never ends in an out-of-bounds access, for any number of shuffle passes. -/
theorem genPasswordLength_no_out_of_bounds {σ : Type} (rng : Csprng σ) (hr : rng.InRange)
    (n : Nat) (hn : 8 ≤ n ∧ n ≤ 36) (password : List Nat) (hlen : n + 2 ≤ password.length)
    (flags : Int) (s : σ) :
    ∃ (l d : Nat) (s1 s2 s3 : σ) (pw1 pw2 pool1 pool2 : List Nat),
      splitCounts rng n s = .ok (l, d, s1) ∧
      (1 ≤ l ∧ l ≤ 26) ∧ (2 ≤ d ∧ d ≤ 10) ∧ l + d = n ∧
      (n ≠ 36 → n - 8 < EXTRA_CHAR_MAX.length ∧ n - 8 < EXTRA_LETTER.length) ∧
      drawChars rng 0 l 0 LETTERS 25 password s1 = .ok (pw1, pool1, s2) ∧
      drawChars (logged rng) 0 l 0 LETTERS 25 password (s1, []) =
        .ok (pw1, pool1, (s2, (List.range l).map (fun i => 25 - i))) ∧
      (∀ i, i < l → i ≤ 25) ∧
      drawChars rng l d 0 DIGITS 9 pw1 s2 = .ok (pw2, pool2, s3) ∧
      drawChars (logged rng) l d 0 DIGITS 9 pw1 (s2, []) =
        .ok (pw2, pool2, (s3, (List.range d).map (fun i => 9 - i))) ∧
      (∀ i, i < d → i ≤ 9) ∧
      ∀ fuel, genPasswordLength rng fuel password n flags s ≠ .error .outOfBounds := by
  obtain ⟨l, d, s1, h1⟩ := splitCounts_total rng n s hn
  obtain ⟨hsum, hl1, hl2, hd1, hd2, -⟩ := splitCounts_spec rng n s s1 l d hn h1
  obtain ⟨pw1, pool1, s2, h2, hlen1, hlog1⟩ := drawChars_logged rng hr 0 l 0 LETTERS 25
    password s1 (by omega) (by decide) (by decide) (by omega)
  obtain ⟨pw2, pool2, s3, h3, -, hlog2⟩ := drawChars_logged rng hr l d 0 DIGITS 9 pw1
    s2 (by omega) (by decide) (by decide) (by omega)
  have ht : n ≠ 36 → n - 8 < 28 := fun h36 => by omega
  refine ⟨l, d, s1, s2, s3, pw1, pw2, pool1, pool2, h1, ⟨hl1, hl2⟩, ⟨hd1, hd2⟩, hsum,
    fun h36 => ⟨ht h36, ht h36⟩, h2, hlog1 [], fun i hi => by omega, h3, hlog2 [], fun i hi => by omega, ?_⟩
  intro fuel hfault
  rcases genPasswordLength_no_fault rng hr fuel password n flags s hlen with h | ⟨r, h⟩
  · rw [h] at hfault
    cases hfault
  · rw [h] at hfault
    cases hfault

theorem genPasswordLength_no_out_of_bounds_witness :
    rngMax.InRange ∧ (8 ≤ 20 ∧ 20 ≤ 36) ∧ 20 + 2 ≤ buffer38.length ∧
      ∃ (l d : Nat) (s1 s2 s3 : Unit) (pw1 pw2 pool1 pool2 : List Nat),
        splitCounts rngMax 20 () = .ok (l, d, s1) ∧
        (1 ≤ l ∧ l ≤ 26) ∧ (2 ≤ d ∧ d ≤ 10) ∧ l + d = 20 ∧
        (20 ≠ 36 → 20 - 8 < EXTRA_CHAR_MAX.length ∧ 20 - 8 < EXTRA_LETTER.length) ∧
        drawChars rngMax 0 l 0 LETTERS 25 buffer38 s1 = .ok (pw1, pool1, s2) ∧
        drawChars (logged rngMax) 0 l 0 LETTERS 25 buffer38 (s1, []) =
          .ok (pw1, pool1, (s2, (List.range l).map (fun i => 25 - i))) ∧
        (∀ i, i < l → i ≤ 25) ∧
        drawChars rngMax l d 0 DIGITS 9 pw1 s2 = .ok (pw2, pool2, s3) ∧
        drawChars (logged rngMax) l d 0 DIGITS 9 pw1 (s2, []) =
          .ok (pw2, pool2, (s3, (List.range d).map (fun i => 9 - i))) ∧
        (∀ i, i < d → i ≤ 9) ∧
        ∀ fuel, genPasswordLength rngMax fuel buffer38 20 3 () ≠ .error .outOfBounds :=
  ⟨rngMax_inRange, by decide, by decide,
    genPasswordLength_no_out_of_bounds rngMax rngMax_inRange 20 (by decide) buffer38
      (by decide) 3 ()⟩

/-- C14 (the code is biased): for every base length `n` in 8..36, each of the `n ^ n`
sequences of swap partners makes one shuffle pass over the positions `0 .. n - 1` return one
of their `n !` permutations, yet no number `c` is the count of sequences producing each
permutation: the pass draws every partner from the whole range, and `n !` does not divide
`n ^ n`. -/
theorem shufflePass_not_uniform (n : Nat) (hn : 8 ≤ n ∧ n ≤ 36) :
    (∀ f : Fin n → Fin n,
      shufflePass rngScript n n 0 (List.range n) (List.ofFn fun i => (f i).val) =
        .ok (passResult n (List.ofFn fun i => (f i).val), []) ∧
      passResult n (List.ofFn fun i => (f i).val) ∈ (List.range n).permutations) ∧
    Fintype.card (Fin n → Fin n) = n ^ n ∧
    (List.range n).permutations.toFinset.card = Nat.factorial n ∧
    ¬ ∃ c, ∀ p ∈ (List.range n).permutations,
      (Finset.univ.filter fun f : Fin n → Fin n =>
        passResult n (List.ofFn fun i => (f i).val) = p).card = c := by
  have hpass : ∀ f : Fin n → Fin n,
      shufflePass rngScript n n 0 (List.range n) (List.ofFn fun i => (f i).val) =
        .ok (passResult n (List.ofFn fun i => (f i).val), []) ∧
      passResult n (List.ofFn fun i => (f i).val) ∈ (List.range n).permutations := by
    intro f
    refine shufflePass_positions n ⟨by omega, by omega⟩ _ (List.length_ofFn _) ?_
    intro j hj
    obtain ⟨i, rfl⟩ := (List.mem_ofFn _ _).1 hj
    exact (f i).isLt
  have hcard : Fintype.card (Fin n → Fin n) = n ^ n := by
    rw [Fintype.card_fun, Fintype.card_fin]
  have hperms : (List.range n).permutations.toFinset.card = Nat.factorial n := by
    rw [List.toFinset_card_of_nodup (List.nodup_permutations _ (List.nodup_range n)),
      List.length_permutations, List.length_range]
  refine ⟨hpass, hcard, hperms, ?_⟩
  rintro ⟨c, hc⟩
  have hsum := Finset.card_eq_sum_card_fiberwise
    (s := (Finset.univ : Finset (Fin n → Fin n)))
    (t := (List.range n).permutations.toFinset)
    (f := fun f => passResult n (List.ofFn fun i => (f i).val))
    (fun f _ => List.mem_toFinset.2 (hpass f).2)
  rw [Finset.sum_congr rfl (fun p hp => hc p (List.mem_toFinset.1 hp)), Finset.sum_const,
    Finset.card_univ, hcard, hperms, smul_eq_mul] at hsum
  exact factorial_mul_ne_pow n c (by omega) hsum.symm

theorem shufflePass_not_uniform_witness :
    (8 ≤ 8 ∧ 8 ≤ 36) ∧
      ¬ ∃ c, ∀ p ∈ (List.range 8).permutations,
        (Finset.univ.filter fun f : Fin 8 → Fin 8 =>
          passResult 8 (List.ofFn fun i => (f i).val) = p).card = c :=
  ⟨by decide, (shufflePass_not_uniform 8 (by decide)).2.2.2⟩

/-- C19: every admissible password is producible. For every base length `n` in 8..36 and a
buffer with room for the terminator: (1) for every admissible string `t` (length `n` over
`a`..`z` and `0`..`9`, no repeated character, digit count `d` or, below 36, `d + 1` with
`d = (10 n + n / 8) / 36`, digits not in one contiguous block) the in-range replaying source
has a list of answers for which `genPasswordLength` with `flags = 0` returns success after a
single shuffle pass with exactly `t`, terminated, in the buffer; (2) the strings that a run
with `flags = 0` can leave in the buffer, over all in-range random sources, are exactly the
admissible ones; (3) their number is the key space of the comment in the source. -/
theorem genPasswordLength_every_admissible_producible (n : Nat) (hn : 8 ≤ n ∧ n ≤ 36)
    (password : List Nat) (hbuf : n + 1 ≤ password.length) :
    rngScript.InRange ∧
    (∀ t : List Nat, Admissible n t → ∃ script : List Nat,
      genPasswordLength rngScript 1 password n 0 script =
        .ok (0, t ++ 0 :: password.drop (n + 1), [])) ∧
    {t : List Nat | t.length = n ∧ ∃ (σ : Type) (rng : Csprng σ), rng.InRange ∧
        ∃ (fuel : Nat) (s s' : σ) (tail : List Nat),
          genPasswordLength rng fuel password n 0 s = .ok (0, t ++ tail, s')} =
      {t : List Nat | Admissible n t} ∧
    Set.ncard {t : List Nat | Admissible n t} = keySpace n := by
  refine ⟨rngScript_inRange, ?_, possible_outputs_eq n hn password hbuf, ncard_admissible n hn⟩
  rintro t ⟨hlen, hchars, hnd, hcount, hsplit⟩
  exact genPasswordLength_produces n hn t hlen hchars hnd hcount
    ((splitDigits_iff_isDigit t hchars).2 hsplit) password hbuf

theorem genPasswordLength_every_admissible_producible_witness :
    (8 ≤ 8 ∧ 8 ≤ 36) ∧ 8 + 1 ≤ buffer38.length ∧
      Admissible 8 [97, 49, 98, 50, 99, 100, 101, 102] ∧
      (∃ script : List Nat,
        genPasswordLength rngScript 1 buffer38 8 0 script =
          .ok (0, [97, 49, 98, 50, 99, 100, 101, 102] ++ 0 :: buffer38.drop (8 + 1), [])) ∧
      Set.ncard {t : List Nat | Admissible 8 t} = keySpace 8 :=
  have hadm : Admissible 8 [97, 49, 98, 50, 99, 100, 101, 102] :=
    ⟨rfl, by decide, by decide, Or.inl (by decide),
      1, 2, 3, 49, 98, 50, by decide, by decide, rfl, rfl, rfl, rfl, rfl, rfl⟩
  ⟨by decide, by decide, hadm,
    (genPasswordLength_every_admissible_producible 8 (by decide) buffer38 (by decide)).2.1 _
      hadm,
    (genPasswordLength_every_admissible_producible 8 (by decide) buffer38 (by decide)).2.2.2⟩

end GenPw
